import Mathlib

/-!
# AudioMixingWithSIMD: block mixing engine and streaming WAV codec

A shallow embedding of `AudioMixPrototype.cpp` and `WaveFile.cpp`.

* `float` is IEEE-754 binary32 (`F32`): one quiet NaN, signed infinities, and
  finite values `(-1)^neg * m * 2^e`; every arithmetic operation computes the
  exact result and rounds it once, to nearest, ties to even.
* A buffer (`float*`, `uint8_t*`) is a `List`; an access outside the list is
  undefined behaviour in the source and `none` here.
* `uint32_t` values are naturals reduced modulo `2^32` where the source can wrap.
-/

set_option maxRecDepth 100000

namespace AudioMix

/-! ## IEEE-754 binary32 -/

/-- IEEE-754 binary32 datum. `fin neg m e` is the finite value `(-1)^neg * m * 2^e`;
the canonical encodings have `m < 2^24`, `-149 ≤ e ≤ 104` and `e = -149` when `m < 2^23`. -/
inductive F32 where
  | nan : F32
  | inf (neg : Bool) : F32
  | fin (neg : Bool) (m : Nat) (e : Int) : F32
  deriving DecidableEq, Repr

/-- Number of binary digits of `n`, by repeated halving (`fuel` bounds the recursion). -/
def bitLenAux : Nat → Nat → Nat
  | 0, _ => 0
  | fuel + 1, n => if n = 0 then 0 else bitLenAux fuel (n / 2) + 1

/-- Number of binary digits of `n` (`0` for `0`). -/
def bitLen (n : Nat) : Nat := bitLenAux n n

/-- Integer with the given sign and magnitude. -/
def signed (neg : Bool) (n : Nat) : Int := if neg then -(n : Int) else (n : Int)

namespace F32

/-- Smallest exponent of a binary32 significand unit (subnormal quantum `2^-149`). -/
def eMin : Int := -149

/-- Largest exponent of a 24-bit significand (`(2^24 - 1) * 2^104` is `FLT_MAX`). -/
def eMax : Int := 104

/-- Round the exact value `(-1)^neg * M * 2^E` to binary32, to nearest, ties to even. -/
def round (neg : Bool) (M : Nat) (E : Int) : F32 :=
  if M = 0 then fin neg 0 eMin
  else
    let e : Int := max (E + (bitLen M : Int) - 24) eMin
    if e ≤ E then
      if eMax < e then inf neg else fin neg (M * 2 ^ (E - e).toNat) e
    else
      let k : Nat := (e - E).toNat
      let q : Nat := M / 2 ^ k
      let r : Nat := M % 2 ^ k
      let half : Nat := 2 ^ (k - 1)
      let m : Nat := if half < r ∨ (half = r ∧ q % 2 = 1) then q + 1 else q
      if m = 2 ^ 24 then
        (if eMax < e + 1 then inf neg else fin neg (2 ^ 23) (e + 1))
      else
        (if eMax < e then inf neg else fin neg m e)

/-- Positive zero, `0.0f`. -/
def zero : F32 := fin false 0 eMin

/-- Negative zero, `-0.0f`. -/
def negZero : F32 := fin true 0 eMin

/-- Binary32 addition. -/
def add : F32 → F32 → F32
  | nan, _ => nan
  | inf _, nan => nan
  | inf s, inf t => if s = t then inf s else nan
  | inf s, fin _ _ _ => inf s
  | fin _ _ _, nan => nan
  | fin _ _ _, inf t => inf t
  | fin s m e, fin t n f =>
      let g : Int := min e f
      let v : Int := signed s (m * 2 ^ (e - g).toNat) + signed t (n * 2 ^ (f - g).toNat)
      if v = 0 then fin (s && t) 0 eMin else round (decide (v < 0)) v.natAbs g

/-- Binary32 multiplication. -/
def mul : F32 → F32 → F32
  | nan, _ => nan
  | inf _, nan => nan
  | inf s, inf t => inf (xor s t)
  | inf s, fin t n _ => if n = 0 then nan else inf (xor s t)
  | fin _ _ _, nan => nan
  | fin s m _, inf t => if m = 0 then nan else inf (xor s t)
  | fin s m e, fin t n f => round (xor s t) (m * n) (e + f)

/-- Fused multiply-add `a * b + c` with a single rounding (one lane of `_mm_fmadd_ps`). -/
def fma : F32 → F32 → F32 → F32
  | nan, _, _ => nan
  | inf _, nan, _ => nan
  | inf _, inf _, nan => nan
  | inf s, inf t, inf u => if xor s t = u then inf u else nan
  | inf s, inf t, fin _ _ _ => inf (xor s t)
  | inf _, fin _ _ _, nan => nan
  | inf s, fin t n _, inf u => if n = 0 then nan else if xor s t = u then inf u else nan
  | inf s, fin t n _, fin _ _ _ => if n = 0 then nan else inf (xor s t)
  | fin _ _ _, nan, _ => nan
  | fin _ _ _, inf _, nan => nan
  | fin s m _, inf t, inf u => if m = 0 then nan else if xor s t = u then inf u else nan
  | fin s m _, inf t, fin _ _ _ => if m = 0 then nan else inf (xor s t)
  | fin _ _ _, fin _ _ _, nan => nan
  | fin _ _ _, fin _ _ _, inf u => inf u
  | fin s m e, fin t n f, fin u k g =>
      let h : Int := min (e + f) g
      let v : Int := signed (xor s t) (m * n * 2 ^ (e + f - h).toNat) + signed u (k * 2 ^ (g - h).toNat)
      if v = 0 then fin (xor s t && u) 0 eMin else round (decide (v < 0)) v.natAbs h

instance : Add F32 := ⟨add⟩
instance : Mul F32 := ⟨mul⟩

/-- Conversion of an integer to binary32 (`(float)x`). -/
def ofInt (i : Int) : F32 := round (decide (i < 0)) i.natAbs 0

/-- The binary32 value nearest to the rational `n / d` (`d > 0`), as a decimal literal
such as `0.3f` denotes: the quotient is taken with 64 extra bits and a sticky bit. -/
def ofRatio (n : Int) (d : Nat) : F32 :=
  let a : Nat := n.natAbs
  let sh : Nat := bitLen d + 64
  let q : Nat := a * 2 ^ sh / d
  let sticky : Nat := if a * 2 ^ sh % d = 0 then 0 else 1
  round (decide (n < 0)) (2 * q + sticky) (-(sh : Int) - 1)

/-- Canonical encodings: the values a binary32 variable can hold. -/
def WF : F32 → Prop
  | nan => True
  | inf _ => True
  | fin _ m e => m < 2 ^ 24 ∧ eMin ≤ e ∧ e ≤ eMax ∧ (m < 2 ^ 23 → e = eMin)

instance : DecidablePred WF := fun x =>
  match x with
  | nan => isTrue trivial
  | inf _ => isTrue trivial
  | fin _ m e => inferInstanceAs (Decidable (m < 2 ^ 24 ∧ eMin ≤ e ∧ e ≤ eMax ∧ (m < 2 ^ 23 → e = eMin)))

/-- A value that is neither NaN nor infinite. -/
def isFinite : F32 → Bool
  | fin _ _ _ => true
  | _ => false

/-- A zero of either sign. -/
def isZero : F32 → Bool
  | fin _ 0 _ => true
  | _ => false

/-- The rational number a finite value denotes (`0` for NaN and infinities). -/
def toRat : F32 → ℚ
  | fin s m e => (if s then -1 else 1) * (m : ℚ) * (2 : ℚ) ^ e
  | _ => 0

end F32

/-! ## Mixing engine (`AudioMixPrototype.cpp`) -/

/-- The loop `for (i = i0; i < bound; i += step) body`, threading the state through
`body`; `none` is an undefined access inside the body. `fuel` bounds the number of
iterations (`bound` suffices when `step ≥ 1`), and running out of it is `none`. -/
def forLoop {σ : Type} (bound step : Nat) (body : Nat → σ → Option σ) : Nat → Nat → σ → Option σ
  | 0, i, s => if i < bound then none else some s
  | fuel + 1, i, s =>
      if i < bound then (body i s).bind (forLoop bound step body fuel (i + step)) else some s

/-- The store `buf[k] = v`. -/
def store {α : Type} (buf : List α) (k : Nat) (v : α) : Option (List α) :=
  if k < buf.length then some (buf.set k v) else none

/-- The compound assignment `out[k] += v`. -/
def accum (out : List F32) (k : Nat) (v : F32) : Option (List F32) :=
  match out[k]? with
  | some o => some (out.set k (o + v))
  | none => none

/-- Clears a buffer to zero: `for (i = 0; i < blockSize; ++i) out[i] = 0`. -/
def clear_buffer (out : List F32) (blockSize : Nat) : Option (List F32) :=
  forLoop blockSize 1 (fun i out => store out i F32.zero) blockSize 0 out

/-- A SIMD register, lane by lane (`__m128`: 4 lanes, `__m256`: 8, `__m512`: 16). -/
abbrev Reg := Nat → F32

/-- All lanes zero. -/
def _mm_setzero_ps : Reg := fun _ => F32.zero

/-- Broadcast one value to all lanes. -/
def _mm_set1_ps (x : F32) : Reg := fun _ => x

/-- Aligned load of `lanes` consecutive floats starting at `mem[addr]`. -/
def _mm_load_ps (lanes : Nat) (mem : List F32) (addr : Nat) : Option Reg :=
  if addr + lanes ≤ mem.length then some (fun j => mem.getD (addr + j) F32.zero) else none

/-- Lane-wise fused multiply-add `a * b + c`. -/
def _mm_fmadd_ps (a b c : Reg) : Reg := fun j => F32.fma (a j) (b j) (c j)

/-- Lane `j` comes from `b` when bit `j` of `imm8` is set, else from `a`. -/
def _mm256_blend_ps (a b : Reg) (imm8 : Nat) : Reg :=
  fun j => if imm8 / 2 ^ j % 2 = 1 then b j else a j

/-- Lane `j` with bit `j` of `k` set receives the next contiguous element of `a`
(the element whose index is the number of set bits of `k` below `j`); the other lanes
come from `src`. -/
def _mm512_mask_expand_ps (src : Reg) (k : Nat) (a : Reg) : Reg :=
  fun j => if k / 2 ^ j % 2 = 1
    then a ((List.range j).filter (fun i => k / 2 ^ i % 2 = 1)).length
    else src j

/-- The build of `mix_buffer` chosen by `USING_FMADD_INTRIN`, `USING_256_BIT_REGS` and
`USING_512_BIT_REGS`: no intrinsics, or fused multiply-add on 128, 256 or 512-bit registers. -/
inductive Strategy where
  | scalar
  | simd128
  | simd256
  | simd512
  deriving DecidableEq, Repr

/-- The write-back loop `for (j = 0; j < lanes; j += 2)
\x7b out[leftIndex + j] += o[j]; out[rightIndex + j] += o[j + 1]; \x7d`. -/
def store_lanes (lanes : Nat) (o : Reg) (leftIndex rightIndex : Nat) (out : List F32) :
    Option (List F32) :=
  forLoop lanes 2
    (fun j out => (accum out (leftIndex + j) (o (0 + j))).bind
      fun out => accum out (rightIndex + j) (o (0 + j + 1)))
    lanes 0 out

/-- Mixes a stereo signal held in a block sized buffer into `out`, which accumulates
several inputs. `inp` is `const`; the result is the new content of `out`. -/
def mix_buffer (strategy : Strategy) (inp out : List F32) (leftGain rightGain : F32)
    (blockSize : Nat) : Option (List F32) :=
  match strategy with
  | .scalar =>
      forLoop (blockSize / 2) 1
        (fun i out =>
          let leftIndex := i * 2
          let rightIndex := i * 2 + 1
          (inp[leftIndex]?).bind fun l =>
          (accum out leftIndex (l * leftGain)).bind fun out =>
          (inp[rightIndex]?).bind fun r =>
          accum out rightIndex (r * rightGain))
        (blockSize / 2) 0 out
  | .simd128 =>
      forLoop (blockSize / 2) 2
        (fun i out =>
          let leftIndex := i * 2
          let rightIndex := i * 2 + 1
          let gainsTemp : List F32 := [leftGain, rightGain, leftGain, rightGain]
          let outputs_128 := _mm_setzero_ps
          (_mm_load_ps 4 inp leftIndex).bind fun inputs_128 =>
          (_mm_load_ps 4 gainsTemp 0).bind fun gains_128 =>
          let outputs_128 := _mm_fmadd_ps inputs_128 gains_128 outputs_128
          (accum out leftIndex (outputs_128 0)).bind fun out =>
          (accum out rightIndex (outputs_128 1)).bind fun out =>
          (accum out (leftIndex + 2) (outputs_128 2)).bind fun out =>
          accum out (rightIndex + 2) (outputs_128 3))
        (blockSize / 2) 0 out
  | .simd256 =>
      let gainsMask := 0xAA
      let gainsl_256 := _mm_set1_ps leftGain
      let gainsr_256 := _mm_set1_ps rightGain
      let gainsl_256 := _mm256_blend_ps gainsl_256 gainsr_256 gainsMask
      forLoop (blockSize / 2) 4
        (fun i out =>
          let leftIndex := i * 2
          let rightIndex := i * 2 + 1
          let outputs_256 := _mm_setzero_ps
          (_mm_load_ps 8 inp leftIndex).bind fun inputs_256 =>
          let outputs_256 := _mm_fmadd_ps inputs_256 gainsl_256 outputs_256
          store_lanes 8 outputs_256 leftIndex rightIndex out)
        (blockSize / 2) 0 out
  | .simd512 =>
      let gainsMask := 0xAAAA
      let gainsl_512 := _mm_set1_ps leftGain
      let gainsr_512 := _mm_set1_ps rightGain
      let gainsl_512 := _mm512_mask_expand_ps gainsl_512 gainsMask gainsr_512
      forLoop (blockSize / 2) 8
        (fun i out =>
          let leftIndex := i * 2
          let rightIndex := i * 2 + 1
          let outputs_512 := _mm_setzero_ps
          (_mm_load_ps 16 inp leftIndex).bind fun inputs_512 =>
          let outputs_512 := _mm_fmadd_ps inputs_512 gainsl_512 outputs_512
          store_lanes 16 outputs_512 leftIndex rightIndex out)
        (blockSize / 2) 0 out

/-! ## Streaming WAV codec (`WaveFile.h`, `WaveFile.cpp`)

Bytes are naturals below 256, a file is the list of its bytes, and a packed struct is
read and written through its little-endian object representation. -/

/-- Value of a little-endian byte string. -/
def leValue : List Nat → Nat
  | [] => 0
  | b :: bs => b + 256 * leValue bs

/-- The `k` little-endian bytes of `n` (of `n` modulo `256^k`). -/
def leBytes : Nat → Nat → List Nat
  | 0, _ => []
  | k + 1, n => n % 256 :: leBytes k (n / 256)

/-- Builds a RIFF chunk identifier (a `uint32_t`) from a four character tag. -/
def make_riff_fourcc (str : String) : Nat :=
  let s := str.toList.map Char.toNat
  ((s.getD 3 0 <<< 24) ||| (s.getD 2 0 <<< 16) ||| (s.getD 1 0 <<< 8) ||| (s.getD 0 0 <<< 0))
    % 2 ^ 32

/-- `ChunkId::kRiff`. -/
def kRiff : Nat := make_riff_fourcc "RIFF"

/-- `ChunkId::kWave`. -/
def kWave : Nat := make_riff_fourcc "WAVE"

/-- `ChunkId::kFmt`. -/
def kFmt : Nat := make_riff_fourcc "fmt "

/-- `ChunkId::kData`. -/
def kData : Nat := make_riff_fourcc "data"

/-- `WaveFormatCode::kFormatCode_PCM`. -/
def kFormatCode_PCM : Nat := 0x0001

/-- Header of a RIFF chunk: identifier and payload size, both `uint32_t`, packed. -/
structure ChunkInfo where
  m_id : Nat
  m_size : Nat
  deriving DecidableEq, Repr

/-- Object representation of a `ChunkInfo` (`sizeof(ChunkInfo) = 8`). -/
def ChunkInfo.toBytes (c : ChunkInfo) : List Nat := leBytes 4 c.m_id ++ leBytes 4 c.m_size

/-- The `ChunkInfo` whose object representation is `b`. -/
def ChunkInfo.ofBytes (b : List Nat) : ChunkInfo :=
  { m_id := leValue (b.take 4), m_size := leValue ((b.drop 4).take 4) }

/-- The `WAVE` form type (`sizeof(WaveChunk) = 4`). -/
structure WaveChunk where
  m_id : Nat
  deriving DecidableEq, Repr

/-- Object representation of a `WaveChunk`. -/
def WaveChunk.toBytes (c : WaveChunk) : List Nat := leBytes 4 c.m_id

/-- The `WaveChunk` whose object representation is `b`. -/
def WaveChunk.ofBytes (b : List Nat) : WaveChunk := { m_id := leValue (b.take 4) }

/-- The format descriptor, packed (`sizeof(FmtChunk) = 40`). -/
structure FmtChunk where
  m_formatTag : Nat
  m_channels : Nat
  m_samplesPerSec : Nat
  m_avgBytesPerSec : Nat
  m_blockAlign : Nat
  m_bitsPerSample : Nat
  m_cbSize : Nat
  m_validBitsPerSample : Nat
  m_channelMask : Nat
  m_subFormatGuid : List Nat
  deriving DecidableEq, Repr

/-- Object representation of a `FmtChunk`. -/
def FmtChunk.toBytes (f : FmtChunk) : List Nat :=
  leBytes 2 f.m_formatTag ++ leBytes 2 f.m_channels ++ leBytes 4 f.m_samplesPerSec
    ++ leBytes 4 f.m_avgBytesPerSec ++ leBytes 2 f.m_blockAlign ++ leBytes 2 f.m_bitsPerSample
    ++ leBytes 2 f.m_cbSize ++ leBytes 2 f.m_validBitsPerSample ++ leBytes 4 f.m_channelMask
    ++ ((f.m_subFormatGuid ++ List.replicate 16 0).take 16).map (fun b => b % 256)

/-- The `FmtChunk` whose object representation is `b`. -/
def FmtChunk.ofBytes (b : List Nat) : FmtChunk :=
  { m_formatTag := leValue ((b.drop 0).take 2)
    m_channels := leValue ((b.drop 2).take 2)
    m_samplesPerSec := leValue ((b.drop 4).take 4)
    m_avgBytesPerSec := leValue ((b.drop 8).take 4)
    m_blockAlign := leValue ((b.drop 12).take 2)
    m_bitsPerSample := leValue ((b.drop 14).take 2)
    m_cbSize := leValue ((b.drop 16).take 2)
    m_validBitsPerSample := leValue ((b.drop 18).take 2)
    m_channelMask := leValue ((b.drop 20).take 4)
    m_subFormatGuid := (b.drop 24).take 16 }

/-- `FmtChunk fmt = { 0 }`. -/
def FmtChunk.zeroed : FmtChunk :=
  { m_formatTag := 0, m_channels := 0, m_samplesPerSec := 0, m_avgBytesPerSec := 0,
    m_blockAlign := 0, m_bitsPerSample := 0, m_cbSize := 0, m_validBitsPerSample := 0,
    m_channelMask := 0, m_subFormatGuid := List.replicate 16 0 }

/-- `sizeof(ChunkInfo)`. -/
def sizeofChunkInfo : Nat := 8

/-- `sizeof(WaveChunk)`. -/
def sizeofWaveChunk : Nat := 4

/-- `sizeof(FmtChunk)`. -/
def sizeofFmtChunk : Nat := 40

/-- Builds the format descriptor of `eAudioFormat::kFormat_16bitPCM` (the only format);
`channels` is a `uint16_t`, `samplerate` a `uint32_t`. -/
def make_format (channels samplerate : Nat) : FmtChunk :=
  let fmt := { FmtChunk.zeroed with m_channels := channels, m_samplesPerSec := samplerate }
  let fmt := { fmt with m_formatTag := kFormatCode_PCM }
  let fmt := { fmt with m_bitsPerSample := 16 }
  let fmt := { fmt with
    m_avgBytesPerSec := samplerate * fmt.m_bitsPerSample % 2 ^ 32 / 8 * channels % 2 ^ 32 }
  { fmt with m_blockAlign := fmt.m_bitsPerSample / 8 * channels % 2 ^ 16 }

/-! ### Sample codec -/

/-- Truncation toward zero of a finite value; `none` for NaN and the infinities. -/
def F32.truncInt : F32 → Option Int
  | .fin s m e => some (signed s (if 0 ≤ e then m * 2 ^ e.toNat else m / 2 ^ (-e).toNat))
  | _ => none

/-- The conversion `(uint16_t)x`. Where the truncated value fits a 32-bit signed integer
the target's conversion keeps its low 16 bits (the wraparound the specification
describes); elsewhere the conversion is undefined. -/
def F32.toUInt16 (x : F32) : Option Nat :=
  match x.truncInt with
  | some t => if -(2 ^ 31) ≤ t ∧ t < 2 ^ 31 then some (t % 65536).toNat else none
  | none => none

/-- The `int16_t` stored in two little-endian bytes. -/
def int16_of_bytes (b0 b1 : Nat) : Int :=
  if b0 + 256 * b1 < 32768 then (b0 + 256 * b1 : Nat) else ((b0 + 256 * b1 : Nat) : Int) - 65536

/-- The store `pOut[i] = u` through an `int16_t*` into a byte buffer: the two
little-endian bytes of `u` modulo `2^16`. -/
def store16 (buf : List Nat) (i : Nat) (u : Nat) : Option (List Nat) :=
  (store buf (2 * i) (u % 256)).bind fun buf => store buf (2 * i + 1) (u / 256 % 256)

/-- The load `pIn[i]` through an `int16_t*` from a byte buffer. -/
def load16 (buf : List Nat) (i : Nat) : Option Int :=
  (buf[2 * i]?).bind fun b0 => (buf[2 * i + 1]?).map fun b1 => int16_of_bytes b0 b1

/-- `kfCoef = 1.0f / kMax` with `kMax = 1 << 15`. -/
def kfCoefDecode : F32 := F32.ofRatio 1 32768

/-- `kfCoef = kMax` with `kMax = 1 << 15`. -/
def kfCoefEncode : F32 := F32.ofInt 32768

/-- Decodes `numSamples` 16-bit PCM samples to floats scaled by `1 / 2^15`. -/
def decode_16bit_pcm_to_float (inBuffer : List Nat) (outBuffer : List F32) (numSamples : Nat) :
    Option (List F32) :=
  forLoop numSamples 1
    (fun i outBuffer => (load16 inBuffer i).bind fun s =>
      store outBuffer i (F32.ofInt s * kfCoefDecode))
    numSamples 0 outBuffer

/-- 16 bit passthrough. -/
def decode_16bit_pcm_to_16bit (inBuffer : List Nat) (outBuffer : List Int) (numSamples : Nat) :
    Option (List Int) :=
  forLoop numSamples 1
    (fun i outBuffer => (load16 inBuffer i).bind fun s => store outBuffer i s)
    numSamples 0 outBuffer

/-- Encodes `numSamples` floats as 16-bit PCM: scale by `2^15`, convert to `uint16_t`. -/
def encode_float_to_16bit (inBuffer : List F32) (outBuffer : List Nat) (numSamples : Nat) :
    Option (List Nat) :=
  forLoop numSamples 1
    (fun i outBuffer => (inBuffer[i]?).bind fun x =>
      (F32.toUInt16 (x * kfCoefEncode)).bind fun u => store16 outBuffer i u)
    numSamples 0 outBuffer

/-- 16 bit passback. -/
def encode_16bit_to_16bit (inBuffer : List Int) (outBuffer : List Nat) (numSamples : Nat) :
    Option (List Nat) :=
  forLoop numSamples 1
    (fun i outBuffer => (inBuffer[i]?).bind fun s => store16 outBuffer i (s % 65536).toNat)
    numSamples 0 outBuffer

/-- `std::vector::resize` to a larger size keeps the bytes and appends zeros; a request
that is not larger leaves the scratch memory as it is. -/
def allocate_scratch_memory (m_scratchMemory : List Nat) (size : Nat) : List Nat :=
  if size > m_scratchMemory.length then
    m_scratchMemory ++ List.replicate (size - m_scratchMemory.length) 0
  else m_scratchMemory

/-! ### Input stream and reader -/

/-- State of a `std::ifstream`: the bytes of the file, the get position and the error
state (`failbit`; a read that hits the end of the file sets it together with `eofbit`). -/
structure IfStream where
  content : List Nat
  pos : Nat
  failed : Bool
  deriving DecidableEq, Repr

/-- `open(filename, std::ios::binary)` on a closed stream; `file` is `none` when the
stream cannot be opened. -/
def IfStream.openFile (file : Option (List Nat)) : IfStream :=
  match file with
  | some bytes => { content := bytes, pos := 0, failed := false }
  | none => { content := [], pos := 0, failed := true }

/-- `good()`. -/
def IfStream.good (s : IfStream) : Bool := !s.failed

/-- `read(dst, n)`: with the error state set nothing is read; otherwise the bytes that
are available, up to `n`, overwrite the start of `dst`, and fewer than `n` set the error
state. Returns the stream and the new content of `dst`. -/
def IfStream.read (s : IfStream) (dst : List Nat) (n : Nat) : IfStream × List Nat :=
  if s.failed then (s, dst)
  else if ((s.content.drop s.pos).take n).length = n then
    ({ s with pos := s.pos + n }, (s.content.drop s.pos).take n ++ dst.drop n)
  else
    ({ s with pos := s.pos + ((s.content.drop s.pos).take n).length, failed := true },
      (s.content.drop s.pos).take n ++ dst.drop ((s.content.drop s.pos).take n).length)

/-- `static_cast<uint32_t>(tellg())`: `tellg` returns `-1` in the error state. -/
def IfStream.tellg (s : IfStream) : Nat := if s.failed then 2 ^ 32 - 1 else s.pos % 2 ^ 32

/-- `seekg(p, std::ios_base::beg)`: no effect in the error state. -/
def IfStream.seekg (s : IfStream) (p : Nat) : IfStream := if s.failed then s else { s with pos := p }

/-- `clear()`. -/
def IfStream.clear (s : IfStream) : IfStream := { s with failed := false }

/-- `WavAudioFileInput` with the members of its base `WavAudioFile`. -/
structure WavAudioFileInput where
  m_scratchMemory : List Nat
  m_formatChunk : FmtChunk
  m_samples : Nat
  m_audioFile : IfStream
  m_dataStart : Nat
  m_dataSize : Nat
  m_readPosition : Nat
  deriving DecidableEq, Repr

/-- `samples_remaining()`, a `uint32_t` difference. -/
def WavAudioFileInput.samples_remaining (self : WavAudioFileInput) : Nat :=
  (self.m_samples + 2 ^ 32 - self.m_readPosition % 2 ^ 32) % 2 ^ 32

/-- Reads `sizeof(FmtChunk)` bytes into `m_formatChunk`, whatever size the chunk declares. -/
def WavAudioFileInput.handle_format_chunk (self : WavAudioFileInput) (_chunkInfo : ChunkInfo)
    (_offset : Nat) : WavAudioFileInput :=
  { self with
    m_audioFile := (self.m_audioFile.read self.m_formatChunk.toBytes sizeofFmtChunk).1
    m_formatChunk :=
      FmtChunk.ofBytes (self.m_audioFile.read self.m_formatChunk.toBytes sizeofFmtChunk).2 }

/-- Records where the audio data starts and how many bytes the chunk declares. -/
def WavAudioFileInput.handle_data_chunk (self : WavAudioFileInput) (chunkInfo : ChunkInfo)
    (offset : Nat) : WavAudioFileInput :=
  { self with m_dataStart := offset, m_dataSize := chunkInfo.m_size }

/-- The variables of the chunk loop of `open`. -/
structure ChunkWalk where
  self : WavAudioFileInput
  chunkInfo : ChunkInfo
  offset : Nat
  deriving DecidableEq, Repr

/-- One iteration of the chunk loop: dispatch on the identifier, seek to
`offset + chunkInfo.m_size` (a `uint32_t` sum) and read the next header. -/
def walk_step (st : ChunkWalk) : ChunkWalk :=
  let self :=
    if st.chunkInfo.m_id = kFmt then st.self.handle_format_chunk st.chunkInfo st.offset
    else if st.chunkInfo.m_id = kData then st.self.handle_data_chunk st.chunkInfo st.offset
    else st.self
  let sought := self.m_audioFile.seekg ((st.offset + st.chunkInfo.m_size) % 2 ^ 32)
  { self := { self with m_audioFile := (sought.read st.chunkInfo.toBytes sizeofChunkInfo).1 }
    chunkInfo := ChunkInfo.ofBytes (sought.read st.chunkInfo.toBytes sizeofChunkInfo).2
    offset := (sought.read st.chunkInfo.toBytes sizeofChunkInfo).1.tellg }

/-- The loop `while (m_audioFile) ...`; `none` when it has not ended after `fuel`
iterations. -/
def walk_chunks : Nat → ChunkWalk → Option ChunkWalk
  | 0, st => if st.self.m_audioFile.failed then some st else none
  | fuel + 1, st =>
      if st.self.m_audioFile.failed then some st else walk_chunks fuel (walk_step st)

/-- How a member function ends: it returns, it throws `WavAudioFileException(what)`
(the object is left as it was at the `throw`), it hits undefined behaviour (an integer
division by zero, an access outside a buffer), or its loop is still running when the
fuel is spent. -/
inductive Outcome (α : Type) where
  | ok (a : α)
  | thrown (what : String) (a : α)
  | undefined
  | diverged
  deriving DecidableEq, Repr

/-- The indeterminate initial values of the local variables `riffChunk`, `waveChunk`
and `chunkInfo` of `open`, which a short read leaves partly or wholly in place. -/
structure Locals where
  riffChunk : ChunkInfo
  waveChunk : WaveChunk
  chunkInfo : ChunkInfo
  deriving DecidableEq, Repr

/-- Opens a file for reading: checks the RIFF and WAVE identifiers, walks the chunks,
then seeks to the data and computes the number of samples. -/
def WavAudioFileInput.open (fuel : Nat) (self : WavAudioFileInput) (file : Option (List Nat))
    (locals : Locals) : Outcome WavAudioFileInput :=
  let self := { self with m_audioFile := IfStream.openFile file }
  if self.m_audioFile.good then
    let rd := self.m_audioFile.read locals.riffChunk.toBytes sizeofChunkInfo
    let self := { self with m_audioFile := rd.1 }
    let riffChunk := ChunkInfo.ofBytes rd.2
    if riffChunk.m_id ≠ kRiff then .thrown "Could not find RIFF chunk." self
    else
      let rd := self.m_audioFile.read locals.waveChunk.toBytes sizeofWaveChunk
      let self := { self with m_audioFile := rd.1 }
      let waveChunk := WaveChunk.ofBytes rd.2
      if waveChunk.m_id ≠ kWave then .thrown "Could not find WAVE chunk." self
      else
        let rd := self.m_audioFile.read locals.chunkInfo.toBytes sizeofChunkInfo
        let self := { self with m_audioFile := rd.1 }
        let chunkInfo := ChunkInfo.ofBytes rd.2
        let offset := self.m_audioFile.tellg
        match walk_chunks fuel { self := self, chunkInfo := chunkInfo, offset := offset } with
        | none => .diverged
        | some st =>
            let self := st.self
            let self := { self with m_audioFile := self.m_audioFile.clear }
            let self := { self with m_audioFile := self.m_audioFile.seekg self.m_dataStart }
            let bytesPerSample := self.m_formatChunk.m_bitsPerSample / 8
            if bytesPerSample = 0 then .undefined
            else .ok { self with m_samples := self.m_dataSize / bytesPerSample, m_readPosition := 0 }
  else .thrown "Bad audio file" self

/-- A default-constructed reader: `WavAudioFile()` zeroes `m_formatChunk` and `m_samples`,
the stream is closed, and `m_dataStart`, `m_dataSize` and `m_readPosition` are not
initialised (their indeterminate values are the arguments). -/
def WavAudioFileInput.constructed (dataStart dataSize readPosition : Nat) : WavAudioFileInput :=
  { m_scratchMemory := [], m_formatChunk := FmtChunk.zeroed, m_samples := 0,
    m_audioFile := { content := [], pos := 0, failed := false },
    m_dataStart := dataStart, m_dataSize := dataSize, m_readPosition := readPosition }

/-- `scratch_memory()`, the pointer `&m_scratchMemory[0]` seen as the bytes it addresses:
subscripting an empty vector is undefined. -/
def scratch_memory (m_scratchMemory : List Nat) : Option (List Nat) :=
  if m_scratchMemory.length = 0 then none else some m_scratchMemory

/-- Reads `numSamples` samples as floats: returns the reader and the caller's buffer.
The product `numSamples * m_bitsPerSample` is a `uint32_t`; `m_readPosition` too. -/
def WavAudioFileInput.read (self : WavAudioFileInput) (buffer : List F32) (numSamples : Nat) :
    Option (WavAudioFileInput × List F32) :=
  let bytesToRead := numSamples * self.m_formatChunk.m_bitsPerSample % 2 ^ 32 / 8
  let self :=
    { self with m_scratchMemory := allocate_scratch_memory self.m_scratchMemory bytesToRead }
  (scratch_memory self.m_scratchMemory).bind fun scratch =>
    let rd := self.m_audioFile.read scratch bytesToRead
    let self := { self with m_audioFile := rd.1, m_scratchMemory := rd.2 }
    if self.m_audioFile.failed then some (self, buffer)
    else
      (decode_16bit_pcm_to_float self.m_scratchMemory buffer numSamples).map fun buffer =>
        ({ self with m_readPosition := (self.m_readPosition + numSamples) % 2 ^ 32 }, buffer)

/-- Reads `numSamples` samples and passes them on as 16 bit data. -/
def WavAudioFileInput.read16 (self : WavAudioFileInput) (buffer : List Int) (numSamples : Nat) :
    Option (WavAudioFileInput × List Int) :=
  let bytesToRead := numSamples * self.m_formatChunk.m_bitsPerSample % 2 ^ 32 / 8
  let self :=
    { self with m_scratchMemory := allocate_scratch_memory self.m_scratchMemory bytesToRead }
  (scratch_memory self.m_scratchMemory).bind fun scratch =>
    let rd := self.m_audioFile.read scratch bytesToRead
    let self := { self with m_audioFile := rd.1, m_scratchMemory := rd.2 }
    if self.m_audioFile.failed then some (self, buffer)
    else
      (decode_16bit_pcm_to_16bit self.m_scratchMemory buffer numSamples).map fun buffer =>
        ({ self with m_readPosition := (self.m_readPosition + numSamples) % 2 ^ 32 }, buffer)

/-! ### Output stream and writer -/

/-- State of a `std::ofstream`: the bytes of the file, the put position and the error
state. -/
structure OfStream where
  content : List Nat
  pos : Nat
  failed : Bool
  deriving DecidableEq, Repr

/-- `open(filename, std::ios::binary)` on a closed stream: the file is created or
truncated; `canOpen` is `false` when the stream cannot be opened. -/
def OfStream.openFile (canOpen : Bool) : OfStream :=
  { content := [], pos := 0, failed := !canOpen }

/-- `good()`. -/
def OfStream.good (s : OfStream) : Bool := !s.failed

/-- `write(src, n)`: with the error state set nothing is written; otherwise the first `n`
bytes at `src` overwrite the file from the put position on, extending it as needed (the
callers pass a buffer of at least `n` bytes). -/
def OfStream.write (s : OfStream) (src : List Nat) (n : Nat) : OfStream :=
  if s.failed then s
  else
    { s with
      content := s.content.take s.pos ++ List.replicate (s.pos - s.content.length) 0
        ++ src.take n ++ s.content.drop (s.pos + n)
      pos := s.pos + n }

/-- `seekp(p, std::ios_base::beg)`: no effect in the error state. -/
def OfStream.seekp (s : OfStream) (p : Nat) : OfStream := if s.failed then s else { s with pos := p }

/-- `WavAudioFileOutput` with the members of its base `WavAudioFile`. -/
structure WavAudioFileOutput where
  m_scratchMemory : List Nat
  m_formatChunk : FmtChunk
  m_samples : Nat
  m_audioFile : OfStream
  m_audioDataSize : Nat
  deriving DecidableEq, Repr

/-- Writes the RIFF header, the WAVE tag, the `fmt ` chunk and the `data` chunk header at
the put position; the sizes are `uint32_t`. -/
def WavAudioFileOutput.write_header (self : WavAudioFileOutput) : WavAudioFileOutput :=
  let riffChunk : ChunkInfo :=
    { m_id := kRiff
      m_size := (sizeofWaveChunk + sizeofChunkInfo + sizeofFmtChunk
        + sizeofChunkInfo + self.m_audioDataSize) % 2 ^ 32 }
  let self := { self with m_audioFile := self.m_audioFile.write riffChunk.toBytes sizeofChunkInfo }
  let waveChunk : WaveChunk := { m_id := kWave }
  let self := { self with m_audioFile := self.m_audioFile.write waveChunk.toBytes sizeofWaveChunk }
  let fmtChunkInfo : ChunkInfo := { m_id := kFmt, m_size := sizeofFmtChunk }
  let self :=
    { self with m_audioFile := self.m_audioFile.write fmtChunkInfo.toBytes sizeofChunkInfo }
  let self :=
    { self with m_audioFile := self.m_audioFile.write self.m_formatChunk.toBytes sizeofFmtChunk }
  let dataChunk : ChunkInfo := { m_id := kData, m_size := self.m_audioDataSize }
  { self with m_audioFile := self.m_audioFile.write dataChunk.toBytes sizeofChunkInfo }

/-- Opens a file for writing with the given format and writes a dummy header;
`canOpen` is `false` when the stream cannot be opened. -/
def WavAudioFileOutput.open (self : WavAudioFileOutput) (format : FmtChunk) (canOpen : Bool) :
    WavAudioFileOutput :=
  let self := { self with m_formatChunk := format }
  let self := { self with m_audioFile := OfStream.openFile canOpen }
  if self.m_audioFile.good then
    let self := { self with m_audioDataSize := 0 }
    self.write_header
  else self

/-- Encodes `numSamples` floats into the scratch memory and writes
`numSamples * m_bitsPerSample / 8` bytes of it; the counters are `uint32_t`. -/
def WavAudioFileOutput.write (self : WavAudioFileOutput) (buffer : List F32) (numSamples : Nat) :
    Option WavAudioFileOutput :=
  let bytesToWrite := numSamples * self.m_formatChunk.m_bitsPerSample % 2 ^ 32 / 8
  let self :=
    { self with m_scratchMemory := allocate_scratch_memory self.m_scratchMemory bytesToWrite }
  (scratch_memory self.m_scratchMemory).bind fun scratch =>
    (encode_float_to_16bit buffer scratch numSamples).map fun scratch =>
      let self := { self with m_scratchMemory := scratch }
      { self with
        m_audioFile := self.m_audioFile.write self.m_scratchMemory bytesToWrite
        m_audioDataSize := (self.m_audioDataSize + bytesToWrite) % 2 ^ 32
        m_samples := (self.m_samples + numSamples) % 2 ^ 32 }

/-- Writes `numSamples` 16 bit samples. -/
def WavAudioFileOutput.write16 (self : WavAudioFileOutput) (buffer : List Int) (numSamples : Nat) :
    Option WavAudioFileOutput :=
  let bytesToWrite := numSamples * self.m_formatChunk.m_bitsPerSample % 2 ^ 32 / 8
  let self :=
    { self with m_scratchMemory := allocate_scratch_memory self.m_scratchMemory bytesToWrite }
  (scratch_memory self.m_scratchMemory).bind fun scratch =>
    (encode_16bit_to_16bit buffer scratch numSamples).map fun scratch =>
      let self := { self with m_scratchMemory := scratch }
      { self with
        m_audioFile := self.m_audioFile.write self.m_scratchMemory bytesToWrite
        m_audioDataSize := (self.m_audioDataSize + bytesToWrite) % 2 ^ 32
        m_samples := (self.m_samples + numSamples) % 2 ^ 32 }

/-- Seeks back and rewrites the header with the final data size. -/
def WavAudioFileOutput.close (self : WavAudioFileOutput) : WavAudioFileOutput :=
  if self.m_audioFile.good then
    let self := { self with m_audioFile := self.m_audioFile.seekp 0 }
    self.write_header
  else self

/-- A default-constructed writer: `WavAudioFile()` zeroes `m_formatChunk` and `m_samples`,
the stream is closed, and `m_audioDataSize` is not initialised (its indeterminate value is
the argument). -/
def WavAudioFileOutput.constructed (audioDataSize : Nat) : WavAudioFileOutput :=
  { m_scratchMemory := [], m_formatChunk := FmtChunk.zeroed, m_samples := 0,
    m_audioFile := { content := [], pos := 0, failed := false },
    m_audioDataSize := audioDataSize }

/-! ## Block mixing (`AudioMixPrototype.cpp`, `mix_audio_block`) -/

/-- The mixing pass of `mix_audio_block` (float build): clears the output and mixes the
`kNumAudioStreams` inputs into it with the gains `g_gainFactors[2i]`, `g_gainFactors[2i+1]`.
`inputs[i]` is the content of the input buffer after the read of stream `i`, `output` the
indeterminate content of the freshly allocated output buffer; the result is the buffer
handed to the writer. -/
def mix_audio_block (strategy : Strategy) (kNumAudioStreams : Nat) (g_gainFactors : List F32)
    (inputs : List (List F32)) (output : List F32) (blockSize : Nat) : Option (List F32) :=
  (clear_buffer output blockSize).bind fun output =>
    forLoop kNumAudioStreams 1
      (fun i output =>
        let leftIndex := i * 2
        let rightIndex := i * 2 + 1
        (inputs[i]?).bind fun inp =>
        (g_gainFactors[leftIndex]?).bind fun gl =>
        (g_gainFactors[rightIndex]?).bind fun gr =>
        mix_buffer strategy inp output gl gr blockSize)
      kNumAudioStreams 0 output

/-! ## Definitions used to state the theorems -/

/-- A RIFF sub-chunk as the file format lays it out: identifier, then the payload whose
length the header declares. -/
structure Chunk where
  id : Nat
  payload : List Nat
  deriving DecidableEq, Repr

/-- The bytes of a chunk: 4-byte identifier, 4-byte little-endian size, payload. -/
def Chunk.encode (c : Chunk) : List Nat :=
  leBytes 4 c.id ++ leBytes 4 c.payload.length ++ c.payload

/-- The bytes of consecutive chunks. -/
def encodeChunks : List Chunk → List Nat
  | [] => []
  | c :: cs => c.encode ++ encodeChunks cs

/-- A RIFF/WAVE file: `RIFF` header, `WAVE` tag, chunks, trailing bytes. -/
def wavFile (riffSize : Nat) (cs : List Chunk) (trailing : List Nat) : List Nat :=
  leBytes 4 kRiff ++ leBytes 4 riffSize ++ leBytes 4 kWave ++ encodeChunks cs ++ trailing

/-- What the chunk loop records, chunk by chunk, for chunks laid out from file offset
`off`: the format read from the 40 bytes after an `fmt ` header, and the payload offset
and declared size of a `data` chunk. -/
def walkSpec (file : List Nat) : List Chunk → Nat → FmtChunk × Nat × Nat → FmtChunk × Nat × Nat
  | [], _, t => t
  | c :: cs, off, t =>
      walkSpec file cs (off + 8 + c.payload.length)
        (if c.id = kFmt then (FmtChunk.ofBytes ((file.drop (off + 8)).take 40), t.2.1, t.2.2)
         else if c.id = kData then (t.1, off + 8, c.payload.length)
         else t)

/-- Every `fmt ` chunk among `cs` is followed by at least 40 more bytes of file. -/
def fmtReadable : List Chunk → List Nat → Prop
  | [], _ => True
  | c :: cs, trailing =>
      (c.id = kFmt → 40 ≤ c.payload.length + (encodeChunks cs).length + trailing.length)
        ∧ fmtReadable cs trailing

/-- Gain of the interleaved position `j`: left on even positions, right on odd ones. -/
def laneGain (leftGain rightGain : F32) (j : Nat) : F32 :=
  if j % 2 = 0 then leftGain else rightGain

/-- What a strategy adds to `out[j]` for the input sample `x` and gain `g`: the rounded
product, or the fused multiply-add onto a zeroed register. -/
def contribution : Strategy → F32 → F32 → F32
  | .scalar, x, g => x * g
  | _, x, g => F32.fma x g F32.zero

/-- Stereo pairs advanced per loop iteration. -/
def pairsPerStep : Strategy → Nat
  | .scalar => 1
  | .simd128 => 2
  | .simd256 => 4
  | .simd512 => 8

/-- Number of leading buffer positions the loop of a strategy reads and writes. -/
def span (strategy : Strategy) (blockSize : Nat) : Nat :=
  (blockSize / 2 + pairsPerStep strategy - 1) / pairsPerStep strategy * (2 * pairsPerStep strategy)

/-- The buffer `out` with `c j` added to every element at a position `j < k`. -/
def accumulated (c : Nat → F32) (k : Nat) (out : List F32) : List F32 :=
  out.mapIdx fun j o => if j < k then o + c j else o

/-- The buffer `out` with `+0` stored at every position `j < k`. -/
def cleared (k : Nat) (out : List F32) : List F32 :=
  out.mapIdx fun j o => if j < k then F32.zero else o

/-- Equality of binary32 data as numbers: the same datum, or two zeros of either sign. -/
def F32.numEq (a b : F32) : Prop := a = b ∨ (a.isZero = true ∧ b.isZero = true)

instance (a b : F32) : Decidable (F32.numEq a b) :=
  inferInstanceAs (Decidable (a = b ∨ (a.isZero = true ∧ b.isZero = true)))

instance fmtReadableDecidable : (cs : List Chunk) → (trailing : List Nat) →
    Decidable (fmtReadable cs trailing)
  | [], _ => isTrue trivial
  | c :: cs, trailing =>
      have := fmtReadableDecidable cs trailing
      inferInstanceAs (Decidable
        ((c.id = kFmt → 40 ≤ c.payload.length + (encodeChunks cs).length + trailing.length)
          ∧ fmtReadable cs trailing))

/-- The 16-byte `fmt ` payload of 16-bit stereo PCM at 48 kHz. -/
def pcmFmtPayload : List Nat :=
  leBytes 2 1 ++ leBytes 2 2 ++ leBytes 4 48000 ++ leBytes 4 192000 ++ leBytes 2 4
    ++ leBytes 2 16

/-- A canonical 44-byte-header WAV file holding the given audio bytes. -/
def canonicalWav (audio : List Nat) : List Nat :=
  wavFile (36 + audio.length)
    [{ id := kFmt, payload := pcmFmtPayload }, { id := kData, payload := audio }] []

/-- Values for the uninitialised locals of `open`: all bytes zero. -/
def zeroLocals : Locals :=
  { riffChunk := { m_id := 0, m_size := 0 }, waveChunk := { m_id := 0 },
    chunkInfo := { m_id := 0, m_size := 0 } }

/-- Truncation of a rational number toward zero. -/
def truncQ (q : ℚ) : Int := if 0 ≤ q then ⌊q⌋ else ⌈q⌉

/-- The buffer `out` with `g j` stored at every position `j < k`. -/
def written {α : Type} (g : Nat → α) (k : Nat) (out : List α) : List α :=
  out.mapIdx fun j o => if j < k then g j else o

/-- Byte `j` of a buffer of 16-bit little-endian words, word `i` being `u i`. -/
def wordByte (u : Nat → Nat) (j : Nat) : Nat :=
  if j % 2 = 0 then u (j / 2) % 256 else u (j / 2) / 256 % 256

/-- A call of the writer: `write(buffer, numSamples)` or `write16(buffer, numSamples)`. -/
inductive WriteCall where
  | write (buffer : List F32) (numSamples : Nat)
  | write16 (buffer : List Int) (numSamples : Nat)
  deriving DecidableEq, Repr

/-- The sample count a call passes. -/
def WriteCall.numSamples : WriteCall → Nat
  | .write _ n => n
  | .write16 _ n => n

/-- Performs one call on a writer. -/
def WavAudioFileOutput.call (self : WavAudioFileOutput) : WriteCall → Option WavAudioFileOutput
  | .write buffer n => self.write buffer n
  | .write16 buffer n => self.write16 buffer n

/-- Performs a sequence of calls, in order. -/
def WavAudioFileOutput.calls (self : WavAudioFileOutput) :
    List WriteCall → Option WavAudioFileOutput
  | [] => some self
  | c :: cs => (self.call c).bind fun self => self.calls cs

/-- The 68 bytes `write_header` writes for a format and a data size. -/
def headerBytes (format : FmtChunk) (dataSize : Nat) : List Nat :=
  leBytes 4 kRiff ++ leBytes 4 (4 + 8 + 40 + 8 + dataSize) ++ leBytes 4 kWave
    ++ leBytes 4 kFmt ++ leBytes 4 40 ++ format.toBytes
    ++ leBytes 4 kData ++ leBytes 4 dataSize

/-- A writer that was opened with `format` and has since written the bytes `audio`: the
file is the dummy header followed by `audio`, the put position is at its end, and the
running counter is the length of `audio` as a `uint32_t`. -/
def Streaming (w : WavAudioFileOutput) (format : FmtChunk) (audio : List Nat) : Prop :=
  w.m_formatChunk = format ∧
  w.m_audioFile
    = { content := headerBytes format 0 ++ audio, pos := 68 + audio.length, failed := false } ∧
  w.m_audioDataSize = audio.length % 2 ^ 32

/-- A call the writer can carry out for a format of `bits` bits per sample: at least one
sample, a buffer that holds the samples, a byte count that fits 32 bits, and for floats
finite samples of magnitude below `2^16`. -/
def WriteCall.valid (bits : Nat) : WriteCall → Prop
  | .write buffer n => 0 < n ∧ n ≤ buffer.length ∧ n * bits < 2 ^ 32 ∧
      ∀ i x, i < n → buffer[i]? = some x → F32.WF x ∧ x.isFinite = true ∧ |x.toRat| < 2 ^ 16
  | .write16 buffer n => 0 < n ∧ n ≤ buffer.length ∧ n * bits < 2 ^ 32

/-- Total of the sample counts of a sequence of calls. -/
def totalSamples (cs : List WriteCall) : Nat := (cs.map WriteCall.numSamples).sum

/-- Total of the byte counts `numSamples * bits / 8` of a sequence of calls. -/
def totalBytes (bits : Nat) (cs : List WriteCall) : Nat :=
  (cs.map fun c => c.numSamples * bits / 8).sum

/-- A reader positioned at the start of the four audio bytes `01 02 03 04` of a mono file;
`bits` is the bits-per-sample field of its format and `scratch` its scratch memory. -/
def readerAt (bits : Nat) (scratch : List Nat) : WavAudioFileInput :=
  { m_scratchMemory := scratch
    m_formatChunk := { make_format 1 8000 with m_bitsPerSample := bits }
    m_samples := 4 / (bits / 8)
    m_audioFile := { content := [1, 2, 3, 4], pos := 0, failed := false }
    m_dataStart := 0, m_dataSize := 4, m_readPosition := 0 }

/-- The 20-byte file `RIFF`, size 12, `WAVE`, and one chunk header `junk` that declares
`2^32 - 8` bytes. -/
def wrappingFile : List Nat :=
  leBytes 4 kRiff ++ leBytes 4 12 ++ leBytes 4 kWave
    ++ leBytes 4 (make_riff_fourcc "junk") ++ leBytes 4 (2 ^ 32 - 8)

/-- The running sum at buffer position `j` after the first `t` streams: starting from
`+0`, stream `i` adds its contribution for the sample `inputs[i][j]` and the gain
`g_gainFactors[2i]` (even `j`) or `g_gainFactors[2i + 1]` (odd `j`). -/
def mixSum (strategy : Strategy) (g_gainFactors : List F32) (inputs : List (List F32))
    (j : Nat) : Nat → F32
  | 0 => F32.zero
  | t + 1 =>
      mixSum strategy g_gainFactors inputs j t
        + contribution strategy ((inputs.getD t []).getD j F32.zero)
            (g_gainFactors.getD (t * 2 + j % 2) F32.zero)

/-- The output buffer after the clear and the first `t` streams. -/
def mixedOutput (strategy : Strategy) (g_gainFactors : List F32) (inputs : List (List F32))
    (blockSize t : Nat) (output : List F32) : List F32 :=
  output.mapIdx fun j o =>
    if j < span strategy blockSize then mixSum strategy g_gainFactors inputs j t
    else if j < blockSize then F32.zero else o

/-- The 12-byte file `RIFF`, size 4, `WAVE`: matching identifiers and no chunk. -/
def noChunkFile : List Nat := leBytes 4 kRiff ++ leBytes 4 4 ++ leBytes 4 kWave

/-- The file `RIFF`, `WAVE` and one `fmt ` chunk of 40 bytes holding the given format:
matching identifiers and no `data` chunk. -/
def fmtOnlyFile (format : FmtChunk) : List Nat :=
  wavFile 52 [Chunk.mk kFmt format.toBytes] []

/-- The values a `FmtChunk` object can hold: every field within its width and a GUID of
16 bytes. -/
def FmtChunk.representable (f : FmtChunk) : Prop :=
  f.m_formatTag < 2 ^ 16 ∧ f.m_channels < 2 ^ 16 ∧ f.m_samplesPerSec < 2 ^ 32 ∧
  f.m_avgBytesPerSec < 2 ^ 32 ∧ f.m_blockAlign < 2 ^ 16 ∧ f.m_bitsPerSample < 2 ^ 16 ∧
  f.m_cbSize < 2 ^ 16 ∧ f.m_validBitsPerSample < 2 ^ 16 ∧ f.m_channelMask < 2 ^ 32 ∧
  f.m_subFormatGuid.length = 16 ∧ ∀ b ∈ f.m_subFormatGuid, b < 256

instance (f : FmtChunk) : Decidable f.representable := by
  unfold FmtChunk.representable
  infer_instance

/-- The little-endian 16-bit PCM bytes of a block of samples. -/
def pcm16Bytes : List Int → List Nat
  | [] => []
  | s :: b => (s % 65536).toNat % 256 :: (s % 65536).toNat / 256 % 256 :: pcm16Bytes b

/-- The bytes of consecutive blocks. -/
def pcm16Stream : List (List Int) → List Nat
  | [] => []
  | b :: bs => pcm16Bytes b ++ pcm16Stream bs

/-- One `write16` call per block, carrying the whole block. -/
def write16Calls (blocks : List (List Int)) : List WriteCall :=
  blocks.map fun b => WriteCall.write16 b b.length

/-- One `read16` call per buffer, for as many samples as the buffer holds; returns the
reader and the buffers as the calls leave them. -/
def WavAudioFileInput.reads16 (r : WavAudioFileInput) :
    List (List Int) → Option (WavAudioFileInput × List (List Int))
  | [] => some (r, [])
  | buf :: bufs =>
      (r.read16 buf buf.length).bind fun p =>
        (WavAudioFileInput.reads16 p.1 bufs).map fun q => (q.1, p.2 :: q.2)

/-! # Theorems -/

/-! ## Binary32 rounding -/

theorem bitLenAux_eq_size : ∀ fuel n, n ≤ fuel → bitLenAux fuel n = Nat.size n := by
  intro fuel
  induction fuel with
  | zero =>
      intro n hn
      have : n = 0 := by omega
      subst this
      simp [bitLenAux]
  | succ fuel ih =>
      intro n hn
      by_cases h0 : n = 0
      · subst h0; simp [bitLenAux]
      · simp only [bitLenAux, if_neg h0]
        rw [ih (n / 2) (by omega)]
        apply Nat.le_antisymm
        · have h1 : (n / 2).size < n.size := by
            rw [Nat.lt_size]
            by_cases h2 : n / 2 = 0
            · rw [h2]; simp; omega
            · have h3 : (n / 2).size - 1 < (n / 2).size := by
                have := Nat.size_pos.2 (Nat.pos_of_ne_zero h2); omega
              have h4 := Nat.lt_size.1 h3
              have h5 : 2 ^ (n / 2).size = 2 ^ ((n / 2).size - 1) * 2 := by
                rw [← Nat.pow_succ]; congr 1
                have := Nat.size_pos.2 (Nat.pos_of_ne_zero h2); omega
              omega
          omega
        · rw [Nat.size_le, Nat.pow_succ]
          have := Nat.lt_size_self (n / 2)
          omega

theorem bitLen_eq_size (n : Nat) : bitLen n = Nat.size n :=
  bitLenAux_eq_size n n (Nat.le_refl n)

theorem lt_two_pow_bitLen (n : Nat) : n < 2 ^ bitLen n := by
  rw [bitLen_eq_size]; exact Nat.lt_size_self n

theorem two_pow_bitLen_le (n : Nat) (hn : n ≠ 0) : 2 ^ (bitLen n - 1) ≤ n := by
  rw [bitLen_eq_size]
  apply Nat.lt_size.1
  have := Nat.size_pos.2 (Nat.pos_of_ne_zero hn)
  omega

theorem bitLen_pos (n : Nat) (hn : n ≠ 0) : 0 < bitLen n := by
  rw [bitLen_eq_size]; exact Nat.size_pos.2 (Nat.pos_of_ne_zero hn)

theorem bitLen_mul_pow (n k : Nat) (hn : n ≠ 0) : bitLen (n * 2 ^ k) = bitLen n + k := by
  rw [bitLen_eq_size, bitLen_eq_size, ← Nat.shiftLeft_eq, Nat.size_shiftLeft hn]

theorem bitLen_le_of_lt (n b : Nat) (h : n < 2 ^ b) : bitLen n ≤ b := by
  rw [bitLen_eq_size]; exact Nat.size_le.2 h

theorem le_bitLen_of_le (n b : Nat) (h : 2 ^ b ≤ n) : b < bitLen n := by
  rw [bitLen_eq_size]; exact Nat.lt_size.2 h

theorem F32.round_canonical (s : Bool) (m : Nat) (e : Int) (h : WF (fin s m e)) :
    round s m e = fin s m e := by
  obtain ⟨h1, h2, h3, h4⟩ := h
  by_cases hm : m = 0
  · subst hm
    have := h4 (by norm_num)
    simp [round, this]
  · have hb1 : bitLen m ≤ 24 := bitLen_le_of_lt m 24 h1
    have hb0 := bitLen_pos m hm
    have he : max (e + (bitLen m : Int) - 24) eMin = e := by
      by_cases h5 : m < 2 ^ 23
      · have h6 := h4 h5
        have := bitLen_le_of_lt m 23 h5
        rw [h6]; simp only [eMin]; omega
      · have := le_bitLen_of_le m 23 (by omega)
        simp only [eMin] at h2 ⊢; omega
    simp only [round, if_neg hm, he, le_refl, if_true, sub_self, Int.toNat_zero, pow_zero,
      Nat.mul_one]
    rw [if_neg (by omega)]

theorem F32.round_scale (s : Bool) (M k : Nat) (E : Int) (hM : M ≠ 0) :
    round s (M * 2 ^ k) E = round s M (E + k) := by
  have hMk : M * 2 ^ k ≠ 0 := Nat.mul_ne_zero hM (by positivity)
  have hb : bitLen (M * 2 ^ k) = bitLen M + k := bitLen_mul_pow M k hM
  have hlt := lt_two_pow_bitLen M
  have he : E + (((bitLen M + k : Nat)) : Int) - 24 = E + k + (bitLen M : Int) - 24 := by
    push_cast; ring
  simp only [round, if_neg hM, if_neg hMk, hb, he]
  have hge : E + k + (bitLen M : Int) - 24 ≤ max (E + k + (bitLen M : Int) - 24) eMin :=
    le_max_left _ _
  generalize max (E + k + (bitLen M : Int) - 24) eMin = e at hge ⊢
  by_cases hA : e ≤ E
  · have hA' : e ≤ E + k := by omega
    rw [if_pos hA, if_pos hA']
    have e1 : (E + k - e).toNat = k + (E - e).toNat := by omega
    rw [e1, pow_add, Nat.mul_assoc]
  · rw [if_neg hA]
    by_cases hB : e ≤ E + k
    · rw [if_pos hB]
      obtain ⟨k1, hk1⟩ : ∃ k1 : Nat, (e - E).toNat = k1 := ⟨_, rfl⟩
      obtain ⟨d, hd⟩ : ∃ d : Nat, (E + k - e).toNat = d := ⟨_, rfl⟩
      have hkd : k = d + k1 := by omega
      have hk1pos : 0 < k1 := by omega
      rw [hk1, hd]
      have hq : M * 2 ^ k / 2 ^ k1 = M * 2 ^ d := by
        rw [hkd, pow_add, ← Nat.mul_assoc]
        exact Nat.mul_div_cancel _ (by positivity)
      have hr : M * 2 ^ k % 2 ^ k1 = 0 := by
        rw [hkd, pow_add, ← Nat.mul_assoc]
        exact Nat.mul_mod_left _ _
      have hhalf : 0 < 2 ^ (k1 - 1) := by positivity
      have hbd : bitLen M + d ≤ 24 := by omega
      have hm : M * 2 ^ d < 2 ^ 24 := by
        calc M * 2 ^ d < 2 ^ bitLen M * 2 ^ d := Nat.mul_lt_mul_of_pos_right hlt (by positivity)
          _ = 2 ^ (bitLen M + d) := by rw [pow_add]
          _ ≤ 2 ^ 24 := Nat.pow_le_pow_right (by norm_num) hbd
      rw [hq, hr]
      have c1 : ¬ (2 ^ (k1 - 1) < 0 ∨ 2 ^ (k1 - 1) = 0 ∧ M * 2 ^ d % 2 = 1) := by
        rintro (h | ⟨h, _⟩) <;> omega
      rw [if_neg c1, if_neg (by omega)]
    · rw [if_neg hB]
      obtain ⟨k2, hk2⟩ : ∃ k2 : Nat, (e - (E + k)).toNat = k2 := ⟨_, rfl⟩
      have hk1 : (e - E).toNat = k2 + k := by omega
      have hk2pos : 0 < k2 := by omega
      rw [hk1, hk2]
      have hq : M * 2 ^ k / 2 ^ (k2 + k) = M / 2 ^ k2 := by
        rw [pow_add]; exact Nat.mul_div_mul_right _ _ (by positivity)
      have hr : M * 2 ^ k % 2 ^ (k2 + k) = M % 2 ^ k2 * 2 ^ k := by
        rw [pow_add]; exact Nat.mul_mod_mul_right _ _ _
      have hh : 2 ^ (k2 + k - 1) = 2 ^ (k2 - 1) * 2 ^ k := by
        rw [← pow_add]; congr 1; omega
      rw [hq, hr, hh]
      have hp : 0 < 2 ^ k := by positivity
      have c1 : (2 ^ (k2 - 1) * 2 ^ k < M % 2 ^ k2 * 2 ^ k) = (2 ^ (k2 - 1) < M % 2 ^ k2) := by
        apply propext
        exact Nat.mul_lt_mul_right hp
      have c2 : (2 ^ (k2 - 1) * 2 ^ k = M % 2 ^ k2 * 2 ^ k) = (2 ^ (k2 - 1) = M % 2 ^ k2) := by
        apply propext
        exact Nat.mul_left_inj (by omega)
      simp only [c1, c2]

theorem F32.round_WF (s : Bool) (M : Nat) (E : Int) : WF (round s M E) := by
  by_cases hM : M = 0
  · simp [round, hM, WF, eMin, eMax]
  · have hlt := lt_two_pow_bitLen M
    have hge := two_pow_bitLen_le M hM
    have hpos := bitLen_pos M hM
    simp only [round, if_neg hM]
    have he1 : E + (bitLen M : Int) - 24 ≤ max (E + (bitLen M : Int) - 24) eMin := le_max_left _ _
    have he2 : eMin ≤ max (E + (bitLen M : Int) - 24) eMin := le_max_right _ _
    have he3 : max (E + (bitLen M : Int) - 24) eMin = E + (bitLen M : Int) - 24 ∨
        max (E + (bitLen M : Int) - 24) eMin = eMin := by
      rcases le_total (E + (bitLen M : Int) - 24) eMin with h | h
      · right; exact max_eq_right h
      · left; exact max_eq_left h
    generalize max (E + (bitLen M : Int) - 24) eMin = e at he1 he2 he3 ⊢
    generalize hb : bitLen M = b at *
    by_cases hA : e ≤ E
    · rw [if_pos hA]
      by_cases hO : eMax < e
      · rw [if_pos hO]; trivial
      · rw [if_neg hO]
        obtain ⟨d, hd⟩ : ∃ d : Nat, (E - e).toNat = d := ⟨_, rfl⟩
        rw [hd]
        have hbd : b + d ≤ 24 := by omega
        refine ⟨?_, he2, by omega, ?_⟩
        · calc M * 2 ^ d < 2 ^ b * 2 ^ d := Nat.mul_lt_mul_of_pos_right hlt (by positivity)
            _ = 2 ^ (b + d) := by rw [pow_add]
            _ ≤ 2 ^ 24 := Nat.pow_le_pow_right (by norm_num) hbd
        · intro hsmall
          rcases he3 with h | h
          · exfalso
            have hd2 : b - 1 + d = 23 := by omega
            have : 2 ^ 23 ≤ M * 2 ^ d := by
              calc 2 ^ 23 = 2 ^ (b - 1) * 2 ^ d := by rw [← pow_add, hd2]
                _ ≤ M * 2 ^ d := Nat.mul_le_mul_right _ hge
            omega
          · exact h
    · rw [if_neg hA]
      obtain ⟨k, hk⟩ : ∃ k : Nat, (e - E).toNat = k := ⟨_, rfl⟩
      rw [hk]
      have hkpos : 0 < k := by omega
      have hbk : b ≤ k + 24 := by omega
      have hq : M / 2 ^ k < 2 ^ 24 := by
        rw [Nat.div_lt_iff_lt_mul (by positivity)]
        calc M < 2 ^ b := hlt
          _ ≤ 2 ^ (24 + k) := Nat.pow_le_pow_right (by norm_num) (by omega)
          _ = 2 ^ 24 * 2 ^ k := by rw [pow_add]
      generalize hm : (if 2 ^ (k - 1) < M % 2 ^ k ∨ 2 ^ (k - 1) = M % 2 ^ k ∧ M / 2 ^ k % 2 = 1
        then M / 2 ^ k + 1 else M / 2 ^ k) = m
      have hm1 : m ≤ M / 2 ^ k + 1 := by
        rw [← hm]; split_ifs <;> omega
      have hm2 : M / 2 ^ k ≤ m := by
        rw [← hm]; split_ifs <;> omega
      by_cases hc : m = 2 ^ 24
      · rw [if_pos hc]
        by_cases hO : eMax < e + 1
        · rw [if_pos hO]; trivial
        · rw [if_neg hO]
          refine ⟨by norm_num, by omega, by omega, ?_⟩
          intro h; omega
      · rw [if_neg hc]
        by_cases hO : eMax < e
        · rw [if_pos hO]; trivial
        · rw [if_neg hO]
          refine ⟨by omega, he2, by omega, ?_⟩
          intro hsmall
          rcases he3 with h | h
          · exfalso
            have hk2 : 23 + k = b - 1 := by omega
            have : 2 ^ 23 ≤ M / 2 ^ k := by
              rw [Nat.le_div_iff_mul_le (by positivity), ← pow_add, hk2]
              exact hge
            omega
          · exact h

theorem signed_zero (s : Bool) : signed s 0 = 0 := by
  cases s <;> simp [signed]

theorem signed_eq_zero (s : Bool) (n : Nat) : signed s n = 0 ↔ n = 0 := by
  cases s <;> simp [signed]

theorem signed_neg (s : Bool) (n : Nat) (hn : n ≠ 0) : decide (signed s n < 0) = s := by
  cases s
  · simp [signed]
  · simp [signed]; omega

theorem signed_natAbs (s : Bool) (n : Nat) : (signed s n).natAbs = n := by
  cases s <;> simp [signed]

theorem F32.add_def (a b : F32) : a + b = F32.add a b := rfl

theorem F32.mul_def (a b : F32) : a * b = F32.mul a b := rfl

theorem F32.add_comm (a b : F32) : a + b = b + a := by
  rw [add_def, add_def]
  cases a with
  | nan => cases b <;> rfl
  | inf s =>
      cases b with
      | nan => rfl
      | inf t => cases s <;> cases t <;> rfl
      | fin t n f => rfl
  | fin s m e =>
      cases b with
      | nan => rfl
      | inf t => rfl
      | fin t n f =>
          simp only [add]
          rw [min_comm f e, Int.add_comm (signed t _) (signed s _), Bool.and_comm t s]

theorem F32.add_WF (a b : F32) : WF (a + b) := by
  rw [add_def]
  cases a with
  | nan => cases b <;> trivial
  | inf s =>
      cases b with
      | nan => trivial
      | inf t => simp only [add]; split_ifs <;> trivial
      | fin t n f => trivial
  | fin s m e =>
      cases b with
      | nan => trivial
      | inf t => trivial
      | fin t n f =>
          simp only [add]
          split_ifs
          · simp [WF, eMin, eMax]
          · exact round_WF _ _ _

theorem F32.mul_WF (a b : F32) : WF (a * b) := by
  rw [mul_def]
  cases a with
  | nan => cases b <;> trivial
  | inf s =>
      cases b with
      | nan => trivial
      | inf t => trivial
      | fin t n f => simp only [mul]; split_ifs <;> trivial
  | fin s m e =>
      cases b with
      | nan => trivial
      | inf t => simp only [mul]; split_ifs <;> trivial
      | fin t n f => exact round_WF _ _ _

theorem F32.fma_zero_WF (a b : F32) : WF (fma a b zero) := by
  cases a with
  | nan => cases b <;> trivial
  | inf s =>
      cases b with
      | nan => trivial
      | inf t => trivial
      | fin t n f => simp only [fma, zero]; split_ifs <;> trivial
  | fin s m e =>
      cases b with
      | nan => trivial
      | inf t => simp only [fma, zero]; split_ifs <;> trivial
      | fin t n f =>
          simp only [fma, zero]
          split_ifs
          · simp [WF, eMin, eMax]
          · exact round_WF _ _ _

/-- Adding a zero of either sign to a non-zero canonical value returns the value. -/
theorem F32.fin_add_zero (s : Bool) (m : Nat) (e : Int) (t : Bool) (h : WF (fin s m e))
    (hm : m ≠ 0) : fin s m e + fin t 0 eMin = fin s m e := by
  rw [add_def]
  have he : eMin ≤ e := h.2.1
  simp only [add, min_eq_right he, Nat.zero_mul, signed_zero, Int.add_zero]
  obtain ⟨d, hd⟩ : ∃ d : Nat, (e - eMin).toNat = d := ⟨_, rfl⟩
  rw [hd]
  have hmd : m * 2 ^ d ≠ 0 := Nat.mul_ne_zero hm (by positivity)
  rw [if_neg (by rw [signed_eq_zero]; exact hmd), signed_neg _ _ hmd, signed_natAbs,
    round_scale _ _ _ _ hm]
  have : eMin + (d : Int) = e := by omega
  rw [this]
  exact round_canonical s m e h

theorem F32.zero_add_fin (t : Bool) (n : Nat) (f : Int) (h : WF (fin t n f)) :
    zero + fin t n f = if n = 0 then zero else fin t n f := by
  by_cases hn : n = 0
  · subst hn
    rw [if_pos rfl, add_def]
    simp [add, zero, signed_zero]
  · rw [if_neg hn, add_comm]
    exact fin_add_zero t n f false h hn

theorem F32.add_nan (a : F32) : a + nan = nan := by
  cases a <;> rfl

theorem F32.nan_add (a : F32) : nan + a = nan := rfl

/-- Two canonical contributions accumulated onto `+0` give the same sum in either order. -/
theorem F32.zero_add_add_swap (p q : F32) (hp : WF p) (hq : WF q) :
    zero + p + q = zero + q + p := by
  cases p with
  | nan => rw [add_nan, add_nan, nan_add]
  | inf s =>
      cases q with
      | nan => rw [add_nan, add_nan, nan_add]
      | inf t => cases s <;> cases t <;> rfl
      | fin t n f =>
          rw [zero_add_fin t n f hq]
          split_ifs <;> rfl
  | fin s m e =>
      cases q with
      | nan => rw [add_nan, add_nan, nan_add]
      | inf t =>
          rw [zero_add_fin s m e hp]
          split_ifs <;> rfl
      | fin t n f =>
          rw [zero_add_fin s m e hp, zero_add_fin t n f hq]
          by_cases hm : m = 0
          · by_cases hn : n = 0
            · subst hm; subst hn
              rw [if_pos rfl, if_pos rfl]
              have h1 : e = eMin := hp.2.2.2 (by norm_num)
              have h2 : f = eMin := hq.2.2.2 (by norm_num)
              subst h1; subst h2
              cases s <;> cases t <;> rfl
            · subst hm
              rw [if_pos rfl, if_neg hn]
              have h1 : e = eMin := hp.2.2.2 (by norm_num)
              subst h1
              rw [zero_add_fin t n f hq, if_neg hn, fin_add_zero t n f s hq hn]
          · by_cases hn : n = 0
            · subst hn
              rw [if_neg hm, if_pos rfl]
              have h2 : f = eMin := hq.2.2.2 (by norm_num)
              subst h2
              rw [zero_add_fin s m e hp, if_neg hm, fin_add_zero s m e t hp hm]
            · rw [if_neg hm, if_neg hn]
              exact add_comm _ _

/-- A fused multiply-add onto `+0` is the rounded product, except that it yields `+0`
where the product is `-0`. -/
theorem F32.fma_zero_eq (x g : F32) :
    fma x g zero = x * g ∨ (fma x g zero = zero ∧ x * g = negZero) := by
  rw [mul_def]
  cases x with
  | nan => left; cases g <;> rfl
  | inf s =>
      cases g with
      | nan => left; rfl
      | inf t => left; rfl
      | fin t n f => left; rfl
  | fin s m e =>
      cases g with
      | nan => left; rfl
      | inf t => left; rfl
      | fin t n f =>
          simp only [fma, mul, zero, Nat.zero_mul, signed_zero, Int.add_zero]
          obtain ⟨d, hd⟩ : ∃ d : Nat, (e + f - min (e + f) eMin).toNat = d := ⟨_, rfl⟩
          rw [hd]
          by_cases hmn : m * n = 0
          · have h0 : m * n * 2 ^ d = 0 := by rw [hmn]; simp
            have hr : round (xor s t) 0 (e + f) = fin (xor s t) 0 eMin := by simp [round]
            rw [if_pos (by rw [signed_eq_zero]; exact h0), hmn, hr, Bool.and_false]
            cases xor s t
            · left; rfl
            · right; exact ⟨rfl, rfl⟩
          · left
            have h0 : m * n * 2 ^ d ≠ 0 := Nat.mul_ne_zero hmn (by positivity)
            rw [if_neg (by rw [signed_eq_zero]; exact h0), signed_neg _ _ h0, signed_natAbs,
              round_scale _ _ _ _ hmn]
            congr 1
            have := min_le_left (e + f) eMin
            omega

/-- Adding `+0` or `-0` to the same value gives numerically equal sums. -/
theorem F32.add_zero_numEq_add_negZero (o : F32) : numEq (o + zero) (o + negZero) := by
  rw [add_def, add_def]
  cases o with
  | nan => left; rfl
  | inf s => left; rfl
  | fin s m e =>
      simp only [add, zero, negZero, Nat.zero_mul, signed_zero, Int.add_zero]
      split_ifs
      · right; exact ⟨rfl, rfl⟩
      · left; rfl

/-- Adding a zero of either sign to a canonical value leaves it numerically unchanged. -/
theorem F32.add_zero_numEq (o : F32) (t : Bool) (h : WF o) : numEq (o + fin t 0 eMin) o := by
  cases o with
  | nan => left; rfl
  | inf s => left; rfl
  | fin s m e =>
      by_cases hm : m = 0
      · subst hm
        right
        rw [add_def]
        simp [add, signed_zero, isZero]
      · left
        exact fin_add_zero s m e t h hm

/-! ## Loops and buffers -/

theorem forLoop_steps {σ : Type} (bound step : Nat) (body : Nat → σ → Option σ) (S : Nat → σ)
    (hstep : 0 < step)
    (hbody : ∀ t, t * step < bound → body (t * step) (S t) = some (S (t + 1))) :
    ∀ fuel t, bound ≤ t * step + fuel →
      forLoop bound step body fuel (t * step) (S t)
        = some (S (max t ((bound + step - 1) / step))) := by
  have hN : ∀ t, bound ≤ t * step → (bound + step - 1) / step ≤ t := by
    intro t ht
    have h1 : bound + step - 1 < (t + 1) * step := by
      rw [Nat.add_mul]; omega
    have := (Nat.div_lt_iff_lt_mul hstep).2 h1
    omega
  have hN2 : ∀ t, t * step < bound → t + 1 ≤ (bound + step - 1) / step := by
    intro t ht
    apply (Nat.le_div_iff_mul_le hstep).2
    rw [Nat.add_mul]; omega
  intro fuel
  induction fuel with
  | zero =>
      intro t ht
      have h1 : ¬ t * step < bound := by omega
      have h2 := hN t (by omega)
      simp only [forLoop, if_neg h1]
      rw [Nat.max_eq_left h2]
  | succ fuel ih =>
      intro t ht
      by_cases h1 : t * step < bound
      · have h2 := hN2 t h1
        simp only [forLoop, if_pos h1, hbody t h1, Option.bind]
        have h3 : t * step + step = (t + 1) * step := by rw [Nat.add_mul]; omega
        rw [h3, ih (t + 1) (by rw [Nat.add_mul]; omega)]
        rw [Nat.max_eq_right h2, Nat.max_eq_right (by omega)]
      · have h2 := hN t (by omega)
        simp only [forLoop, if_neg h1]
        rw [Nat.max_eq_left h2]

theorem accumulated_zero (c : Nat → F32) (out : List F32) : accumulated c 0 out = out := by
  apply List.ext_getElem?
  intro n
  simp [accumulated, List.getElem?_mapIdx]

theorem length_accumulated (c : Nat → F32) (k : Nat) (out : List F32) :
    (accumulated c k out).length = out.length := by
  simp [accumulated]

theorem getElem?_accumulated (c : Nat → F32) (k : Nat) (out : List F32) (j : Nat) :
    (accumulated c k out)[j]? = (out[j]?).map fun o => if j < k then o + c j else o := by
  simp [accumulated, List.getElem?_mapIdx]

theorem accum_accumulated (c : Nat → F32) (k : Nat) (out : List F32) (v : F32)
    (hk : k < out.length) (hv : v = c k) :
    accum (accumulated c k out) k v = some (accumulated c (k + 1) out) := by
  subst hv
  have h1 : (accumulated c k out)[k]? = some out[k] := by
    rw [getElem?_accumulated, List.getElem?_eq_getElem hk]; simp
  simp only [accum, h1]
  congr 1
  apply List.ext_getElem?
  intro j
  rw [List.getElem?_set, getElem?_accumulated, getElem?_accumulated, length_accumulated]
  by_cases hj : k = j
  · subst hj
    simp [hk]
  · rw [if_neg hj]
    have h2 : (j < k + 1) = (j < k) := by
      apply propext; constructor <;> intro h <;> omega
    simp only [h2]

theorem store_lanes_accumulated (c : Nat → F32) (h lanes : Nat) (hl : lanes = 2 * h) (o : Reg)
    (l : Nat) (out : List F32) (hlen : l + lanes ≤ out.length)
    (ho : ∀ j, j < lanes → o j = c (l + j)) :
    store_lanes lanes o l (l + 1) (accumulated c l out) = some (accumulated c (l + lanes) out) := by
  have key := forLoop_steps lanes 2
    (fun j out => (accum out (l + j) (o (0 + j))).bind
      fun out => accum out (l + 1 + j) (o (0 + j + 1)))
    (fun t => accumulated c (l + t * 2) out) (by omega)
    (by
      intro t ht
      show (accum (accumulated c (l + t * 2) out) (l + t * 2) (o (0 + t * 2))).bind _ = _
      rw [accum_accumulated c (l + t * 2) out _ (by omega)
        (by rw [Nat.zero_add]; exact ho _ ht)]
      show accum (accumulated c (l + t * 2 + 1) out) (l + 1 + t * 2) (o (0 + t * 2 + 1))
        = some (accumulated c (l + (t + 1) * 2) out)
      have e1 : l + 1 + t * 2 = l + t * 2 + 1 := by omega
      have e2 : l + (t + 1) * 2 = l + t * 2 + 1 + 1 := by omega
      rw [e1, e2]
      exact accum_accumulated c (l + t * 2 + 1) out _ (by omega)
        (by rw [Nat.zero_add]; rw [ho _ (by omega)]; congr 1))
    lanes 0 (by omega)
  simp only [Nat.zero_mul, Nat.add_zero] at key
  unfold store_lanes
  rw [key]
  have e3 : max 0 ((lanes + 2 - 1) / 2) * 2 = lanes := by
    rw [Nat.max_eq_right (Nat.zero_le _)]; omega
  rw [e3]

theorem blend_gain (gL gR : F32) (j : Nat) (hj : j < 8) :
    _mm256_blend_ps (_mm_set1_ps gL) (_mm_set1_ps gR) 0xAA j = laneGain gL gR j := by
  interval_cases j <;> simp [_mm256_blend_ps, _mm_set1_ps, laneGain]

theorem expand_gain (gL gR : F32) (j : Nat) (hj : j < 16) :
    _mm512_mask_expand_ps (_mm_set1_ps gL) 0xAAAA (_mm_set1_ps gR) j = laneGain gL gR j := by
  interval_cases j <;> simp [_mm512_mask_expand_ps, _mm_set1_ps, laneGain]

theorem laneGain_add (gL gR : F32) (l j : Nat) (hl : l % 2 = 0) :
    laneGain gL gR (l + j) = laneGain gL gR j := by
  have : (l + j) % 2 = j % 2 := by omega
  simp [laneGain, this]

/-- Every strategy of `mix_buffer`, on buffers that hold the positions its loop touches,
returns `out` with the strategy's contribution added at each position below `span`. -/
theorem mix_buffer_eq (strategy : Strategy) (inp out : List F32) (gL gR : F32) (blockSize : Nat)
    (hin : span strategy blockSize ≤ inp.length) (hout : span strategy blockSize ≤ out.length) :
    mix_buffer strategy inp out gL gR blockSize
      = some (accumulated
          (fun j => contribution strategy (inp.getD j F32.zero) (laneGain gL gR j))
          (span strategy blockSize) out) := by
  cases strategy with
  | scalar =>
      simp only [span, pairsPerStep] at hin hout
      have key := forLoop_steps (blockSize / 2) 1
        (fun i out =>
          (inp[i * 2]?).bind fun l =>
          (accum out (i * 2) (l * gL)).bind fun out =>
          (inp[i * 2 + 1]?).bind fun r =>
          accum out (i * 2 + 1) (r * gR))
        (fun t => accumulated
          (fun j => contribution .scalar (inp.getD j F32.zero) (laneGain gL gR j)) (t * 2) out)
        (by omega)
        (by
          intro t ht
          simp only [Nat.mul_one] at ht ⊢
          have h1 : t * 2 + 1 < inp.length := by omega
          have h2 : t * 2 < inp.length := by omega
          rw [List.getElem?_eq_getElem h2]
          simp only [Option.bind]
          rw [accum_accumulated _ (t * 2) out _ (by omega)
            (by simp [contribution, laneGain, List.getD, List.getElem?_eq_getElem h2])]
          simp only [Option.bind]
          rw [List.getElem?_eq_getElem h1]
          simp only []
          have e2 : (t + 1) * 2 = t * 2 + 1 + 1 := by omega
          rw [e2]
          exact accum_accumulated _ (t * 2 + 1) out _ (by omega)
            (by
              have : (t * 2 + 1) % 2 = 1 := by omega
              simp [contribution, laneGain, List.getD, List.getElem?_eq_getElem h1, this]))
        (blockSize / 2) 0 (by omega)
      simp only [Nat.zero_mul, accumulated_zero] at key
      simp only [mix_buffer, span, pairsPerStep]
      rw [key]
      congr 2
      rw [Nat.max_eq_right (Nat.zero_le _)]
  | simd128 =>
      simp only [span, pairsPerStep] at hin hout
      have key := forLoop_steps (blockSize / 2) 2
        (fun i out =>
          (_mm_load_ps 4 inp (i * 2)).bind fun inputs_128 =>
          (_mm_load_ps 4 [gL, gR, gL, gR] 0).bind fun gains_128 =>
          (accum out (i * 2) (_mm_fmadd_ps inputs_128 gains_128 _mm_setzero_ps 0)).bind fun out =>
          (accum out (i * 2 + 1) (_mm_fmadd_ps inputs_128 gains_128 _mm_setzero_ps 1)).bind
            fun out =>
          (accum out (i * 2 + 2) (_mm_fmadd_ps inputs_128 gains_128 _mm_setzero_ps 2)).bind
            fun out =>
          accum out (i * 2 + 1 + 2) (_mm_fmadd_ps inputs_128 gains_128 _mm_setzero_ps 3))
        (fun t => accumulated
          (fun j => contribution .simd128 (inp.getD j F32.zero) (laneGain gL gR j)) (t * 4) out)
        (by omega)
        (by
          intro t ht
          have h1 : t * 4 + 4 ≤ inp.length := by omega
          have e0 : t * 2 * 2 = t * 4 := by omega
          have m0 : (t * 4) % 2 = 0 := by omega
          have m1 : (t * 4 + 1) % 2 = 1 := by omega
          have m2 : (t * 4 + 2) % 2 = 0 := by omega
          have m3 : (t * 4 + 3) % 2 = 1 := by omega
          simp only [e0]
          simp only [_mm_load_ps, if_pos h1, Option.bind, List.length_cons, List.length_nil,
            Nat.zero_add, Nat.reduceAdd, Nat.le_refl, if_true]
          rw [accum_accumulated _ (t * 4) out _ (by omega)
            (by simp [contribution, laneGain, _mm_fmadd_ps, _mm_setzero_ps, m0])]
          simp only []
          rw [accum_accumulated _ (t * 4 + 1) out _ (by omega)
            (by simp [contribution, laneGain, _mm_fmadd_ps, _mm_setzero_ps, m1])]
          simp only []
          rw [accum_accumulated _ (t * 4 + 1 + 1) out _ (by omega)
            (by simp [contribution, laneGain, _mm_fmadd_ps, _mm_setzero_ps, m2])]
          simp only []
          have e2 : (t + 1) * 4 = t * 4 + 1 + 1 + 1 + 1 := by omega
          rw [e2]
          exact accum_accumulated _ (t * 4 + 1 + 1 + 1) out _ (by omega)
            (by simp [contribution, laneGain, _mm_fmadd_ps, _mm_setzero_ps, m3]))
        (blockSize / 2) 0 (by omega)
      simp only [Nat.zero_mul, accumulated_zero] at key
      simp only [mix_buffer, span, pairsPerStep]
      rw [key]
      congr 2
      rw [Nat.max_eq_right (Nat.zero_le _)]
  | simd256 =>
      simp only [span, pairsPerStep] at hin hout
      have key := forLoop_steps (blockSize / 2) 4
        (fun i out =>
          (_mm_load_ps 8 inp (i * 2)).bind fun inputs_256 =>
          store_lanes 8
            (_mm_fmadd_ps inputs_256
              (_mm256_blend_ps (_mm_set1_ps gL) (_mm_set1_ps gR) 0xAA) _mm_setzero_ps)
            (i * 2) (i * 2 + 1) out)
        (fun t => accumulated
          (fun j => contribution .simd256 (inp.getD j F32.zero) (laneGain gL gR j)) (t * 8) out)
        (by omega)
        (by
          intro t ht
          have h1 : t * 8 + 8 ≤ inp.length := by omega
          have e0 : t * 4 * 2 = t * 8 := by omega
          have e2 : (t + 1) * 8 = t * 8 + 8 := by omega
          simp only [e0, e2]
          simp only [_mm_load_ps, if_pos h1, Option.bind]
          apply store_lanes_accumulated _ 4 8 rfl _ (t * 8) out (by omega)
          intro j hj
          simp only [_mm_fmadd_ps, blend_gain gL gR j hj, contribution, _mm_setzero_ps]
          rw [laneGain_add gL gR (t * 8) j (by omega)])
        (blockSize / 2) 0 (by omega)
      simp only [Nat.zero_mul, accumulated_zero] at key
      simp only [mix_buffer, span, pairsPerStep]
      rw [key]
      congr 2
      rw [Nat.max_eq_right (Nat.zero_le _)]
  | simd512 =>
      simp only [span, pairsPerStep] at hin hout
      have key := forLoop_steps (blockSize / 2) 8
        (fun i out =>
          (_mm_load_ps 16 inp (i * 2)).bind fun inputs_512 =>
          store_lanes 16
            (_mm_fmadd_ps inputs_512
              (_mm512_mask_expand_ps (_mm_set1_ps gL) 0xAAAA (_mm_set1_ps gR)) _mm_setzero_ps)
            (i * 2) (i * 2 + 1) out)
        (fun t => accumulated
          (fun j => contribution .simd512 (inp.getD j F32.zero) (laneGain gL gR j)) (t * 16) out)
        (by omega)
        (by
          intro t ht
          have h1 : t * 16 + 16 ≤ inp.length := by omega
          have e0 : t * 8 * 2 = t * 16 := by omega
          have e2 : (t + 1) * 16 = t * 16 + 16 := by omega
          simp only [e0, e2]
          simp only [_mm_load_ps, if_pos h1, Option.bind]
          apply store_lanes_accumulated _ 8 16 rfl _ (t * 16) out (by omega)
          intro j hj
          simp only [_mm_fmadd_ps, expand_gain gL gR j hj, contribution, _mm_setzero_ps]
          rw [laneGain_add gL gR (t * 16) j (by omega)])
        (blockSize / 2) 0 (by omega)
      simp only [Nat.zero_mul, accumulated_zero] at key
      simp only [mix_buffer, span, pairsPerStep]
      rw [key]
      congr 2
      rw [Nat.max_eq_right (Nat.zero_le _)]


theorem getElem?_cleared (k : Nat) (out : List F32) (j : Nat) :
    (cleared k out)[j]? = (out[j]?).map fun o => if j < k then F32.zero else o := by
  simp [cleared, List.getElem?_mapIdx]

theorem length_cleared (k : Nat) (out : List F32) : (cleared k out).length = out.length := by
  simp [cleared]

/-- On a buffer that holds `blockSize` elements, `clear_buffer` returns it with the first
`blockSize` elements set to `+0`. -/
theorem clear_buffer_eq (out : List F32) (blockSize : Nat) (h : blockSize ≤ out.length) :
    clear_buffer out blockSize = some (cleared blockSize out) := by
  have key := forLoop_steps blockSize 1 (fun i out => store out i F32.zero)
    (fun t => cleared t out) (by omega)
    (by
      intro t ht
      simp only [Nat.mul_one] at ht ⊢
      simp only [store, length_cleared, if_pos (show t < out.length by omega)]
      congr 1
      apply List.ext_getElem?
      intro j
      rw [List.getElem?_set, getElem?_cleared, getElem?_cleared, length_cleared]
      by_cases hj : t = j
      · subst hj
        rw [if_pos rfl, if_pos (by omega), List.getElem?_eq_getElem (show t < out.length by omega)]
        simp
      · rw [if_neg hj]
        have h2 : (j < t + 1) = (j < t) := by
          apply propext; constructor <;> intro h <;> omega
        simp only [h2])
    blockSize 0 (by omega)
  simp only [Nat.zero_mul] at key
  have h0 : cleared 0 out = out := by
    apply List.ext_getElem?
    intro j
    simp [getElem?_cleared]
  rw [h0] at key
  unfold clear_buffer
  rw [key]
  congr 2
  rw [Nat.max_eq_right (Nat.zero_le _)]
  simp

theorem span_scalar_le (blockSize : Nat) : span .scalar blockSize ≤ blockSize := by
  simp only [span, pairsPerStep]; omega

theorem span_eq_of_aligned (strategy : Strategy) (blockSize : Nat)
    (h : blockSize % (2 * pairsPerStep strategy) = 0) : span strategy blockSize = blockSize := by
  cases strategy <;> simp only [span, pairsPerStep] at h ⊢ <;> omega

theorem le_span (strategy : Strategy) (blockSize : Nat) :
    2 * (blockSize / 2) ≤ span strategy blockSize := by
  cases strategy <;> simp only [span, pairsPerStep] <;> omega

theorem contribution_WF (strategy : Strategy) (x g : F32) :
    F32.WF (contribution strategy x g) := by
  cases strategy
  · exact F32.mul_WF x g
  · exact F32.fma_zero_WF x g
  · exact F32.fma_zero_WF x g
  · exact F32.fma_zero_WF x g

theorem F32.numEq_refl (a : F32) : numEq a a := Or.inl rfl

/-! ## Mixing engine: the claims -/

/-- C1. The scalar `mix_buffer`, on an input and an output buffer that hold at least
`blockSize` elements, returns an output in which every pair `k < blockSize / 2` satisfies
`out'[2k] = out[2k] + in[2k] * gL` and `out'[2k+1] = out[2k+1] + in[2k+1] * gR`, and every
position at or beyond `blockSize` is unchanged (the input is a read-only argument). -/
theorem C1_scalar_mix_buffer_contract (inp out : List F32) (gL gR : F32) (blockSize : Nat)
    (hin : blockSize ≤ inp.length) (hout : blockSize ≤ out.length) :
    ∃ out', mix_buffer .scalar inp out gL gR blockSize = some out' ∧
      out'.length = out.length ∧
      (∀ k, k < blockSize / 2 →
        out'[2 * k]? = some (out.getD (2 * k) F32.zero + inp.getD (2 * k) F32.zero * gL) ∧
        out'[2 * k + 1]?
          = some (out.getD (2 * k + 1) F32.zero + inp.getD (2 * k + 1) F32.zero * gR)) ∧
      (∀ j, blockSize ≤ j → out'[j]? = out[j]?) := by
  have hs := span_scalar_le blockSize
  have hs2 : span .scalar blockSize = blockSize / 2 * 2 := by
    simp only [span, pairsPerStep]; omega
  refine ⟨_, mix_buffer_eq .scalar inp out gL gR blockSize (by omega) (by omega),
    length_accumulated _ _ _, ?_, ?_⟩
  · intro k hk
    have h1 : 2 * k < out.length := by omega
    have h2 : 2 * k + 1 < out.length := by omega
    constructor
    · rw [getElem?_accumulated, List.getElem?_eq_getElem h1, hs2]
      have h3 : 2 * k % 2 = 0 := by omega
      simp [contribution, laneGain, h3, List.getD, List.getElem?_eq_getElem h1]
      omega
    · rw [getElem?_accumulated, List.getElem?_eq_getElem h2, hs2]
      have h3 : (2 * k + 1) % 2 = 1 := by omega
      simp [contribution, laneGain, h3, List.getD, List.getElem?_eq_getElem h2]
      omega
  · intro j hj
    rw [getElem?_accumulated]
    have : ¬ j < span .scalar blockSize := by omega
    simp only [if_neg this]
    cases out[j]? <;> rfl

theorem C1_scalar_mix_buffer_contract_witness :
    2 ≤ [F32.ofInt 1, F32.ofInt 2].length ∧ 2 ≤ [F32.ofInt 3, F32.ofInt 4, F32.ofInt 5].length ∧
    ∃ out', mix_buffer .scalar [F32.ofInt 1, F32.ofInt 2] [F32.ofInt 3, F32.ofInt 4, F32.ofInt 5]
        (F32.ofInt 2) (F32.ofInt 3) 2 = some out' ∧
      out'.length = [F32.ofInt 3, F32.ofInt 4, F32.ofInt 5].length ∧
      (∀ k, k < 2 / 2 →
        out'[2 * k]? = some ([F32.ofInt 3, F32.ofInt 4, F32.ofInt 5].getD (2 * k) F32.zero
          + [F32.ofInt 1, F32.ofInt 2].getD (2 * k) F32.zero * F32.ofInt 2) ∧
        out'[2 * k + 1]?
          = some ([F32.ofInt 3, F32.ofInt 4, F32.ofInt 5].getD (2 * k + 1) F32.zero
            + [F32.ofInt 1, F32.ofInt 2].getD (2 * k + 1) F32.zero * F32.ofInt 3)) ∧
      (∀ j, 2 ≤ j → out'[j]? = [F32.ofInt 3, F32.ofInt 4, F32.ofInt 5][j]?) :=
  ⟨by decide, by decide,
    C1_scalar_mix_buffer_contract [F32.ofInt 1, F32.ofInt 2]
      [F32.ofInt 3, F32.ofInt 4, F32.ofInt 5] (F32.ofInt 2) (F32.ofInt 3) 2
      (by decide) (by decide)⟩

/-- C2, as stated, fails. With `blockSize = 2` and buffers of length 2 every SIMD strategy
reads and writes beyond the buffers while the scalar strategy succeeds; on buffers of
length 4 the 128-bit strategy changes positions 2 and 3, at and beyond `blockSize`; and on
an aligned block the 128-bit strategy yields `+0` where the scalar one yields `-0`. -/
theorem C2_simd_differs_from_scalar :
    mix_buffer .simd128 [F32.ofInt 1, F32.ofInt 1] [F32.zero, F32.zero]
        (F32.ofInt 1) (F32.ofInt 1) 2 = none ∧
    mix_buffer .simd256 [F32.ofInt 1, F32.ofInt 1] [F32.zero, F32.zero]
        (F32.ofInt 1) (F32.ofInt 1) 2 = none ∧
    mix_buffer .simd512 [F32.ofInt 1, F32.ofInt 1] [F32.zero, F32.zero]
        (F32.ofInt 1) (F32.ofInt 1) 2 = none ∧
    mix_buffer .scalar [F32.ofInt 1, F32.ofInt 1] [F32.zero, F32.zero]
        (F32.ofInt 1) (F32.ofInt 1) 2 = some [F32.ofInt 1, F32.ofInt 1] ∧
    mix_buffer .simd128 [F32.ofInt 1, F32.ofInt 1, F32.ofInt 1, F32.ofInt 1]
        [F32.zero, F32.zero, F32.zero, F32.zero] (F32.ofInt 1) (F32.ofInt 1) 2
      = some [F32.ofInt 1, F32.ofInt 1, F32.ofInt 1, F32.ofInt 1] ∧
    mix_buffer .scalar [F32.ofInt 1, F32.ofInt 1, F32.ofInt 1, F32.ofInt 1]
        [F32.zero, F32.zero, F32.zero, F32.zero] (F32.ofInt 1) (F32.ofInt 1) 2
      = some [F32.ofInt 1, F32.ofInt 1, F32.zero, F32.zero] ∧
    mix_buffer .simd128 [F32.negZero, F32.negZero, F32.negZero, F32.negZero]
        [F32.negZero, F32.negZero, F32.negZero, F32.negZero] (F32.ofInt 1) (F32.ofInt 1) 4
      = some [F32.zero, F32.zero, F32.zero, F32.zero] ∧
    mix_buffer .scalar [F32.negZero, F32.negZero, F32.negZero, F32.negZero]
        [F32.negZero, F32.negZero, F32.negZero, F32.negZero] (F32.ofInt 1) (F32.ofInt 1) 4
      = some [F32.negZero, F32.negZero, F32.negZero, F32.negZero] := by
  refine ⟨?_, ?_, ?_, ?_, ?_, ?_, ?_, ?_⟩ <;> decide

/-- C2, amended. For a block size that is a multiple of the number of floats a strategy
handles per iteration (4, 8 or 16; 2 for the scalar strategy) and buffers that hold at
least `blockSize` elements, the strategy and the scalar strategy both return an output of
the length of `out`, the two outputs are numerically equal at every position (the same
datum, or zeros that may differ in sign), and the strategy leaves every position at or
beyond `blockSize` unchanged. -/
theorem C2_simd_matches_scalar_on_aligned_blocks (strategy : Strategy) (inp out : List F32)
    (gL gR : F32) (blockSize : Nat)
    (halign : blockSize % (2 * pairsPerStep strategy) = 0)
    (hin : blockSize ≤ inp.length) (hout : blockSize ≤ out.length) :
    ∃ v s, mix_buffer strategy inp out gL gR blockSize = some v ∧
      mix_buffer .scalar inp out gL gR blockSize = some s ∧
      v.length = out.length ∧ s.length = out.length ∧
      (∀ j, F32.numEq (v.getD j F32.zero) (s.getD j F32.zero)) ∧
      (∀ j, blockSize ≤ j → v[j]? = out[j]?) := by
  have hsp := span_eq_of_aligned strategy blockSize halign
  have hs := span_scalar_le blockSize
  have hs2 : span .scalar blockSize = blockSize := by
    have : blockSize % 2 = 0 := by
      cases strategy <;> simp only [pairsPerStep] at halign <;> omega
    simp only [span, pairsPerStep]; omega
  refine ⟨_, _, mix_buffer_eq strategy inp out gL gR blockSize (by omega) (by omega),
    mix_buffer_eq .scalar inp out gL gR blockSize (by omega) (by omega),
    length_accumulated _ _ _, length_accumulated _ _ _, ?_, ?_⟩
  · intro j
    rw [List.getD_eq_getElem?_getD, List.getD_eq_getElem?_getD, getElem?_accumulated,
      getElem?_accumulated, hsp, hs2]
    cases hj : out[j]? with
    | none => exact F32.numEq_refl _
    | some o =>
        simp only [Option.map, Option.getD]
        by_cases hlt : j < blockSize
        · rw [if_pos hlt, if_pos hlt]
          cases strategy with
          | scalar => exact F32.numEq_refl _
          | simd128 =>
              rcases F32.fma_zero_eq (inp.getD j F32.zero) (laneGain gL gR j) with h | ⟨h1, h2⟩
              · simp only [contribution, h]; exact F32.numEq_refl _
              · simp only [contribution, h1, h2]; exact F32.add_zero_numEq_add_negZero o
          | simd256 =>
              rcases F32.fma_zero_eq (inp.getD j F32.zero) (laneGain gL gR j) with h | ⟨h1, h2⟩
              · simp only [contribution, h]; exact F32.numEq_refl _
              · simp only [contribution, h1, h2]; exact F32.add_zero_numEq_add_negZero o
          | simd512 =>
              rcases F32.fma_zero_eq (inp.getD j F32.zero) (laneGain gL gR j) with h | ⟨h1, h2⟩
              · simp only [contribution, h]; exact F32.numEq_refl _
              · simp only [contribution, h1, h2]; exact F32.add_zero_numEq_add_negZero o
        · rw [if_neg hlt, if_neg hlt]; exact F32.numEq_refl _
  · intro j hj
    rw [getElem?_accumulated, hsp]
    have : ¬ j < blockSize := by omega
    simp only [if_neg this]
    cases out[j]? <;> rfl

theorem C2_simd_matches_scalar_on_aligned_blocks_witness :
    4 % (2 * pairsPerStep .simd128) = 0 ∧
    4 ≤ [F32.ofInt 1, F32.ofInt 2, F32.ofInt 3, F32.ofInt 4].length ∧
    4 ≤ [F32.ofInt 5, F32.ofInt 6, F32.ofInt 7, F32.ofInt 8, F32.ofInt 9].length ∧
    ∃ v s, mix_buffer .simd128 [F32.ofInt 1, F32.ofInt 2, F32.ofInt 3, F32.ofInt 4]
        [F32.ofInt 5, F32.ofInt 6, F32.ofInt 7, F32.ofInt 8, F32.ofInt 9]
        (F32.ofInt 2) (F32.ofInt 3) 4 = some v ∧
      mix_buffer .scalar [F32.ofInt 1, F32.ofInt 2, F32.ofInt 3, F32.ofInt 4]
        [F32.ofInt 5, F32.ofInt 6, F32.ofInt 7, F32.ofInt 8, F32.ofInt 9]
        (F32.ofInt 2) (F32.ofInt 3) 4 = some s ∧
      v.length = [F32.ofInt 5, F32.ofInt 6, F32.ofInt 7, F32.ofInt 8, F32.ofInt 9].length ∧
      s.length = [F32.ofInt 5, F32.ofInt 6, F32.ofInt 7, F32.ofInt 8, F32.ofInt 9].length ∧
      (∀ j, F32.numEq (v.getD j F32.zero) (s.getD j F32.zero)) ∧
      (∀ j, 4 ≤ j →
        v[j]? = [F32.ofInt 5, F32.ofInt 6, F32.ofInt 7, F32.ofInt 8, F32.ofInt 9][j]?) :=
  ⟨by decide, by decide, by decide,
    C2_simd_matches_scalar_on_aligned_blocks .simd128
      [F32.ofInt 1, F32.ofInt 2, F32.ofInt 3, F32.ofInt 4]
      [F32.ofInt 5, F32.ofInt 6, F32.ofInt 7, F32.ofInt 8, F32.ofInt 9]
      (F32.ofInt 2) (F32.ofInt 3) 4 (by decide) (by decide) (by decide)⟩

/-- The decimal literals of the scenario denote these binary32 data. -/
theorem scenario_literals :
    F32.ofRatio 10 10 = F32.fin false 8388608 (-23) ∧
    F32.ofRatio 5 10 = F32.fin false 8388608 (-24) ∧
    F32.ofRatio 3 10 = F32.fin false 10066330 (-25) ∧
    F32.ofRatio 65 100 = F32.fin false 10905190 (-24) ∧
    F32.ofRatio 75 100 = F32.fin false 12582912 (-24) := by
  refine ⟨?_, ?_, ?_, ?_, ?_⟩ <;> decide

/-- C3, as stated, fails for the build the source selects (`USING_FMADD_INTRIN 1`,
`USING_256_BIT_REGS 1`) and for the other SIMD builds: on the scenario's buffers of
length 2 the first `mix_buffer` call already reads and writes beyond the buffers. -/
theorem C3_scenario_overruns_simd :
    (clear_buffer [F32.zero, F32.zero] 2).bind
        (fun out => mix_buffer .simd256 [F32.ofRatio 10 10, F32.ofRatio 10 10] out
          (F32.ofRatio 5 10) (F32.ofRatio 5 10) 2) = none ∧
    (clear_buffer [F32.zero, F32.zero] 2).bind
        (fun out => mix_buffer .simd128 [F32.ofRatio 10 10, F32.ofRatio 10 10] out
          (F32.ofRatio 5 10) (F32.ofRatio 5 10) 2) = none ∧
    (clear_buffer [F32.zero, F32.zero] 2).bind
        (fun out => mix_buffer .simd512 [F32.ofRatio 10 10, F32.ofRatio 10 10] out
          (F32.ofRatio 5 10) (F32.ofRatio 5 10) 2) = none := by
  refine ⟨?_, ?_, ?_⟩ <;> decide

/-- C3, amended. With the scalar build of `mix_buffer`, clearing an output of length 2
(whatever it held) and mixing `in1 = [1.0, 1.0]` with gains `(0.5, 0.5)` and then
`in2 = [0.5, 0.5]` with gains `(0.3, 0.5)`, `blockSize` 2, yields `[0.65, 0.75]`. -/
theorem C3_scenario_scalar (a b : F32) :
    (clear_buffer [a, b] 2).bind
        (fun out => (mix_buffer .scalar [F32.ofRatio 10 10, F32.ofRatio 10 10] out
          (F32.ofRatio 5 10) (F32.ofRatio 5 10) 2).bind
        fun out => mix_buffer .scalar [F32.ofRatio 5 10, F32.ofRatio 5 10] out
          (F32.ofRatio 3 10) (F32.ofRatio 5 10) 2)
      = some [F32.ofRatio 65 100, F32.ofRatio 75 100] := by
  have h : clear_buffer [a, b] 2 = some [F32.zero, F32.zero] := by
    rw [clear_buffer_eq [a, b] 2 (Nat.le_refl 2)]
    rfl
  rw [h]
  decide

/-- The SIMD builds yield the same two values when the scenario's blocks are stored in
zero-padded buffers of the register width. -/
theorem scenario_simd_padded (strategy : Strategy) :
    ((mix_buffer strategy
        ([F32.ofRatio 10 10, F32.ofRatio 10 10] ++ List.replicate 14 F32.zero)
        (List.replicate 16 F32.zero) (F32.ofRatio 5 10) (F32.ofRatio 5 10) 2).bind
      fun out => mix_buffer strategy
        ([F32.ofRatio 5 10, F32.ofRatio 5 10] ++ List.replicate 14 F32.zero) out
        (F32.ofRatio 3 10) (F32.ofRatio 5 10) 2)
      = some ([F32.ofRatio 65 100, F32.ofRatio 75 100] ++ List.replicate 14 F32.zero) := by
  cases strategy <;> decide

/-- With a zero gain, a finite input sample contributes a zero (of either sign). -/
theorem contribution_zero_gain (strategy : Strategy) (x : F32) (hx : x.isFinite = true) :
    ∃ t, contribution strategy x F32.zero = F32.fin t 0 F32.eMin := by
  cases x with
  | nan => simp [F32.isFinite] at hx
  | inf s => simp [F32.isFinite] at hx
  | fin s m e =>
      cases strategy
      · exact ⟨xor s false, by
          simp only [contribution, F32.mul_def, F32.mul, F32.zero, Nat.mul_zero]
          simp [F32.round]⟩
      all_goals
        exact ⟨false, by
          simp [contribution, F32.fma, F32.zero, signed_zero]⟩

/-- C4, as stated, fails. An infinite input sample makes the zero-gain mix turn the
accumulated infinity into NaN, and a zero-gain mix of a finite block turns an accumulated
`-0` into `+0`. -/
theorem C4_zero_gain_mix_changes_output :
    mix_buffer .scalar [F32.inf false, F32.inf false] [F32.zero, F32.zero]
        (F32.ofInt 1) (F32.ofInt 1) 2 = some [F32.inf false, F32.inf false] ∧
    (mix_buffer .scalar [F32.inf false, F32.inf false] [F32.zero, F32.zero]
        (F32.ofInt 1) (F32.ofInt 1) 2).bind
      (fun out => mix_buffer .scalar [F32.inf false, F32.inf false] out F32.zero F32.zero 2)
      = some [F32.nan, F32.nan] ∧
    mix_buffer .scalar [F32.zero, F32.zero] [F32.negZero, F32.negZero]
        (F32.ofInt (-1)) (F32.ofInt (-1)) 2 = some [F32.negZero, F32.negZero] ∧
    (mix_buffer .scalar [F32.zero, F32.zero] [F32.negZero, F32.negZero]
        (F32.ofInt (-1)) (F32.ofInt (-1)) 2).bind
      (fun out => mix_buffer .scalar [F32.zero, F32.zero] out F32.zero F32.zero 2)
      = some [F32.zero, F32.zero] := by
  refine ⟨?_, ?_, ?_, ?_⟩ <;> decide

/-- C4, amended. For every strategy, gain pair and block size, every input block of
finite samples and every output block, both holding the positions the strategy's loop
touches (`span`: `blockSize` rounded down to even for the scalar strategy, up to a
multiple of the register width for a SIMD one): the mix and the following zero-gain mix
both return, and the output after the zero-gain mix is numerically equal to the output
before it at every position (the same datum, or a zero whose sign may have changed). -/
theorem C4_zero_gain_mix_numerically_unchanged (strategy : Strategy) (inp out : List F32)
    (gL gR : F32) (blockSize : Nat)
    (hfin : ∀ x ∈ inp, x.isFinite = true)
    (hin : span strategy blockSize ≤ inp.length)
    (hout : span strategy blockSize ≤ out.length) :
    ∃ r1 r2, mix_buffer strategy inp out gL gR blockSize = some r1 ∧
      mix_buffer strategy inp r1 F32.zero F32.zero blockSize = some r2 ∧
      r2.length = r1.length ∧
      ∀ j, F32.numEq (r2.getD j F32.zero) (r1.getD j F32.zero) := by
  have e1 := mix_buffer_eq strategy inp out gL gR blockSize hin hout
  refine ⟨_, _, e1, mix_buffer_eq strategy inp _ F32.zero F32.zero blockSize hin
    (by rw [length_accumulated]; exact hout), ?_, ?_⟩
  · rw [length_accumulated]
  · intro j
    rw [List.getD_eq_getElem?_getD, List.getD_eq_getElem?_getD, getElem?_accumulated]
    cases hj : (accumulated (fun j => contribution strategy (inp.getD j F32.zero)
        (laneGain gL gR j)) (span strategy blockSize) out)[j]? with
    | none => exact F32.numEq_refl _
    | some o =>
        simp only [Option.map, Option.getD]
        by_cases hlt : j < span strategy blockSize
        · rw [if_pos hlt]
          have hjin : j < inp.length := by omega
          have hx : (inp.getD j F32.zero).isFinite = true := by
            apply hfin
            rw [List.getD_eq_getElem?_getD, List.getElem?_eq_getElem hjin]
            exact List.getElem_mem _
          have hg : laneGain F32.zero F32.zero j = F32.zero := by
            simp [laneGain]
          obtain ⟨t, ht⟩ := contribution_zero_gain strategy _ hx
          rw [hg, ht]
          apply F32.add_zero_numEq
          rw [getElem?_accumulated] at hj
          cases ho : out[j]? with
          | none => rw [ho] at hj; simp at hj
          | some o0 =>
              rw [ho] at hj
              simp only [Option.map, if_pos hlt, Option.some.injEq] at hj
              rw [← hj]
              exact F32.add_WF _ _
        · rw [if_neg hlt]; exact F32.numEq_refl _

theorem C4_zero_gain_mix_numerically_unchanged_witness :
    (∀ x ∈ [F32.ofInt 1, F32.ofInt 2], x.isFinite = true) ∧
    span .scalar 2 ≤ [F32.ofInt 1, F32.ofInt 2].length ∧
    span .scalar 2 ≤ [F32.ofInt 3, F32.ofInt 4].length ∧
    ∃ r1 r2, mix_buffer .scalar [F32.ofInt 1, F32.ofInt 2] [F32.ofInt 3, F32.ofInt 4]
        (F32.ofInt 2) (F32.ofInt 3) 2 = some r1 ∧
      mix_buffer .scalar [F32.ofInt 1, F32.ofInt 2] r1 F32.zero F32.zero 2 = some r2 ∧
      r2.length = r1.length ∧
      ∀ j, F32.numEq (r2.getD j F32.zero) (r1.getD j F32.zero) :=
  ⟨by decide, by decide, by decide,
    C4_zero_gain_mix_numerically_unchanged .scalar [F32.ofInt 1, F32.ofInt 2]
      [F32.ofInt 3, F32.ofInt 4] (F32.ofInt 2) (F32.ofInt 3) 2
      (by decide) (by decide) (by decide)⟩

/-- C5 (as the claim states it, refuted). For the SIMD builds (the 256-bit one is the
configured build) and a block size of 2, with input blocks and an output of 2 floats,
neither order of mixing A and B into the cleared output yields an output buffer: the first
`mix_buffer` call loads and stores past the end of the buffers. -/
theorem C5_simd_mix_yields_no_output_on_small_block :
    ((clear_buffer [F32.nan, F32.nan] 2).bind fun z =>
      (mix_buffer .simd256 [F32.ofInt 1, F32.ofInt 2] z (F32.ofInt 2) (F32.ofInt 3) 2).bind
        fun z => mix_buffer .simd256 [F32.ofInt 3, F32.ofInt 4] z (F32.ofInt 4) (F32.ofInt 5) 2)
      = none ∧
    ((clear_buffer [F32.nan, F32.nan] 2).bind fun z =>
      (mix_buffer .simd256 [F32.ofInt 3, F32.ofInt 4] z (F32.ofInt 4) (F32.ofInt 5) 2).bind
        fun z => mix_buffer .simd256 [F32.ofInt 1, F32.ofInt 2] z (F32.ofInt 2) (F32.ofInt 3) 2)
      = none ∧
    ((clear_buffer [F32.nan, F32.nan] 2).bind fun z =>
      (mix_buffer .simd128 [F32.ofInt 1, F32.ofInt 2] z (F32.ofInt 2) (F32.ofInt 3) 2).bind
        fun z => mix_buffer .simd128 [F32.ofInt 3, F32.ofInt 4] z (F32.ofInt 4) (F32.ofInt 5) 2)
      = none ∧
    ((clear_buffer [F32.nan, F32.nan] 2).bind fun z =>
      (mix_buffer .simd512 [F32.ofInt 1, F32.ofInt 2] z (F32.ofInt 2) (F32.ofInt 3) 2).bind
        fun z => mix_buffer .simd512 [F32.ofInt 3, F32.ofInt 4] z (F32.ofInt 4) (F32.ofInt 5) 2)
      = none ∧
    ¬ span .simd256 2 ≤ 2 := by
  refine ⟨?_, ?_, ?_, ?_, ?_⟩ <;> decide

/-- C5 (amended). For every strategy and block size whose loop stays inside the cleared
block (every block size for the scalar strategy; `blockSize / 2` a multiple of 2, 4 and 8
pairs for the 128, 256 and 512-bit builds), input blocks `a` and `b` and an output that
hold `blockSize` elements, and any gain pairs: clearing the output and mixing `a` then
`b` returns exactly the buffer that clearing it and mixing `b` then `a` returns. -/
theorem C5_accumulation_commutes (strategy : Strategy) (a b out : List F32)
    (gAL gAR gBL gBR : F32) (blockSize : Nat)
    (hspan : span strategy blockSize ≤ blockSize)
    (ha : blockSize ≤ a.length) (hb : blockSize ≤ b.length) (hout : blockSize ≤ out.length) :
    ∃ r,
      ((clear_buffer out blockSize).bind fun z =>
        (mix_buffer strategy a z gAL gAR blockSize).bind fun z =>
          mix_buffer strategy b z gBL gBR blockSize) = some r ∧
      ((clear_buffer out blockSize).bind fun z =>
        (mix_buffer strategy b z gBL gBR blockSize).bind fun z =>
          mix_buffer strategy a z gAL gAR blockSize) = some r := by
  have hc := clear_buffer_eq out blockSize hout
  have hlc := length_cleared blockSize out
  have hA := mix_buffer_eq strategy a (cleared blockSize out) gAL gAR blockSize
    (by omega) (by omega)
  have hB := mix_buffer_eq strategy b (cleared blockSize out) gBL gBR blockSize
    (by omega) (by omega)
  have hAB := mix_buffer_eq strategy b _ gBL gBR blockSize (by omega)
    (show span strategy blockSize ≤ (accumulated (fun j => contribution strategy
      (a.getD j F32.zero) (laneGain gAL gAR j)) (span strategy blockSize)
      (cleared blockSize out)).length by rw [length_accumulated]; omega)
  have hBA := mix_buffer_eq strategy a _ gAL gAR blockSize (by omega)
    (show span strategy blockSize ≤ (accumulated (fun j => contribution strategy
      (b.getD j F32.zero) (laneGain gBL gBR j)) (span strategy blockSize)
      (cleared blockSize out)).length by rw [length_accumulated]; omega)
  refine ⟨accumulated (fun j => contribution strategy (b.getD j F32.zero)
      (laneGain gBL gBR j)) (span strategy blockSize)
      (accumulated (fun j => contribution strategy (a.getD j F32.zero)
        (laneGain gAL gAR j)) (span strategy blockSize) (cleared blockSize out)), ?_, ?_⟩
  · rw [hc]; simp only [Option.bind]; rw [hA]; simp only []; exact hAB
  · rw [hc]; simp only [Option.bind]; rw [hB]; simp only []; rw [hBA]
    congr 1
    apply List.ext_getElem?
    intro j
    simp only [getElem?_accumulated, getElem?_cleared]
    cases out[j]? with
    | none => rfl
    | some o =>
        simp only [Option.map]
        by_cases hlt : j < span strategy blockSize
        · have hlt2 : j < blockSize := by omega
          simp only [if_pos hlt, if_pos hlt2]
          congr 1
          exact F32.zero_add_add_swap _ _ (contribution_WF _ _ _) (contribution_WF _ _ _)
        · simp only [if_neg hlt]

theorem C5_accumulation_commutes_witness :
    span .scalar 2 ≤ 2 ∧
    2 ≤ [F32.ofInt 1, F32.ofInt 2].length ∧ 2 ≤ [F32.ofInt 3, F32.ofInt 4].length ∧
    2 ≤ [F32.ofInt 5, F32.ofInt 6].length ∧
    ∃ r,
      ((clear_buffer [F32.ofInt 5, F32.ofInt 6] 2).bind fun z =>
        (mix_buffer .scalar [F32.ofInt 1, F32.ofInt 2] z (F32.ofInt 2) (F32.ofInt 3) 2).bind
          fun z => mix_buffer .scalar [F32.ofInt 3, F32.ofInt 4] z (F32.ofInt 4) (F32.ofInt 5) 2)
        = some r ∧
      ((clear_buffer [F32.ofInt 5, F32.ofInt 6] 2).bind fun z =>
        (mix_buffer .scalar [F32.ofInt 3, F32.ofInt 4] z (F32.ofInt 4) (F32.ofInt 5) 2).bind
          fun z => mix_buffer .scalar [F32.ofInt 1, F32.ofInt 2] z (F32.ofInt 2) (F32.ofInt 3) 2)
        = some r :=
  ⟨by decide, by decide, by decide, by decide,
    C5_accumulation_commutes .scalar [F32.ofInt 1, F32.ofInt 2] [F32.ofInt 3, F32.ofInt 4]
      [F32.ofInt 5, F32.ofInt 6] (F32.ofInt 2) (F32.ofInt 3) (F32.ofInt 4) (F32.ofInt 5) 2
      (by decide) (by decide) (by decide) (by decide)⟩


/-! ## Bytes and streams -/

theorem length_leBytes (k n : Nat) : (leBytes k n).length = k := by
  induction k generalizing n with
  | zero => rfl
  | succ k ih => simp [leBytes, ih]

theorem leValue_leBytes (k n : Nat) : leValue (leBytes k n) = n % 256 ^ k := by
  induction k generalizing n with
  | zero => simp [leBytes, leValue, Nat.mod_one]
  | succ k ih =>
      simp only [leBytes, leValue, ih]
      rw [pow_succ, Nat.mul_comm (256 ^ k) 256, Nat.mod_mul]

theorem leValue_leBytes_of_lt (k n : Nat) (h : n < 256 ^ k) : leValue (leBytes k n) = n := by
  rw [leValue_leBytes, Nat.mod_eq_of_lt h]

theorem ChunkInfo.ofBytes_chunkInfo_header (a b : Nat) (rest : List Nat) :
    ChunkInfo.ofBytes (leBytes 4 a ++ leBytes 4 b ++ rest)
      = { m_id := a % 2 ^ 32, m_size := b % 2 ^ 32 } := by
  have h1 : (leBytes 4 a ++ leBytes 4 b ++ rest).take 4 = leBytes 4 a := by
    rw [List.append_assoc]; exact List.take_left' (length_leBytes 4 a)
  have h2 : ((leBytes 4 a ++ leBytes 4 b ++ rest).drop 4).take 4 = leBytes 4 b := by
    rw [List.append_assoc, List.drop_left' (length_leBytes 4 a)]
    exact List.take_left' (length_leBytes 4 b)
  simp only [ChunkInfo.ofBytes, h1, h2, leValue_leBytes]
  norm_num

theorem ChunkInfo.length_toBytes_chunkInfo (c : ChunkInfo) : c.toBytes.length = 8 := by
  simp [ChunkInfo.toBytes, length_leBytes]

theorem FmtChunk.length_toBytes_fmtChunk (f : FmtChunk) : f.toBytes.length = 40 := by
  simp [FmtChunk.toBytes, length_leBytes]

theorem IfStream.read_full (s : IfStream) (dst w : List Nat) (n : Nat)
    (hf : s.failed = false) (hw : (s.content.drop s.pos).take n = w) (hn : w.length = n) :
    s.read dst n = ({ s with pos := s.pos + n }, w ++ dst.drop n) := by
  simp only [IfStream.read, hf, hw, hn, if_true, Bool.false_eq_true, if_false]

theorem IfStream.read_short (s : IfStream) (dst : List Nat) (n : Nat)
    (hf : s.failed = false) (hn : ((s.content.drop s.pos).take n).length ≠ n) :
    (s.read dst n).1.failed = true ∧ (s.read dst n).1.content = s.content := by
  simp only [IfStream.read, hf, if_neg hn, Bool.false_eq_true, if_false, and_self]

theorem length_encode (c : Chunk) : c.encode.length = 8 + c.payload.length := by
  simp [Chunk.encode, length_leBytes]; omega

theorem walk_chunks_of_failed (fuel : Nat) (st : ChunkWalk)
    (h : st.self.m_audioFile.failed = true) : walk_chunks fuel st = some st := by
  cases fuel <;> simp [walk_chunks, h]

/-- Seeking to a position where a complete chunk starts and reading a header yields the
chunk's identifier and size and leaves the stream after the header. -/
theorem IfStream.seek_read_header (s : IfStream) (pre rest dst : List Nat) (c : Chunk)
    (hc : s.content = pre ++ (c.encode ++ rest)) (hf : s.failed = false) :
    (s.seekg pre.length).read dst 8
      = ({ content := s.content, pos := pre.length + 8, failed := false },
          leBytes 4 c.id ++ leBytes 4 c.payload.length ++ dst.drop 8) := by
  obtain ⟨content, pos, failed⟩ := s
  simp only at hc hf
  subst hf
  have hw : (content.drop pre.length).take 8 = leBytes 4 c.id ++ leBytes 4 c.payload.length := by
    rw [hc, List.drop_left, Chunk.encode, List.append_assoc]
    apply List.take_left'
    simp [length_leBytes]
  have h1 := IfStream.read_full { content := content, pos := pre.length, failed := false }
    dst _ 8 rfl hw (by simp [length_leBytes])
  simp only [IfStream.seekg, Bool.false_eq_true, if_false]
  rw [h1]

/-- Seeking to a position with fewer than 8 bytes left and reading a header sets the
error state. -/
theorem IfStream.seek_read_short (s : IfStream) (pre trailing dst : List Nat)
    (hc : s.content = pre ++ trailing) (hf : s.failed = false) (ht : trailing.length < 8) :
    ((s.seekg pre.length).read dst 8).1.failed = true ∧
      ((s.seekg pre.length).read dst 8).1.content = s.content := by
  obtain ⟨content, pos, failed⟩ := s
  simp only at hc hf
  subst hf
  simp only [IfStream.seekg, Bool.false_eq_true, if_false]
  have h := IfStream.read_short { content := content, pos := pre.length, failed := false }
    dst 8 rfl (by
      simp only [hc, List.drop_left, List.length_take]
      omega)
  exact h

theorem length_encodeChunks_cons (c : Chunk) (cs : List Chunk) :
    (encodeChunks (c :: cs)).length = 8 + c.payload.length + (encodeChunks cs).length := by
  simp [encodeChunks, length_encode]

/-- The chunk loop on a file made of complete chunks and fewer than 8 trailing bytes
ends within one iteration per chunk and records what `walkSpec` describes. -/
theorem walk_chunks_spec (trailing : List Nat) (htr : trailing.length < 8) :
    ∀ (cs : List Chunk) (pre : List Nat) (r : WavAudioFileInput) (ci0 : ChunkInfo) (k : Nat),
      (∀ c ∈ cs, c.id < 2 ^ 32) →
      fmtReadable cs trailing →
      (pre ++ (encodeChunks cs ++ trailing)).length < 2 ^ 32 →
      r.m_audioFile.content = pre ++ (encodeChunks cs ++ trailing) →
      r.m_audioFile.failed = false →
      ∃ st, walk_chunks (cs.length + k)
          { self := { r with m_audioFile :=
              ((r.m_audioFile.seekg pre.length).read ci0.toBytes sizeofChunkInfo).1 }
            chunkInfo := ChunkInfo.ofBytes
              ((r.m_audioFile.seekg pre.length).read ci0.toBytes sizeofChunkInfo).2
            offset :=
              ((r.m_audioFile.seekg pre.length).read ci0.toBytes sizeofChunkInfo).1.tellg }
          = some st ∧
        st.self.m_audioFile.content = r.m_audioFile.content ∧
        (st.self.m_formatChunk, st.self.m_dataStart, st.self.m_dataSize)
          = walkSpec r.m_audioFile.content cs pre.length
              (r.m_formatChunk, r.m_dataStart, r.m_dataSize) ∧
        st.self.m_scratchMemory = r.m_scratchMemory ∧ st.self.m_samples = r.m_samples ∧
        st.self.m_readPosition = r.m_readPosition := by
  intro cs
  induction cs with
  | nil =>
      intro pre r ci0 k _ _ _ hc hf
      simp only [encodeChunks, List.nil_append] at hc
      obtain ⟨h1, h2⟩ := IfStream.seek_read_short r.m_audioFile pre trailing ci0.toBytes hc hf htr
      refine ⟨_, walk_chunks_of_failed _ _ h1, h2, ?_, rfl, rfl, rfl⟩
      simp [walkSpec]
  | cons c cs ih =>
      intro pre r ci0 k hid hfr hlen hc hf
      obtain ⟨scr, fmt, smp, s, ds, dz, rp⟩ := r
      simp only at hc hf ⊢
      have hc' : s.content = pre ++ (c.encode ++ (encodeChunks cs ++ trailing)) := by
        rw [hc, encodeChunks, List.append_assoc]
      have hcid : c.id < 2 ^ 32 := hid c (List.mem_cons_self _ _)
      have hlen' : pre.length + 8 + c.payload.length + (encodeChunks cs).length
          + trailing.length < 2 ^ 32 := by
        simp only [List.length_append, length_encodeChunks_cons] at hlen
        omega
      rw [show sizeofChunkInfo = 8 from rfl,
        IfStream.seek_read_header s pre _ ci0.toBytes c hc' hf, ChunkInfo.ofBytes_chunkInfo_header,
        Nat.mod_eq_of_lt hcid, Nat.mod_eq_of_lt (show c.payload.length < 2 ^ 32 by omega)]
      have e1 : (c :: cs).length + k = (cs.length + k) + 1 := by
        simp only [List.length_cons]; omega
      rw [e1]
      have ht : IfStream.tellg { content := s.content, pos := pre.length + 8, failed := false }
          = pre.length + 8 := by
        simp only [IfStream.tellg, Bool.false_eq_true, if_false]
        exact Nat.mod_eq_of_lt (by omega)
      have hP : (pre ++ c.encode).length = pre.length + 8 + c.payload.length := by
        rw [List.length_append, length_encode]; omega
      have hmod : (pre.length + 8 + c.payload.length) % 2 ^ 32
          = pre.length + 8 + c.payload.length := Nat.mod_eq_of_lt (by omega)
      have hc2 : s.content = (pre ++ c.encode) ++ (encodeChunks cs ++ trailing) := by
        rw [hc', List.append_assoc]
      have hlen2 : ((pre ++ c.encode) ++ (encodeChunks cs ++ trailing)).length < 2 ^ 32 := by
        simp only [List.length_append, length_encode]; omega
      have hid2 : ∀ c' ∈ cs, c'.id < 2 ^ 32 := fun c' hc' => hid c' (List.mem_cons_of_mem _ hc')
      simp only [walk_chunks, Bool.false_eq_true, if_false, ht, walk_step, hmod]
      by_cases hfmt : c.id = kFmt
      · have hclen : s.content.length = pre.length + 8 + c.payload.length
            + (encodeChunks cs).length + trailing.length := by
          rw [hc']; simp only [List.length_append, length_encode]; omega
        have h40 := hfr.1 hfmt
        have hwlen : ((s.content.drop (pre.length + 8)).take 40).length = 40 := by
          rw [List.length_take, List.length_drop]; omega
        have hread := IfStream.read_full
          { content := s.content, pos := pre.length + 8, failed := false } fmt.toBytes
          ((s.content.drop (pre.length + 8)).take 40) 40 rfl rfl hwlen
        have hdrop : fmt.toBytes.drop 40 = [] :=
          List.drop_eq_nil_of_le (by rw [FmtChunk.length_toBytes_fmtChunk])
        simp only [if_pos hfmt, WavAudioFileInput.handle_format_chunk, sizeofFmtChunk, hread,
          hdrop, List.append_nil]
        obtain ⟨st, h1, h2, h3, h4, h5, h6⟩ := ih (pre ++ c.encode)
          { m_scratchMemory := scr,
            m_formatChunk := FmtChunk.ofBytes ((s.content.drop (pre.length + 8)).take 40),
            m_samples := smp,
            m_audioFile := { content := s.content, pos := pre.length + 8 + 40, failed := false },
            m_dataStart := ds, m_dataSize := dz, m_readPosition := rp }
          { m_id := c.id, m_size := c.payload.length } k hid2 hfr.2 hlen2 hc2 rfl
        rw [hP] at h1 h3
        refine ⟨st, h1, h2, ?_, h4, h5, h6⟩
        rw [h3]
        simp only [walkSpec, if_pos hfmt]
      · by_cases hdata : c.id = kData
        · simp only [if_neg hfmt, if_pos hdata, WavAudioFileInput.handle_data_chunk]
          obtain ⟨st, h1, h2, h3, h4, h5, h6⟩ := ih (pre ++ c.encode)
            { m_scratchMemory := scr, m_formatChunk := fmt, m_samples := smp,
              m_audioFile := { content := s.content, pos := pre.length + 8, failed := false },
              m_dataStart := pre.length + 8, m_dataSize := c.payload.length,
              m_readPosition := rp }
            { m_id := c.id, m_size := c.payload.length } k hid2 hfr.2 hlen2 hc2 rfl
          rw [hP] at h1 h3
          refine ⟨st, h1, h2, ?_, h4, h5, h6⟩
          rw [h3]
          simp only [walkSpec, if_neg hfmt, if_pos hdata]
        · simp only [if_neg hfmt, if_neg hdata]
          obtain ⟨st, h1, h2, h3, h4, h5, h6⟩ := ih (pre ++ c.encode)
            { m_scratchMemory := scr, m_formatChunk := fmt, m_samples := smp,
              m_audioFile := { content := s.content, pos := pre.length + 8, failed := false },
              m_dataStart := ds, m_dataSize := dz, m_readPosition := rp }
            { m_id := c.id, m_size := c.payload.length } k hid2 hfr.2 hlen2 hc2 rfl
          rw [hP] at h1 h3
          refine ⟨st, h1, h2, ?_, h4, h5, h6⟩
          rw [h3]
          simp only [walkSpec, if_neg hfmt, if_neg hdata]

theorem kRiff_lt : kRiff < 2 ^ 32 := by decide

theorem kWave_lt : kWave < 2 ^ 32 := by decide

theorem WaveChunk.ofBytes_waveChunk_header (a : Nat) (rest : List Nat) :
    WaveChunk.ofBytes (leBytes 4 a ++ rest) = { m_id := a % 2 ^ 32 } := by
  simp only [WaveChunk.ofBytes, List.take_left' (length_leBytes 4 a), leValue_leBytes]
  norm_num

/-- On a RIFF/WAVE file made of complete chunks followed by fewer than 8 bytes, in which
40 bytes can be read after every `fmt ` header, `open` ends within one loop iteration
per chunk: by a division by zero when the recorded format has fewer than 8 bits per
sample, and otherwise with the reader that `walkSpec` describes, positioned at the
recorded data start with a zero read cursor. -/
theorem open_wavFile (riffSize : Nat) (cs : List Chunk) (trailing : List Nat)
    (self : WavAudioFileInput) (locals : Locals) (k : Nat)
    (htr : trailing.length < 8) (hid : ∀ c ∈ cs, c.id < 2 ^ 32)
    (hfr : fmtReadable cs trailing) (hlen : (wavFile riffSize cs trailing).length < 2 ^ 32) :
    WavAudioFileInput.open (cs.length + k) self (some (wavFile riffSize cs trailing)) locals
      = if (walkSpec (wavFile riffSize cs trailing) cs 12
              (self.m_formatChunk, self.m_dataStart, self.m_dataSize)).1.m_bitsPerSample / 8 = 0
        then Outcome.undefined
        else Outcome.ok
          { m_scratchMemory := self.m_scratchMemory
            m_formatChunk := (walkSpec (wavFile riffSize cs trailing) cs 12
              (self.m_formatChunk, self.m_dataStart, self.m_dataSize)).1
            m_samples := (walkSpec (wavFile riffSize cs trailing) cs 12
                (self.m_formatChunk, self.m_dataStart, self.m_dataSize)).2.2
              / ((walkSpec (wavFile riffSize cs trailing) cs 12
                (self.m_formatChunk, self.m_dataStart, self.m_dataSize)).1.m_bitsPerSample / 8)
            m_audioFile :=
              { content := wavFile riffSize cs trailing
                pos := (walkSpec (wavFile riffSize cs trailing) cs 12
                  (self.m_formatChunk, self.m_dataStart, self.m_dataSize)).2.1
                failed := false }
            m_dataStart := (walkSpec (wavFile riffSize cs trailing) cs 12
              (self.m_formatChunk, self.m_dataStart, self.m_dataSize)).2.1
            m_dataSize := (walkSpec (wavFile riffSize cs trailing) cs 12
              (self.m_formatChunk, self.m_dataStart, self.m_dataSize)).2.2
            m_readPosition := 0 } := by
  obtain ⟨scr, fmt, smp, s, ds, dz, rp⟩ := self
  generalize hfile : wavFile riffSize cs trailing = file at hlen ⊢
  have hfile' : file = (leBytes 4 kRiff ++ leBytes 4 riffSize ++ leBytes 4 kWave)
      ++ (encodeChunks cs ++ trailing) := by
    rw [← hfile, wavFile]; simp only [List.append_assoc]
  have hplen : (leBytes 4 kRiff ++ leBytes 4 riffSize ++ leBytes 4 kWave).length = 12 := by
    simp [length_leBytes]
  -- the RIFF header
  have hr1 := IfStream.read_full { content := file, pos := 0, failed := false }
    locals.riffChunk.toBytes (leBytes 4 kRiff ++ leBytes 4 riffSize) 8 rfl
    (by
      show List.take 8 (List.drop 0 file) = _
      rw [hfile', List.drop_zero, List.append_assoc, List.append_assoc]
      rw [← List.append_assoc (leBytes 4 kRiff)]
      exact List.take_left' (by simp [length_leBytes]))
    (by simp [length_leBytes])
  -- the WAVE tag
  have hr2 := IfStream.read_full { content := file, pos := 0 + 8, failed := false }
    locals.waveChunk.toBytes (leBytes 4 kWave) 4 rfl
    (by
      show List.take 4 (List.drop (0 + 8) file) = _
      rw [hfile', List.append_assoc, List.append_assoc]
      rw [← List.append_assoc (leBytes 4 kRiff)]
      rw [List.drop_left' (by simp [length_leBytes])]
      exact List.take_left' (length_leBytes 4 kWave))
    (length_leBytes 4 kWave)
  obtain ⟨st, h1, h2, h3, h4, h5, h6⟩ := walk_chunks_spec trailing htr cs
    (leBytes 4 kRiff ++ leBytes 4 riffSize ++ leBytes 4 kWave)
    { m_scratchMemory := scr, m_formatChunk := fmt, m_samples := smp,
      m_audioFile := { content := file, pos := 0 + 8 + 4, failed := false },
      m_dataStart := ds, m_dataSize := dz, m_readPosition := rp }
    locals.chunkInfo k hid hfr (by rw [← hfile']; exact hlen) hfile' rfl
  rw [hplen] at h1 h3
  have hseek : IfStream.seekg { content := file, pos := 0 + 8 + 4, failed := false } 12
      = { content := file, pos := 0 + 8 + 4, failed := false } := rfl
  simp only [hseek] at h1
  simp only [WavAudioFileInput.open, IfStream.openFile, IfStream.good, Bool.not_false, if_true,
    sizeofChunkInfo, sizeofWaveChunk, hr1, hr2, ChunkInfo.ofBytes_chunkInfo_header,
    WaveChunk.ofBytes_waveChunk_header, Nat.mod_eq_of_lt kRiff_lt, Nat.mod_eq_of_lt kWave_lt,
    ne_eq, not_true_eq_false, if_false]
  rw [show sizeofChunkInfo = 8 from rfl] at h1
  rw [h1]
  obtain ⟨⟨scr', fmt', smp', s', ds', dz', rp'⟩, ci', off'⟩ := st
  simp only at h2 h3 h4 h5 h6
  have h3a := congrArg Prod.fst h3
  have h3b := congrArg (fun t => t.2.1) h3
  have h3c := congrArg (fun t => t.2.2) h3
  simp only at h3a h3b h3c
  subst h4; subst h5; subst h6
  simp only [IfStream.clear, IfStream.seekg, Bool.false_eq_true, if_false, h2, ← h3a, ← h3b,
    ← h3c]


/-! ## What the chunk loop records -/

theorem length_encodeChunks_append (a b : List Chunk) :
    (encodeChunks (a ++ b)).length = (encodeChunks a).length + (encodeChunks b).length := by
  induction a with
  | nil => simp [encodeChunks]
  | cons c a ih =>
      rw [List.cons_append, length_encodeChunks_cons, length_encodeChunks_cons, ih]
      omega

theorem encodeChunks_append (a b : List Chunk) :
    encodeChunks (a ++ b) = encodeChunks a ++ encodeChunks b := by
  induction a with
  | nil => simp [encodeChunks]
  | cons c a ih =>
      rw [List.cons_append]
      simp only [encodeChunks]
      rw [ih, List.append_assoc]

theorem walkSpec_append (file : List Nat) (a b : List Chunk) (off : Nat)
    (t : FmtChunk × Nat × Nat) :
    walkSpec file (a ++ b) off t
      = walkSpec file b (off + (encodeChunks a).length) (walkSpec file a off t) := by
  induction a generalizing off t with
  | nil => simp [walkSpec, encodeChunks]
  | cons c a ih =>
      rw [List.cons_append]
      simp only [walkSpec]
      rw [ih, length_encodeChunks_cons]
      congr 1
      omega

theorem walkSpec_cons (file : List Nat) (c : Chunk) (cs : List Chunk) (off : Nat)
    (t : FmtChunk × Nat × Nat) :
    walkSpec file (c :: cs) off t
      = walkSpec file cs (off + 8 + c.payload.length)
        (if c.id = kFmt then (FmtChunk.ofBytes ((file.drop (off + 8)).take 40), t.2.1, t.2.2)
         else if c.id = kData then (t.1, off + 8, c.payload.length)
         else t) := rfl

theorem walkSpec_no_data (file : List Nat) (cs : List Chunk) (off : Nat)
    (t : FmtChunk × Nat × Nat) (h : ∀ c ∈ cs, c.id ≠ kData) :
    (walkSpec file cs off t).2 = t.2 := by
  induction cs generalizing off t with
  | nil => rfl
  | cons c cs ih =>
      have hc := h c (List.mem_cons_self _ _)
      rw [walkSpec_cons, ih _ _ (fun c' hc' => h c' (List.mem_cons_of_mem _ hc')), if_neg hc]
      by_cases hf : c.id = kFmt
      · rw [if_pos hf]
      · rw [if_neg hf]

theorem walkSpec_no_fmt (file : List Nat) (cs : List Chunk) (off : Nat)
    (t : FmtChunk × Nat × Nat) (h : ∀ c ∈ cs, c.id ≠ kFmt) :
    (walkSpec file cs off t).1 = t.1 := by
  induction cs generalizing off t with
  | nil => rfl
  | cons c cs ih =>
      have hc := h c (List.mem_cons_self _ _)
      rw [walkSpec_cons, ih _ _ (fun c' hc' => h c' (List.mem_cons_of_mem _ hc')), if_neg hc]
      by_cases hf : c.id = kData
      · rw [if_pos hf]
      · rw [if_neg hf]

theorem kFmt_ne_kData : kFmt ≠ kData := by decide

/-- The loop records the last `data` chunk: its payload offset and declared size. -/
theorem walkSpec_last_data (file : List Nat) (p q : List Chunk) (dp : List Nat) (off : Nat)
    (t : FmtChunk × Nat × Nat) (h : ∀ c ∈ q, c.id ≠ kData) :
    (walkSpec file (p ++ { id := kData, payload := dp } :: q) off t).2
      = (off + (encodeChunks p).length + 8, dp.length) := by
  rw [walkSpec_append, walkSpec_cons, walkSpec_no_data _ _ _ _ h]
  have h1 : (Chunk.mk kData dp).id = kData := rfl
  rw [h1, if_neg (Ne.symm kFmt_ne_kData), if_pos rfl]

/-- The loop records the format read after the header of the last `fmt ` chunk. -/
theorem walkSpec_last_fmt (file : List Nat) (p q : List Chunk) (fp : List Nat) (off : Nat)
    (t : FmtChunk × Nat × Nat) (h : ∀ c ∈ q, c.id ≠ kFmt) :
    (walkSpec file (p ++ { id := kFmt, payload := fp } :: q) off t).1
      = FmtChunk.ofBytes ((file.drop (off + (encodeChunks p).length + 8)).take 40) := by
  rw [walkSpec_append, walkSpec_cons, walkSpec_no_fmt _ _ _ _ h]
  have h1 : (Chunk.mk kFmt fp).id = kFmt := rfl
  rw [h1, if_pos rfl]

/-- A field of a struct read from a window of the file lies in the chunk payload that the
window starts with, when the payload is long enough. -/
theorem slice_window (pre fp rest : List Nat) (o l : Nat) (h1 : o + l ≤ fp.length)
    (h2 : o + l ≤ 40) :
    ((((pre ++ (fp ++ rest)).drop pre.length).take 40).drop o).take l = (fp.drop o).take l := by
  rw [List.drop_left]
  apply List.ext_getElem?
  intro i
  simp only [List.getElem?_take, List.getElem?_drop]
  by_cases hi : i < l
  · rw [if_pos hi, if_pos hi, if_pos (by omega), List.getElem?_append_left (by omega)]
  · rw [if_neg hi, if_neg hi]

theorem wavFile_split (riffSize : Nat) (p q : List Chunk) (c : Chunk) (trailing : List Nat) :
    wavFile riffSize (p ++ c :: q) trailing
      = (leBytes 4 kRiff ++ leBytes 4 riffSize ++ leBytes 4 kWave ++ encodeChunks p
          ++ (leBytes 4 c.id ++ leBytes 4 c.payload.length))
        ++ (c.payload ++ (encodeChunks q ++ trailing)) := by
  rw [wavFile, encodeChunks_append]
  show _ ++ (encodeChunks p ++ (c.encode ++ encodeChunks q)) ++ trailing = _
  rw [Chunk.encode]
  simp only [List.append_assoc]

theorem length_wavFile_prefix (riffSize : Nat) (p : List Chunk) (a b : Nat) :
    (leBytes 4 kRiff ++ leBytes 4 riffSize ++ leBytes 4 kWave ++ encodeChunks p
      ++ (leBytes 4 a ++ leBytes 4 b)).length = 12 + (encodeChunks p).length + 8 := by
  simp only [List.length_append, length_leBytes]

theorem length_wavFile (riffSize : Nat) (cs : List Chunk) (trailing : List Nat) :
    (wavFile riffSize cs trailing).length = 12 + (encodeChunks cs).length + trailing.length := by
  simp only [wavFile, List.length_append, length_leBytes]

/-- The bits-per-sample field of the format that `open` records from the last `fmt `
chunk, when that chunk's payload has at least 16 bytes. -/
theorem walkSpec_bitsPerSample (riffSize : Nat) (p' q' : List Chunk) (fp trailing : List Nat)
    (t : FmtChunk × Nat × Nat) (hq' : ∀ c ∈ q', c.id ≠ kFmt) (hfp : 16 ≤ fp.length) :
    (walkSpec (wavFile riffSize (p' ++ { id := kFmt, payload := fp } :: q') trailing)
        (p' ++ { id := kFmt, payload := fp } :: q') 12 t).1.m_bitsPerSample
      = leValue ((fp.drop 14).take 2) := by
  rw [walkSpec_last_fmt _ _ _ _ _ _ hq', wavFile_split, ← length_wavFile_prefix riffSize p' kFmt
    fp.length]
  exact congrArg leValue (slice_window _ fp _ 14 2 (by omega) (by omega))

/-- Where the 40-byte format read succeeds, `open` records the data chunk. For every file
with matching RIFF/WAVE identifiers that consists of
complete chunks followed by fewer than 8 bytes, is shorter than `2^32` bytes and contains
a `data` chunk and an `fmt ` chunk (in either order; the last of each counts) such that at
least 40 bytes of file follow every `fmt ` header and the last `fmt ` payload has at least
16 bytes with a bits-per-sample field of at least 8: `open` returns, within one loop
iteration per chunk, a reader whose data start is the offset of the first byte after the
data chunk's 8-byte header, whose data size is that header's size field, whose sample
count is `dataSize / (bitsPerSample / 8)`, whose read cursor is 0, whose
`samples_remaining()` is the sample count, and whose stream is positioned at the data. -/
theorem open_records_data_chunk_of_readable_fmt (riffSize : Nat) (p q p' q' : List Chunk)
    (dp fp trailing : List Nat) (self : WavAudioFileInput) (locals : Locals) (k : Nat)
    (hcs : p ++ { id := kData, payload := dp } :: q = p' ++ { id := kFmt, payload := fp } :: q')
    (hq : ∀ c ∈ q, c.id ≠ kData) (hq' : ∀ c ∈ q', c.id ≠ kFmt)
    (hid : ∀ c ∈ p ++ { id := kData, payload := dp } :: q, c.id < 2 ^ 32)
    (hfr : fmtReadable (p ++ { id := kData, payload := dp } :: q) trailing)
    (htr : trailing.length < 8)
    (hlen : (wavFile riffSize (p ++ { id := kData, payload := dp } :: q) trailing).length
      < 2 ^ 32)
    (hfp : 16 ≤ fp.length) (hbits : 8 ≤ leValue ((fp.drop 14).take 2)) :
    ∃ r, WavAudioFileInput.open ((p ++ { id := kData, payload := dp } :: q).length + k) self
        (some (wavFile riffSize (p ++ { id := kData, payload := dp } :: q) trailing)) locals
        = Outcome.ok r ∧
      r.m_dataStart = 12 + (encodeChunks p).length + 8 ∧
      ((wavFile riffSize (p ++ { id := kData, payload := dp } :: q) trailing).drop
        r.m_dataStart).take dp.length = dp ∧
      r.m_dataSize = dp.length ∧
      r.m_formatChunk.m_bitsPerSample = leValue ((fp.drop 14).take 2) ∧
      r.m_samples = r.m_dataSize / (r.m_formatChunk.m_bitsPerSample / 8) ∧
      r.m_readPosition = 0 ∧
      r.samples_remaining = r.m_samples ∧
      r.m_audioFile.pos = r.m_dataStart ∧ r.m_audioFile.failed = false := by
  have hopen := open_wavFile riffSize _ trailing self locals k htr hid hfr hlen
  have hdata := walkSpec_last_data
    (wavFile riffSize (p ++ { id := kData, payload := dp } :: q) trailing) p q dp 12
    (self.m_formatChunk, self.m_dataStart, self.m_dataSize) hq
  have hb : (walkSpec (wavFile riffSize (p ++ { id := kData, payload := dp } :: q) trailing)
      (p ++ { id := kData, payload := dp } :: q) 12
      (self.m_formatChunk, self.m_dataStart, self.m_dataSize)).1.m_bitsPerSample
      = leValue ((fp.drop 14).take 2) := by
    rw [hcs]
    exact walkSpec_bitsPerSample riffSize p' q' fp trailing _ hq' hfp
  have hd1 := congrArg Prod.fst hdata
  have hd2 := congrArg Prod.snd hdata
  have hne : ¬ (leValue ((fp.drop 14).take 2) / 8 = 0) := by
    intro h
    have := (Nat.div_eq_zero_iff (by norm_num : 0 < 8)).1 h
    omega
  rw [hb, if_neg hne] at hopen
  refine ⟨_, hopen, hd1, ?_, hd2, hb, ?_, rfl, ?_, hd1.symm ▸ rfl, rfl⟩
  · show List.take dp.length (List.drop (walkSpec _ _ 12 _).2.1 _) = dp
    rw [hd1, wavFile_split, ← length_wavFile_prefix riffSize p kData dp.length, List.drop_left,
      List.take_left]
  · show (walkSpec _ _ 12 _).2.2 / _
      = (walkSpec _ _ 12 _).2.2 / ((walkSpec _ _ 12 _).1.m_bitsPerSample / 8)
    rw [hb]
  · have hdl : dp.length < 2 ^ 32 := by
      rw [length_wavFile, length_encodeChunks_append, length_encodeChunks_cons] at hlen
      dsimp only at hlen
      omega
    have key : ∀ m : Nat, m < 2 ^ 32 → (m + 2 ^ 32 - 0 % 2 ^ 32) % 2 ^ 32 = m := by
      intro m hm; omega
    apply key
    show (walkSpec _ _ 12 _).2.2 / _ < 2 ^ 32
    rw [show (walkSpec (wavFile riffSize (p ++ { id := kData, payload := dp } :: q) trailing)
      (p ++ { id := kData, payload := dp } :: q) 12
      (self.m_formatChunk, self.m_dataStart, self.m_dataSize)).2.2 = dp.length from hd2]
    exact lt_of_le_of_lt (Nat.div_le_self _ _) hdl

/-- C10: a canonical WAV file (16-byte `fmt ` payload) with a 4-byte `data` chunk has
matching identifiers, an `fmt ` chunk and a `data` chunk, but the unchecked 40-byte read
of `handle_format_chunk` runs past the end of the file, the loop ends before the `data`
header is dispatched, and `open` returns normally without the data start (44), the data
size (4) and the sample count (2): it seeks to and divides the `m_dataStart` and
`m_dataSize` the reader had before, which nothing has set (indeterminate values 0 and 0
in the first evaluation, 77 and 123 in the second). -/
theorem C10_short_file_data_chunk_not_recorded :
    (canonicalWav [1, 2, 3, 4]).length = 48 ∧
    WavAudioFileInput.open 8 (WavAudioFileInput.constructed 0 0 0)
        (some (canonicalWav [1, 2, 3, 4])) zeroLocals
      = Outcome.ok
          { m_scratchMemory := []
            m_formatChunk :=
              { m_formatTag := 1, m_channels := 2, m_samplesPerSec := 48000,
                m_avgBytesPerSec := 192000, m_blockAlign := 4, m_bitsPerSample := 16,
                m_cbSize := 24932, m_validBitsPerSample := 24948, m_channelMask := 4,
                m_subFormatGuid := [1, 2, 3, 4, 0, 0, 0, 0, 0, 0, 0, 0, 0, 0, 0, 0] }
            m_samples := 0
            m_audioFile := { content := canonicalWav [1, 2, 3, 4], pos := 0, failed := false }
            m_dataStart := 0
            m_dataSize := 0
            m_readPosition := 0 } ∧
    WavAudioFileInput.open 8 (WavAudioFileInput.constructed 77 123 0)
        (some (canonicalWav [1, 2, 3, 4])) zeroLocals
      = Outcome.ok
          { m_scratchMemory := []
            m_formatChunk :=
              { m_formatTag := 1, m_channels := 2, m_samplesPerSec := 48000,
                m_avgBytesPerSec := 192000, m_blockAlign := 4, m_bitsPerSample := 16,
                m_cbSize := 24932, m_validBitsPerSample := 24948, m_channelMask := 4,
                m_subFormatGuid := [1, 2, 3, 4, 0, 0, 0, 0, 0, 0, 0, 0, 0, 0, 0, 0] }
            m_samples := 61
            m_audioFile := { content := canonicalWav [1, 2, 3, 4], pos := 77, failed := false }
            m_dataStart := 77
            m_dataSize := 123
            m_readPosition := 0 } := by
  refine ⟨?_, ?_, ?_⟩ <;> decide

theorem open_records_data_chunk_of_readable_fmt_example :
    ([Chunk.mk kFmt pcmFmtPayload] ++ Chunk.mk kData (List.range 16) :: []
        = [] ++ Chunk.mk kFmt pcmFmtPayload
          :: [Chunk.mk kData (List.range 16)]) ∧
    (∀ c ∈ ([] : List Chunk), c.id ≠ kData) ∧
    (∀ c ∈ [Chunk.mk kData (List.range 16)], c.id ≠ kFmt) ∧
    (∀ c ∈ [Chunk.mk kFmt pcmFmtPayload]
        ++ Chunk.mk kData (List.range 16) :: [], c.id < 2 ^ 32) ∧
    fmtReadable ([Chunk.mk kFmt pcmFmtPayload]
        ++ Chunk.mk kData (List.range 16) :: []) [] ∧
    ([] : List Nat).length < 8 ∧
    (wavFile 52 ([Chunk.mk kFmt pcmFmtPayload]
        ++ Chunk.mk kData (List.range 16) :: []) []).length < 2 ^ 32 ∧
    16 ≤ pcmFmtPayload.length ∧ 8 ≤ leValue ((pcmFmtPayload.drop 14).take 2) ∧
    ∃ r, WavAudioFileInput.open (([Chunk.mk kFmt pcmFmtPayload]
          ++ Chunk.mk kData (List.range 16) :: []).length + 0)
        (WavAudioFileInput.constructed 7 8 9)
        (some (wavFile 52 ([Chunk.mk kFmt pcmFmtPayload]
          ++ Chunk.mk kData (List.range 16) :: []) [])) zeroLocals
        = Outcome.ok r ∧
      r.m_dataStart = 12 + (encodeChunks [Chunk.mk kFmt pcmFmtPayload]).length + 8 ∧
      ((wavFile 52 ([Chunk.mk kFmt pcmFmtPayload]
          ++ Chunk.mk kData (List.range 16) :: []) []).drop
        r.m_dataStart).take (List.range 16).length = List.range 16 ∧
      r.m_dataSize = (List.range 16).length ∧
      r.m_formatChunk.m_bitsPerSample = leValue ((pcmFmtPayload.drop 14).take 2) ∧
      r.m_samples = r.m_dataSize / (r.m_formatChunk.m_bitsPerSample / 8) ∧
      r.m_readPosition = 0 ∧
      r.samples_remaining = r.m_samples ∧
      r.m_audioFile.pos = r.m_dataStart ∧ r.m_audioFile.failed = false :=
  ⟨by decide, by decide, by decide, by decide, by decide, by decide, by decide, by decide,
    by decide,
    open_records_data_chunk_of_readable_fmt 52 [Chunk.mk kFmt pcmFmtPayload] [] []
      [Chunk.mk kData (List.range 16)] (List.range 16) pcmFmtPayload []
      (WavAudioFileInput.constructed 7 8 9) zeroLocals 0
      (by decide) (by decide) (by decide) (by decide) (by decide) (by decide) (by decide)
      (by decide) (by decide)⟩

/-- `open` on a stream that cannot be opened throws "Bad audio file" and leaves every
member but the stream as it was. -/
theorem open_cannot_open (fuel : Nat) (self : WavAudioFileInput) (locals : Locals) :
    WavAudioFileInput.open fuel self none locals
      = Outcome.thrown "Bad audio file"
          { self with m_audioFile := { content := [], pos := 0, failed := true } } := rfl

/-- C9: on an empty file `open` compares identifiers that no read has filled. With the
locals' indeterminate bytes spelling `RIFF` and `WAVE` both checks pass and `open` goes on
to divide by `bitsPerSample / 8 = 0`; with zero bytes it throws the RIFF error. -/
theorem C9_open_empty_file_compares_indeterminate_bytes :
    WavAudioFileInput.open 1 (WavAudioFileInput.constructed 0 0 0) (some [])
        { riffChunk := { m_id := kRiff, m_size := 0 }, waveChunk := { m_id := kWave },
          chunkInfo := { m_id := 0, m_size := 0 } }
      = Outcome.undefined ∧
    WavAudioFileInput.open 1 (WavAudioFileInput.constructed 0 0 0) (some []) zeroLocals
      = Outcome.thrown "Could not find RIFF chunk."
          { WavAudioFileInput.constructed 0 0 0 with
            m_audioFile := { content := [], pos := 0, failed := true } } := by
  constructor <;> decide

theorem take_take_append (file rest : List Nat) (a b : Nat) (hab : a ≤ b)
    (hb : b ≤ file.length) : (file.take b ++ rest).take a = file.take a := by
  rw [List.take_append_of_le_length (by rw [List.length_take]; omega), List.take_take,
    Nat.min_eq_left hab]

/-- On a file of at least 12 bytes `open` throws the RIFF error exactly when the first
four bytes, read as a 32-bit little-endian value, differ from `kRiff`, the WAVE error
exactly when they match and bytes 8..11 differ from `kWave`, and no exception when both
match; at either throw only the stream member has changed. -/
theorem open_chunk_errors (fuel : Nat) (self : WavAudioFileInput) (file : List Nat)
    (locals : Locals) (h12 : 12 ≤ file.length) :
    (leValue (file.take 4) ≠ kRiff →
      WavAudioFileInput.open fuel self (some file) locals
        = Outcome.thrown "Could not find RIFF chunk."
            { self with m_audioFile := { content := file, pos := 8, failed := false } }) ∧
    (leValue (file.take 4) = kRiff → leValue ((file.drop 8).take 4) ≠ kWave →
      WavAudioFileInput.open fuel self (some file) locals
        = Outcome.thrown "Could not find WAVE chunk."
            { self with m_audioFile := { content := file, pos := 12, failed := false } }) ∧
    (leValue (file.take 4) = kRiff → leValue ((file.drop 8).take 4) = kWave →
      ∀ what r, WavAudioFileInput.open fuel self (some file) locals ≠ Outcome.thrown what r) := by
  have hr1 := IfStream.read_full { content := file, pos := 0, failed := false }
    locals.riffChunk.toBytes (file.take 8) 8 rfl rfl (by rw [List.length_take]; omega)
  have hr2 := IfStream.read_full { content := file, pos := 0 + 8, failed := false }
    locals.waveChunk.toBytes ((file.drop 8).take 4) 4 rfl rfl
    (by rw [List.length_take, List.length_drop]; omega)
  have hid1 : (ChunkInfo.ofBytes (file.take 8 ++ locals.riffChunk.toBytes.drop 8)).m_id
      = leValue (file.take 4) := by
    show leValue ((file.take 8 ++ _).take 4) = _
    rw [take_take_append file _ 4 8 (by omega) (by omega)]
  have hid2 : (WaveChunk.ofBytes ((file.drop 8).take 4 ++ locals.waveChunk.toBytes.drop 4)).m_id
      = leValue ((file.drop 8).take 4) := by
    show leValue (((file.drop 8).take 4 ++ _).take 4) = _
    rw [take_take_append (file.drop 8) _ 4 4 (by omega) (by rw [List.length_drop]; omega)]
  refine ⟨?_, ?_, ?_⟩
  · intro h
    simp only [WavAudioFileInput.open, IfStream.openFile, IfStream.good, Bool.not_false,
      if_true, sizeofChunkInfo, hr1, hid1, ne_eq, h, not_false_eq_true]
  · intro h1 h2
    simp only [WavAudioFileInput.open, IfStream.openFile, IfStream.good, Bool.not_false,
      if_true, sizeofChunkInfo, sizeofWaveChunk, hr1, hr2, hid1, hid2, ne_eq, h1, h2,
      not_true_eq_false, if_false, not_false_eq_true]
  · intro h1 h2 what r
    simp only [WavAudioFileInput.open, IfStream.openFile, IfStream.good, Bool.not_false,
      if_true, sizeofChunkInfo, sizeofWaveChunk, hr1, hr2, hid1, hid2, ne_eq, h1, h2,
      not_true_eq_false, if_false]
    split
    · exact fun h => Outcome.noConfusion h
    · split
      · exact fun h => Outcome.noConfusion h
      · exact fun h => Outcome.noConfusion h

theorem kFmt_lt : kFmt < 2 ^ 32 := by decide

theorem kData_lt : kData < 2 ^ 32 := by decide

/-- The six leading fields of the format read from a 40-byte window depend only on the
`fmt ` payload the window starts with, when the payload has at least 16 bytes. -/
theorem fmt_window_fields (pre fp rest : List Nat) (hfp : 16 ≤ fp.length) :
    (FmtChunk.ofBytes (((pre ++ (fp ++ rest)).drop pre.length).take 40)).m_formatTag
      = leValue ((fp.drop 0).take 2) ∧
    (FmtChunk.ofBytes (((pre ++ (fp ++ rest)).drop pre.length).take 40)).m_channels
      = leValue ((fp.drop 2).take 2) ∧
    (FmtChunk.ofBytes (((pre ++ (fp ++ rest)).drop pre.length).take 40)).m_samplesPerSec
      = leValue ((fp.drop 4).take 4) ∧
    (FmtChunk.ofBytes (((pre ++ (fp ++ rest)).drop pre.length).take 40)).m_avgBytesPerSec
      = leValue ((fp.drop 8).take 4) ∧
    (FmtChunk.ofBytes (((pre ++ (fp ++ rest)).drop pre.length).take 40)).m_blockAlign
      = leValue ((fp.drop 12).take 2) ∧
    (FmtChunk.ofBytes (((pre ++ (fp ++ rest)).drop pre.length).take 40)).m_bitsPerSample
      = leValue ((fp.drop 14).take 2) :=
  ⟨congrArg leValue (slice_window pre fp rest 0 2 (by omega) (by omega)),
   congrArg leValue (slice_window pre fp rest 2 2 (by omega) (by omega)),
   congrArg leValue (slice_window pre fp rest 4 4 (by omega) (by omega)),
   congrArg leValue (slice_window pre fp rest 8 4 (by omega) (by omega)),
   congrArg leValue (slice_window pre fp rest 12 2 (by omega) (by omega)),
   congrArg leValue (slice_window pre fp rest 14 2 (by omega) (by omega))⟩

/-- A 40-byte window that starts with a payload of at least 40 bytes is the payload's
first 40 bytes. -/
theorem fmt_window_full (pre fp rest : List Nat) (hfp : 40 ≤ fp.length) :
    ((pre ++ (fp ++ rest)).drop pre.length).take 40 = fp.take 40 := by
  rw [List.drop_left, List.take_append_of_le_length hfp]

theorem fmtReadable_of_no_fmt (cs : List Chunk) (trailing : List Nat)
    (h : ∀ c ∈ cs, c.id ≠ kFmt) : fmtReadable cs trailing := by
  induction cs with
  | nil => trivial
  | cons c cs ih =>
      exact ⟨fun hc => absurd hc (h c (List.mem_cons_self _ _)),
        ih (fun c' hc' => h c' (List.mem_cons_of_mem _ hc'))⟩

/-- What `open` returns on a file of complete chunks with a last `data` chunk and a last
`fmt ` chunk of at least 16 payload bytes and at least 8 bits per sample: the format read
from the 40 bytes after the `fmt ` header, the data offset and size, and the sample
count. -/
theorem open_records (riffSize : Nat) (p q p' q' : List Chunk)
    (dp fp trailing : List Nat) (self : WavAudioFileInput) (locals : Locals) (k : Nat)
    (hcs : p ++ { id := kData, payload := dp } :: q = p' ++ { id := kFmt, payload := fp } :: q')
    (hq : ∀ c ∈ q, c.id ≠ kData) (hq' : ∀ c ∈ q', c.id ≠ kFmt)
    (hid : ∀ c ∈ p ++ { id := kData, payload := dp } :: q, c.id < 2 ^ 32)
    (hfr : fmtReadable (p ++ { id := kData, payload := dp } :: q) trailing)
    (htr : trailing.length < 8)
    (hlen : (wavFile riffSize (p ++ { id := kData, payload := dp } :: q) trailing).length
      < 2 ^ 32)
    (hfp : 16 ≤ fp.length) (hbits : 8 ≤ leValue ((fp.drop 14).take 2)) :
    ∃ r, WavAudioFileInput.open ((p ++ { id := kData, payload := dp } :: q).length + k) self
        (some (wavFile riffSize (p ++ { id := kData, payload := dp } :: q) trailing)) locals
        = Outcome.ok r ∧
      r.m_formatChunk = FmtChunk.ofBytes
        (((wavFile riffSize (p ++ { id := kData, payload := dp } :: q) trailing).drop
          (12 + (encodeChunks p').length + 8)).take 40) ∧
      r.m_dataStart = 12 + (encodeChunks p).length + 8 ∧
      r.m_dataSize = dp.length ∧
      r.m_samples = dp.length / (leValue ((fp.drop 14).take 2) / 8) := by
  have hopen := open_wavFile riffSize _ trailing self locals k htr hid hfr hlen
  have hdata := walkSpec_last_data
    (wavFile riffSize (p ++ { id := kData, payload := dp } :: q) trailing) p q dp 12
    (self.m_formatChunk, self.m_dataStart, self.m_dataSize) hq
  have hb : (walkSpec (wavFile riffSize (p ++ { id := kData, payload := dp } :: q) trailing)
      (p ++ { id := kData, payload := dp } :: q) 12
      (self.m_formatChunk, self.m_dataStart, self.m_dataSize)).1.m_bitsPerSample
      = leValue ((fp.drop 14).take 2) := by
    rw [hcs]
    exact walkSpec_bitsPerSample riffSize p' q' fp trailing _ hq' hfp
  have hf : (walkSpec (wavFile riffSize (p ++ { id := kData, payload := dp } :: q) trailing)
      (p ++ { id := kData, payload := dp } :: q) 12
      (self.m_formatChunk, self.m_dataStart, self.m_dataSize)).1
      = FmtChunk.ofBytes
        (((wavFile riffSize (p ++ { id := kData, payload := dp } :: q) trailing).drop
          (12 + (encodeChunks p').length + 8)).take 40) := by
    rw [hcs]
    exact walkSpec_last_fmt _ _ _ _ _ _ hq'
  have hd1 := congrArg Prod.fst hdata
  have hd2 := congrArg Prod.snd hdata
  have hne : ¬ (leValue ((fp.drop 14).take 2) / 8 = 0) := by
    intro h
    have := (Nat.div_eq_zero_iff (by norm_num : 0 < 8)).1 h
    omega
  rw [hb, if_neg hne] at hopen
  refine ⟨_, hopen, hf, hd1, hd2, ?_⟩
  show (walkSpec _ _ 12 _).2.2 / _ = _
  rw [show (walkSpec (wavFile riffSize (p ++ { id := kData, payload := dp } :: q) trailing)
      (p ++ { id := kData, payload := dp } :: q) 12
      (self.m_formatChunk, self.m_dataStart, self.m_dataSize)).2.2 = dp.length from hd2]

/-- C8, as stated, fails: inserting the unrecognized chunk `LIST` (4 payload bytes)
between the `fmt ` chunk and the `data` chunk of a canonical WAV file moves the recorded
data offset from 44 to 56 and changes the FormatDescriptor, whose fields beyond the
16-byte `fmt ` payload are read from the bytes that follow it in the file. -/
theorem C8_inserted_chunk_changes_format_and_offset :
    WavAudioFileInput.open 8 (WavAudioFileInput.constructed 0 0 0)
        (some (wavFile 52 [Chunk.mk kFmt pcmFmtPayload, Chunk.mk kData (List.range 16)] []))
        zeroLocals
      = Outcome.ok
          { m_scratchMemory := []
            m_formatChunk :=
              { m_formatTag := 1, m_channels := 2, m_samplesPerSec := 48000,
                m_avgBytesPerSec := 192000, m_blockAlign := 4, m_bitsPerSample := 16,
                m_cbSize := 24932, m_validBitsPerSample := 24948, m_channelMask := 16,
                m_subFormatGuid := List.range 16 }
            m_samples := 8
            m_audioFile :=
              { content := wavFile 52
                  [Chunk.mk kFmt pcmFmtPayload, Chunk.mk kData (List.range 16)] []
                pos := 44, failed := false }
            m_dataStart := 44
            m_dataSize := 16
            m_readPosition := 0 } ∧
    WavAudioFileInput.open 8 (WavAudioFileInput.constructed 0 0 0)
        (some (wavFile 64 [Chunk.mk kFmt pcmFmtPayload,
          Chunk.mk (make_riff_fourcc "LIST") [1, 2, 3, 4], Chunk.mk kData (List.range 16)] []))
        zeroLocals
      = Outcome.ok
          { m_scratchMemory := []
            m_formatChunk :=
              { m_formatTag := 1, m_channels := 2, m_samplesPerSec := 48000,
                m_avgBytesPerSec := 192000, m_blockAlign := 4, m_bitsPerSample := 16,
                m_cbSize := 18764, m_validBitsPerSample := 21587, m_channelMask := 4,
                m_subFormatGuid := [1, 2, 3, 4, 100, 97, 116, 97, 16, 0, 0, 0, 0, 1, 2, 3] }
            m_samples := 8
            m_audioFile :=
              { content := wavFile 64 [Chunk.mk kFmt pcmFmtPayload,
                  Chunk.mk (make_riff_fourcc "LIST") [1, 2, 3, 4],
                  Chunk.mk kData (List.range 16)] []
                pos := 56, failed := false }
            m_dataStart := 56
            m_dataSize := 16
            m_readPosition := 0 } := by
  constructor <;> decide

theorem length_encodeChunks_one (c : Chunk) :
    (encodeChunks [c]).length = 8 + c.payload.length := by
  rw [length_encodeChunks_cons]; rfl

theorem length_encodeChunks_two (c d : Chunk) :
    (encodeChunks [c, d]).length = 8 + c.payload.length + (8 + d.payload.length) := by
  rw [length_encodeChunks_cons, length_encodeChunks_one]

theorem length_encodeChunks_three (c d e : Chunk) :
    (encodeChunks [c, d, e]).length
      = 8 + c.payload.length + (8 + d.payload.length) + (8 + e.payload.length) := by
  rw [length_encodeChunks_cons, length_encodeChunks_two]; omega

theorem forall_mem_nil_chunk (P : Chunk → Prop) : ∀ c ∈ ([] : List Chunk), P c :=
  fun c hc => absurd hc (List.not_mem_nil c)

theorem forall_mem_one (P : Chunk → Prop) (a : Chunk) (ha : P a) : ∀ c ∈ [a], P c :=
  List.forall_mem_cons.2 ⟨ha, forall_mem_nil_chunk P⟩

theorem forall_mem_two (P : Chunk → Prop) (a b : Chunk) (ha : P a) (hb : P b) :
    ∀ c ∈ [a, b], P c :=
  List.forall_mem_cons.2 ⟨ha, forall_mem_one P b hb⟩

theorem forall_mem_three (P : Chunk → Prop) (a b d : Chunk) (ha : P a) (hb : P b) (hd : P d) :
    ∀ c ∈ [a, b, d], P c :=
  List.forall_mem_cons.2 ⟨ha, forall_mem_two P b d hb hd⟩

/-- C8, amended. Take a file made of the RIFF header, the WAVE tag, an `fmt ` chunk with
at least 16 payload bytes and at least 8 bits per sample, a `data` chunk and fewer than 8
trailing bytes, with at least 40 bytes after the `fmt ` header, and insert between the
`fmt ` chunk and the `data` chunk a chunk `x` whose identifier is not `fmt `, as every
unrecognized identifier is (the extended file being shorter than `2^32` bytes). `open` succeeds on both
files; on the extended file the data offset is larger by the 8 header bytes and the
declared size of `x` (the chunk is skipped), the data size and the sample count are the
same, the FormatDescriptor agrees in the six fields stored in the first 16 payload bytes
(format tag, channels, sample rate, average bytes per second, block align, bits per
sample), and it is the same FormatDescriptor when the `fmt ` payload has at least 40
bytes. -/
theorem C8_unrecognized_chunk_is_skipped (riffSize riffSizeX : Nat) (fp dp trailing : List Nat)
    (x : Chunk) (self : WavAudioFileInput) (locals localsX : Locals) (k : Nat)
    (hx1 : x.id ≠ kFmt) (hxid : x.id < 2 ^ 32)
    (htr : trailing.length < 8)
    (h40 : 40 ≤ fp.length + (8 + dp.length) + trailing.length)
    (hlen : (wavFile riffSizeX
      [Chunk.mk kFmt fp, x, Chunk.mk kData dp] trailing).length < 2 ^ 32)
    (hfp : 16 ≤ fp.length) (hbits : 8 ≤ leValue ((fp.drop 14).take 2)) :
    ∃ r rx,
      WavAudioFileInput.open (2 + k) self
        (some (wavFile riffSize [Chunk.mk kFmt fp, Chunk.mk kData dp] trailing)) locals
        = Outcome.ok r ∧
      WavAudioFileInput.open (3 + k) self
        (some (wavFile riffSizeX [Chunk.mk kFmt fp, x, Chunk.mk kData dp] trailing)) localsX
        = Outcome.ok rx ∧
      r.m_dataStart = 12 + (8 + fp.length) + 8 ∧
      rx.m_dataStart = r.m_dataStart + (8 + x.payload.length) ∧
      rx.m_dataSize = r.m_dataSize ∧ r.m_dataSize = dp.length ∧
      rx.m_samples = r.m_samples ∧
      rx.m_formatChunk.m_formatTag = r.m_formatChunk.m_formatTag ∧
      rx.m_formatChunk.m_channels = r.m_formatChunk.m_channels ∧
      rx.m_formatChunk.m_samplesPerSec = r.m_formatChunk.m_samplesPerSec ∧
      rx.m_formatChunk.m_avgBytesPerSec = r.m_formatChunk.m_avgBytesPerSec ∧
      rx.m_formatChunk.m_blockAlign = r.m_formatChunk.m_blockAlign ∧
      rx.m_formatChunk.m_bitsPerSample = r.m_formatChunk.m_bitsPerSample ∧
      (40 ≤ fp.length → rx.m_formatChunk = r.m_formatChunk) := by
  have hlx : (wavFile riffSizeX [Chunk.mk kFmt fp, x, Chunk.mk kData dp] trailing).length
      = 12 + (8 + fp.length + (8 + x.payload.length) + (8 + dp.length))
        + trailing.length := by
    rw [length_wavFile, length_encodeChunks_three]
  have hl : (wavFile riffSize [Chunk.mk kFmt fp, Chunk.mk kData dp] trailing).length
      = 12 + (8 + fp.length + (8 + dp.length)) + trailing.length := by
    rw [length_wavFile, length_encodeChunks_two]
  have hdf : (Chunk.mk kData dp).id ≠ kFmt := Ne.symm kFmt_ne_kData
  obtain ⟨r, hr, hrf, hrs, hrz, hrm⟩ :
      ∃ r, WavAudioFileInput.open (2 + k) self
          (some (wavFile riffSize [Chunk.mk kFmt fp, Chunk.mk kData dp] trailing)) locals
          = Outcome.ok r ∧
        r.m_formatChunk = FmtChunk.ofBytes
          (((wavFile riffSize [Chunk.mk kFmt fp, Chunk.mk kData dp] trailing).drop
            (12 + (encodeChunks []).length + 8)).take 40) ∧
        r.m_dataStart = 12 + (encodeChunks [Chunk.mk kFmt fp]).length + 8 ∧
        r.m_dataSize = dp.length ∧
        r.m_samples = dp.length / (leValue ((fp.drop 14).take 2) / 8) :=
    open_records riffSize [Chunk.mk kFmt fp] [] []
      [Chunk.mk kData dp] dp fp trailing self locals k rfl
      (forall_mem_nil_chunk _) (forall_mem_one _ _ hdf)
      (forall_mem_two (fun c => c.id < 2 ^ 32) _ _ kFmt_lt kData_lt)
      ⟨fun _ => by
          show 40 ≤ fp.length + (encodeChunks [Chunk.mk kData dp]).length + trailing.length
          rw [length_encodeChunks_one]
          exact h40,
        fmtReadable_of_no_fmt _ _ (forall_mem_one _ _ hdf)⟩
      htr (by
        show (wavFile riffSize [Chunk.mk kFmt fp, Chunk.mk kData dp] trailing).length < 2 ^ 32
        rw [hl]; rw [hlx] at hlen; omega) hfp hbits
  obtain ⟨rx, hrx, hrxf, hrxs, hrxz, hrxm⟩ :
      ∃ r, WavAudioFileInput.open (3 + k) self
          (some (wavFile riffSizeX [Chunk.mk kFmt fp, x, Chunk.mk kData dp] trailing)) localsX
          = Outcome.ok r ∧
        r.m_formatChunk = FmtChunk.ofBytes
          (((wavFile riffSizeX [Chunk.mk kFmt fp, x, Chunk.mk kData dp] trailing).drop
            (12 + (encodeChunks []).length + 8)).take 40) ∧
        r.m_dataStart = 12 + (encodeChunks [Chunk.mk kFmt fp, x]).length + 8 ∧
        r.m_dataSize = dp.length ∧
        r.m_samples = dp.length / (leValue ((fp.drop 14).take 2) / 8) :=
    open_records riffSizeX [Chunk.mk kFmt fp, x] [] []
      [x, Chunk.mk kData dp] dp fp trailing self localsX k rfl
      (forall_mem_nil_chunk _) (forall_mem_two _ _ _ hx1 hdf)
      (forall_mem_three (fun c => c.id < 2 ^ 32) _ _ _ kFmt_lt hxid kData_lt)
      ⟨fun _ => by
          show 40 ≤ fp.length + (encodeChunks [x, Chunk.mk kData dp]).length + trailing.length
          rw [length_encodeChunks_two]
          show 40 ≤ fp.length + (8 + x.payload.length + (8 + dp.length)) + trailing.length
          omega,
        fmtReadable_of_no_fmt _ _ (forall_mem_two _ _ _ hx1 hdf)⟩
      htr hlen hfp hbits
  have hw := wavFile_split riffSize [] [Chunk.mk kData dp] (Chunk.mk kFmt fp) trailing
  have hwx := wavFile_split riffSizeX [] [x, Chunk.mk kData dp] (Chunk.mk kFmt fp) trailing
  have hpl := length_wavFile_prefix riffSize [] kFmt fp.length
  have hplx := length_wavFile_prefix riffSizeX [] kFmt fp.length
  rw [show (([] : List Chunk) ++ Chunk.mk kFmt fp :: [Chunk.mk kData dp])
    = [Chunk.mk kFmt fp, Chunk.mk kData dp] from rfl] at hw
  rw [show (([] : List Chunk) ++ Chunk.mk kFmt fp :: [x, Chunk.mk kData dp])
    = [Chunk.mk kFmt fp, x, Chunk.mk kData dp] from rfl] at hwx
  rw [hw, ← hpl] at hrf
  rw [hwx, ← hplx] at hrxf
  obtain ⟨f1, f2, f3, f4, f5, f6⟩ := fmt_window_fields
    (leBytes 4 kRiff ++ leBytes 4 riffSize ++ leBytes 4 kWave ++ encodeChunks []
      ++ (leBytes 4 kFmt ++ leBytes 4 fp.length)) fp
    (encodeChunks [Chunk.mk kData dp] ++ trailing) hfp
  obtain ⟨g1, g2, g3, g4, g5, g6⟩ := fmt_window_fields
    (leBytes 4 kRiff ++ leBytes 4 riffSizeX ++ leBytes 4 kWave ++ encodeChunks []
      ++ (leBytes 4 kFmt ++ leBytes 4 fp.length)) fp
    (encodeChunks [x, Chunk.mk kData dp] ++ trailing) hfp
  refine ⟨r, rx, hr, hrx, ?_, ?_, ?_, hrz, ?_, ?_, ?_, ?_, ?_, ?_, ?_, ?_⟩
  · rw [hrs, length_encodeChunks_one]
  · rw [hrxs, hrs, length_encodeChunks_one, length_encodeChunks_two]
    show 12 + (8 + fp.length + (8 + x.payload.length)) + 8
      = 12 + (8 + fp.length) + 8 + (8 + x.payload.length)
    omega
  · rw [hrxz, hrz]
  · rw [hrxm, hrm]
  · rw [hrxf, hrf]; exact g1.trans f1.symm
  · rw [hrxf, hrf]; exact g2.trans f2.symm
  · rw [hrxf, hrf]; exact g3.trans f3.symm
  · rw [hrxf, hrf]; exact g4.trans f4.symm
  · rw [hrxf, hrf]; exact g5.trans f5.symm
  · rw [hrxf, hrf]; exact g6.trans f6.symm
  · intro h
    rw [hrxf, hrf, fmt_window_full _ fp _ h, fmt_window_full _ fp _ h]

theorem C8_unrecognized_chunk_is_skipped_witness :
    (Chunk.mk (make_riff_fourcc "LIST") [1, 2, 3, 4]).id ≠ kFmt ∧
    (Chunk.mk (make_riff_fourcc "LIST") [1, 2, 3, 4]).id < 2 ^ 32 ∧
    ([] : List Nat).length < 8 ∧
    40 ≤ pcmFmtPayload.length + (8 + (List.range 16).length) + ([] : List Nat).length ∧
    (wavFile 64 [Chunk.mk kFmt pcmFmtPayload, Chunk.mk (make_riff_fourcc "LIST") [1, 2, 3, 4],
      Chunk.mk kData (List.range 16)] []).length < 2 ^ 32 ∧
    16 ≤ pcmFmtPayload.length ∧ 8 ≤ leValue ((pcmFmtPayload.drop 14).take 2) ∧
    ∃ r rx,
      WavAudioFileInput.open (2 + 0) (WavAudioFileInput.constructed 0 0 0)
        (some (wavFile 52 [Chunk.mk kFmt pcmFmtPayload, Chunk.mk kData (List.range 16)] []))
        zeroLocals = Outcome.ok r ∧
      WavAudioFileInput.open (3 + 0) (WavAudioFileInput.constructed 0 0 0)
        (some (wavFile 64 [Chunk.mk kFmt pcmFmtPayload,
          Chunk.mk (make_riff_fourcc "LIST") [1, 2, 3, 4], Chunk.mk kData (List.range 16)] []))
        zeroLocals = Outcome.ok rx ∧
      r.m_dataStart = 12 + (8 + pcmFmtPayload.length) + 8 ∧
      rx.m_dataStart
        = r.m_dataStart + (8 + (Chunk.mk (make_riff_fourcc "LIST") [1, 2, 3, 4]).payload.length) ∧
      rx.m_dataSize = r.m_dataSize ∧ r.m_dataSize = (List.range 16).length ∧
      rx.m_samples = r.m_samples ∧
      rx.m_formatChunk.m_formatTag = r.m_formatChunk.m_formatTag ∧
      rx.m_formatChunk.m_channels = r.m_formatChunk.m_channels ∧
      rx.m_formatChunk.m_samplesPerSec = r.m_formatChunk.m_samplesPerSec ∧
      rx.m_formatChunk.m_avgBytesPerSec = r.m_formatChunk.m_avgBytesPerSec ∧
      rx.m_formatChunk.m_blockAlign = r.m_formatChunk.m_blockAlign ∧
      rx.m_formatChunk.m_bitsPerSample = r.m_formatChunk.m_bitsPerSample ∧
      (40 ≤ pcmFmtPayload.length → rx.m_formatChunk = r.m_formatChunk) :=
  ⟨by decide, by decide, by decide, by decide, by decide, by decide, by decide,
    C8_unrecognized_chunk_is_skipped 52 64 pcmFmtPayload (List.range 16) []
      (Chunk.mk (make_riff_fourcc "LIST") [1, 2, 3, 4]) (WavAudioFileInput.constructed 0 0 0)
      zeroLocals zeroLocals 0 (by decide) (by decide) (by decide) (by decide) (by decide)
      (by decide) (by decide)⟩

/-! ## Values of binary32 data -/

theorem F32.toRat_fin (s : Bool) (m : Nat) (e : Int) :
    (F32.fin s m e).toRat = (if s then -1 else 1) * (m : ℚ) * (2 : ℚ) ^ e := rfl

/-- Rounding a value that fits 24 significant bits at an exponent in range is exact. -/
theorem F32.round_exact (s : Bool) (M : Nat) (E : Int) (hb : bitLen M ≤ 24)
    (hE : eMin ≤ E) (hO : E + (bitLen M : Int) ≤ eMax + 24) :
    (round s M E).isFinite = true ∧
      (round s M E).toRat = (if s then -1 else 1) * (M : ℚ) * (2 : ℚ) ^ E := by
  by_cases hM : M = 0
  · subst hM
    simp [round, isFinite, toRat]
  · have he1 : max (E + (bitLen M : Int) - 24) eMin ≤ E := max_le (by omega) hE
    have he2 : ¬ (eMax < max (E + (bitLen M : Int) - 24) eMin) := by
      have : max (E + (bitLen M : Int) - 24) eMin ≤ eMax :=
        max_le (by omega) (by simp [eMin, eMax])
      omega
    simp only [round, if_neg hM, if_pos he1, if_neg he2, isFinite, toRat_fin, true_and]
    generalize max (E + (bitLen M : Int) - 24) eMin = e at he1
    obtain ⟨d, hd⟩ : ∃ d : Nat, (E - e).toNat = d := ⟨_, rfl⟩
    have hE2 : E = e + (d : Int) := by omega
    rw [hd, hE2, zpow_add₀ (by norm_num : (2 : ℚ) ≠ 0), zpow_natCast]
    push_cast
    ring

theorem truncQ_intCast (z : Int) : truncQ (z : ℚ) = z := by
  unfold truncQ
  split_ifs
  · exact Int.floor_intCast z
  · exact Int.ceil_intCast z

theorem truncQ_nat_div (s : Bool) (m k : Nat) :
    truncQ ((if s then -1 else 1) * (m : ℚ) / (2 ^ k : ℕ)) = signed s (m / 2 ^ k) := by
  have hpos : (0 : ℚ) < ((2 ^ k : ℕ) : ℚ) := by positivity
  have hq : (0 : ℚ) ≤ (m : ℚ) / ((2 ^ k : ℕ) : ℚ) := by positivity
  have hfl : ⌊(m : ℚ) / ((2 ^ k : ℕ) : ℚ)⌋ = ((m / 2 ^ k : ℕ) : Int) := by
    have := Rat.floor_intCast_div_natCast (m : Int) (2 ^ k)
    rw [Int.natCast_div]
    simpa using this
  cases s with
  | false =>
      simp only [Bool.false_eq_true, if_false, one_mul, signed]
      unfold truncQ
      rw [if_pos hq, hfl]
  | true =>
      simp only [if_true, signed]
      unfold truncQ
      have e1 : (-1 : ℚ) * (m : ℚ) / ((2 ^ k : ℕ) : ℚ) = -((m : ℚ) / ((2 ^ k : ℕ) : ℚ)) := by ring
      rw [e1]
      by_cases h0 : (0 : ℚ) ≤ -((m : ℚ) / ((2 ^ k : ℕ) : ℚ))
      · have hz : (m : ℚ) / ((2 ^ k : ℕ) : ℚ) = 0 := le_antisymm (by linarith) hq
        rw [if_pos h0, hz, neg_zero, Int.floor_zero]
        rw [hz, Int.floor_zero] at hfl
        omega
      · rw [if_neg h0, Int.ceil_neg, hfl]

/-- The truncating conversion of a finite datum is the truncation of its value. -/
theorem F32.truncInt_fin (s : Bool) (m : Nat) (e : Int) :
    (F32.fin s m e).truncInt = some (truncQ (F32.fin s m e).toRat) := by
  simp only [truncInt, toRat_fin, Option.some.injEq]
  by_cases he : 0 ≤ e
  · rw [if_pos he]
    obtain ⟨d, hd⟩ : ∃ d : Nat, e.toNat = d := ⟨_, rfl⟩
    have he2 : e = (d : Int) := by omega
    rw [hd, he2, zpow_natCast]
    have : (if s = true then (-1 : ℚ) else 1) * (m : ℚ) * 2 ^ d = ((signed s (m * 2 ^ d) : Int) : ℚ) := by
      cases s <;> simp [signed]
    rw [this, truncQ_intCast]
  · rw [if_neg he]
    obtain ⟨k, hk⟩ : ∃ k : Nat, (-e).toNat = k := ⟨_, rfl⟩
    have he2 : e = -(k : Int) := by omega
    rw [hk, he2, zpow_neg, zpow_natCast, ← truncQ_nat_div]
    congr 1
    push_cast
    ring

theorem kfCoefEncode_eq : kfCoefEncode = F32.fin false (2 ^ 23) (-8) := by decide

theorem kfCoefDecode_eq : kfCoefDecode = F32.fin false (2 ^ 23) (-38) := by decide

/-- Multiplying a canonical value by the power of two `2^(j+23)` is exact when the
product is neither subnormal nor too large. -/
theorem F32.mul_pow2 (s : Bool) (m : Nat) (e j : Int) (h : WF (fin s m e))
    (hr : m ≠ 0 → eMin ≤ e + j + 23 ∧ e + j + 23 + (bitLen m : Int) ≤ eMax + 24) :
    (fin s m e * fin false (2 ^ 23) j).isFinite = true ∧
      (fin s m e * fin false (2 ^ 23) j).toRat = (fin s m e).toRat * (2 : ℚ) ^ (j + 23) := by
  rw [mul_def]
  simp only [mul, Bool.xor_false]
  by_cases hm : m = 0
  · subst hm
    simp [round, isFinite, toRat]
  · obtain ⟨h1, h2⟩ := hr hm
    rw [round_scale s m 23 (e + j) hm]
    have hb : bitLen m ≤ 24 := bitLen_le_of_lt m 24 h.1
    have hE : e + j + ((23 : ℕ) : Int) = e + j + 23 := by norm_num
    rw [hE]
    obtain ⟨r1, r2⟩ := round_exact s m (e + j + 23) hb h1 h2
    refine ⟨r1, ?_⟩
    rw [r2, toRat_fin]
    have : e + j + 23 = e + (j + 23) := by ring
    rw [this, zpow_add₀ (by norm_num : (2 : ℚ) ≠ 0)]
    ring

/-- The conversion of an integer below `2^24` in magnitude is exact; the datum is
canonical, and when the integer is not zero its exponent lies in `[-23, 0]`. -/
theorem F32.ofInt_spec (i : Int) (hi : i.natAbs < 2 ^ 24) :
    ∃ s m e, ofInt i = fin s m e ∧ WF (fin s m e) ∧ (fin s m e).toRat = (i : ℚ) ∧
      (m ≠ 0 → -23 ≤ e ∧ e + (bitLen m : Int) ≤ 24) := by
  have hwf := round_WF (decide (i < 0)) i.natAbs 0
  by_cases h0 : i = 0
  · subst h0
    exact ⟨false, 0, eMin, by decide, by decide, by simp [toRat], fun h => absurd rfl h⟩
  · have hn : i.natAbs ≠ 0 := by omega
    have hb : bitLen i.natAbs ≤ 24 := bitLen_le_of_lt _ 24 hi
    have hbp := bitLen_pos _ hn
    have hmax : max ((0 : Int) + (bitLen i.natAbs : Int) - 24) eMin
        = (bitLen i.natAbs : Int) - 24 := by
      simp only [eMin]; omega
    have hex := round_exact (decide (i < 0)) i.natAbs 0 hb (by simp [eMin])
      (by simp only [eMax]; omega)
    have hform : round (decide (i < 0)) i.natAbs 0
        = fin (decide (i < 0)) (i.natAbs * 2 ^ (24 - bitLen i.natAbs))
            ((bitLen i.natAbs : Int) - 24) := by
      simp only [round, if_neg hn, hmax]
      rw [if_pos (by omega), if_neg (by simp only [eMax]; omega)]
      have hx : (0 - ((bitLen i.natAbs : Int) - 24)).toNat = 24 - bitLen i.natAbs := by omega
      rw [hx]
    refine ⟨_, _, _, hform, ?_, ?_, ?_⟩
    · rw [← hform]; exact hwf
    · rw [← hform, hex.2]
      have habs : ((i.natAbs : ℕ) : ℚ) = |(i : ℚ)| := by
        rw [Nat.cast_natAbs, Int.cast_abs]
      rw [habs]
      by_cases hneg : i < 0
      · have hq : (i : ℚ) < 0 := by exact_mod_cast hneg
        simp only [hneg, decide_True, if_true, zpow_zero, mul_one]
        rw [abs_of_neg hq]; ring
      · have hq : (0 : ℚ) ≤ (i : ℚ) := by exact_mod_cast (not_lt.mp hneg)
        simp only [hneg, decide_False, Bool.false_eq_true, if_false, zpow_zero, mul_one, one_mul]
        rw [abs_of_nonneg hq]
    · intro _
      have hbl : bitLen (i.natAbs * 2 ^ (24 - bitLen i.natAbs))
          = bitLen i.natAbs + (24 - bitLen i.natAbs) := bitLen_mul_pow _ _ hn
      rw [hbl]
      omega

/-! ## Sample codec -/

theorem getElem?_written {α : Type} (g : Nat → α) (k : Nat) (out : List α) (j : Nat) :
    (written g k out)[j]? = (out[j]?).map fun o => if j < k then g j else o := by
  simp [written, List.getElem?_mapIdx]

theorem length_written {α : Type} (g : Nat → α) (k : Nat) (out : List α) :
    (written g k out).length = out.length := by
  simp [written]

theorem written_zero {α : Type} (g : Nat → α) (out : List α) : written g 0 out = out := by
  apply List.ext_getElem?
  intro j
  rw [getElem?_written]
  cases out[j]? <;> simp

theorem store_written {α : Type} (g : Nat → α) (k : Nat) (out : List α) (v : α)
    (hk : k < out.length) (hv : v = g k) :
    store (written g k out) k v = some (written g (k + 1) out) := by
  subst hv
  simp only [store, length_written, if_pos hk]
  congr 1
  apply List.ext_getElem?
  intro j
  rw [List.getElem?_set, getElem?_written, getElem?_written, length_written]
  by_cases hj : k = j
  · subst hj
    simp [hk, List.getElem?_eq_getElem hk]
  · rw [if_neg hj]
    cases out[j]? with
    | none => rfl
    | some o =>
        simp only [Option.map_some']
        by_cases h1 : j < k
        · rw [if_pos h1, if_pos (by omega)]
        · rw [if_neg h1, if_neg (by omega)]

/-- A loop that stores `g i` at position `i` for `i < n` yields `written g n out`. -/
theorem forLoop_store {α : Type} (n : Nat) (g : Nat → α) (body : Nat → List α → Option (List α))
    (out : List α) (hn : n ≤ out.length)
    (hbody : ∀ i, i < n → body i (written g i out) = store (written g i out) i (g i)) :
    forLoop n 1 body n 0 out = some (written g n out) := by
  have key := forLoop_steps n 1 body (fun t => written g t out) (by omega)
    (by
      intro t ht
      simp only [Nat.mul_one] at ht ⊢
      rw [hbody t ht]
      exact store_written g t out (g t) (by omega) rfl)
    n 0 (by omega)
  simp only [Nat.zero_mul, written_zero] at key
  rw [key]
  congr 2
  have : (n + 1 - 1) / 1 = n := by simp
  rw [this]
  omega

theorem load16_eq (buf : List Nat) (i : Nat) (h : 2 * i + 1 < buf.length) :
    load16 buf i = some (int16_of_bytes (buf.getD (2 * i) 0) (buf.getD (2 * i + 1) 0)) := by
  have h0 : 2 * i < buf.length := by omega
  simp [load16, List.getElem?_eq_getElem h, List.getElem?_eq_getElem h0, List.getD_eq_getElem?_getD]

/-- Closed form of `decode_16bit_pcm_to_float` on buffers that are large enough. -/
theorem decode_16bit_pcm_to_float_eq (inBuffer : List Nat) (outBuffer : List F32) (n : Nat)
    (hin : 2 * n ≤ inBuffer.length) (hout : n ≤ outBuffer.length) :
    decode_16bit_pcm_to_float inBuffer outBuffer n
      = some (written (fun i => F32.ofInt (int16_of_bytes (inBuffer.getD (2 * i) 0)
          (inBuffer.getD (2 * i + 1) 0)) * kfCoefDecode) n outBuffer) := by
  unfold decode_16bit_pcm_to_float
  apply forLoop_store n _ _ outBuffer hout
  intro i hi
  simp only [load16_eq inBuffer i (by omega), Option.some_bind]

/-- Closed form of `decode_16bit_pcm_to_16bit` on buffers that are large enough. -/
theorem decode_16bit_pcm_to_16bit_eq (inBuffer : List Nat) (outBuffer : List Int) (n : Nat)
    (hin : 2 * n ≤ inBuffer.length) (hout : n ≤ outBuffer.length) :
    decode_16bit_pcm_to_16bit inBuffer outBuffer n
      = some (written (fun i => int16_of_bytes (inBuffer.getD (2 * i) 0)
          (inBuffer.getD (2 * i + 1) 0)) n outBuffer) := by
  unfold decode_16bit_pcm_to_16bit
  apply forLoop_store n _ _ outBuffer hout
  intro i hi
  simp only [load16_eq inBuffer i (by omega), Option.some_bind]

theorem store16_written (u : Nat → Nat) (t : Nat) (out : List Nat) (v : Nat)
    (ht : 2 * t + 1 < out.length) (hv : v = u t) :
    store16 (written (wordByte u) (2 * t) out) t v
      = some (written (wordByte u) (2 * (t + 1)) out) := by
  subst hv
  unfold store16
  rw [store_written (wordByte u) (2 * t) out _ (by omega)
    (by simp [wordByte])]
  simp only [Option.some_bind]
  rw [store_written (wordByte u) (2 * t + 1) out _ (by omega)
    (by
      have h1 : (2 * t + 1) % 2 = 1 := by omega
      have h2 : (2 * t + 1) / 2 = t := by omega
      simp [wordByte, h1, h2])]
  rfl

/-- A loop that stores the 16-bit word `u i` at word position `i` for `i < n`. -/
theorem forLoop_store16 (n : Nat) (u : Nat → Nat) (body : Nat → List Nat → Option (List Nat))
    (out : List Nat) (hn : 2 * n ≤ out.length)
    (hbody : ∀ i, i < n → body i (written (wordByte u) (2 * i) out)
      = store16 (written (wordByte u) (2 * i) out) i (u i)) :
    forLoop n 1 body n 0 out = some (written (wordByte u) (2 * n) out) := by
  have key := forLoop_steps n 1 body (fun t => written (wordByte u) (2 * t) out) (by omega)
    (by
      intro t ht
      simp only [Nat.mul_one] at ht ⊢
      rw [hbody t ht]
      exact store16_written u t out (u t) (by omega) rfl)
    n 0 (by omega)
  simp only [Nat.zero_mul, Nat.mul_zero, written_zero] at key
  rw [key]
  congr 3
  have : (n + 1 - 1) / 1 = n := by simp
  rw [this]
  omega

/-- Closed form of `encode_float_to_16bit` when every conversion is defined. -/
theorem encode_float_to_16bit_eq (inBuffer : List F32) (outBuffer : List Nat) (n : Nat)
    (u : Nat → Nat) (hin : n ≤ inBuffer.length) (hout : 2 * n ≤ outBuffer.length)
    (hu : ∀ i, i < n → F32.toUInt16 (inBuffer.getD i F32.zero * kfCoefEncode) = some (u i)) :
    encode_float_to_16bit inBuffer outBuffer n
      = some (written (wordByte u) (2 * n) outBuffer) := by
  unfold encode_float_to_16bit
  apply forLoop_store16 n u _ outBuffer hout
  intro i hi
  have h1 : inBuffer[i]? = some (inBuffer.getD i F32.zero) := by
    simp [List.getElem?_eq_getElem (show i < inBuffer.length by omega), List.getD_eq_getElem?_getD]
  simp only [h1, Option.some_bind, hu i hi]

/-- Closed form of `encode_16bit_to_16bit`. -/
theorem encode_16bit_to_16bit_eq (inBuffer : List Int) (outBuffer : List Nat) (n : Nat)
    (hin : n ≤ inBuffer.length) (hout : 2 * n ≤ outBuffer.length) :
    encode_16bit_to_16bit inBuffer outBuffer n
      = some (written (wordByte fun i => (inBuffer.getD i 0 % 65536).toNat) (2 * n)
          outBuffer) := by
  unfold encode_16bit_to_16bit
  apply forLoop_store16 n _ _ outBuffer hout
  intro i hi
  have h1 : inBuffer[i]? = some (inBuffer.getD i 0) := by
    simp [List.getElem?_eq_getElem (show i < inBuffer.length by omega), List.getD_eq_getElem?_getD]
  simp only [h1, Option.some_bind]

/-- The `int16_t` read from two bytes is the integer of `[-2^15, 2^15)` congruent to their
little-endian value modulo `2^16`. -/
theorem int16_of_bytes_spec (b0 b1 : Nat) (h0 : b0 < 256) (h1 : b1 < 256) :
    -32768 ≤ int16_of_bytes b0 b1 ∧ int16_of_bytes b0 b1 < 32768 ∧
      int16_of_bytes b0 b1 % 65536 = ((b0 + 256 * b1 : Nat) : Int) := by
  unfold int16_of_bytes
  split_ifs with h
  · omega
  · omega

/-- The two bytes stored for an integer of the `int16_t` range read back as that integer. -/
theorem int16_of_wordBytes (t : Int) (h1 : -32768 ≤ t) (h2 : t < 32768) :
    int16_of_bytes ((t % 65536).toNat % 256) ((t % 65536).toNat / 256 % 256) = t := by
  unfold int16_of_bytes
  split_ifs with h
  · omega
  · omega

theorem wordBytes_value (u : Nat) (h : u < 65536) : u % 256 + 256 * (u / 256 % 256) = u := by
  omega

/-- The value `(float)s * kfCoef` the decoder computes for a 16-bit sample is exactly
`s / 2^15`. -/
theorem decode_value (s : Int) (h1 : -32768 ≤ s) (h2 : s ≤ 32768) :
    (F32.ofInt s * kfCoefDecode).isFinite = true ∧
      (F32.ofInt s * kfCoefDecode).toRat = (s : ℚ) / 2 ^ 15 ∧
      F32.WF (F32.ofInt s * kfCoefDecode) := by
  obtain ⟨sg, m, e, hform, hwf, hval, hexp⟩ := F32.ofInt_spec s (by omega)
  refine ⟨?_, ?_, F32.mul_WF _ _⟩
  · rw [hform, kfCoefDecode_eq]
    refine (F32.mul_pow2 sg m e (-38) hwf ?_).1
    intro hm
    obtain ⟨a, b⟩ := hexp hm
    simp only [F32.eMin, F32.eMax]
    omega
  · rw [hform, kfCoefDecode_eq]
    have := (F32.mul_pow2 sg m e (-38) hwf (by
      intro hm
      obtain ⟨a, b⟩ := hexp hm
      simp only [F32.eMin, F32.eMax]
      omega)).2
    rw [this, hval]
    norm_num
    ring

theorem truncQ_bounds (q : ℚ) (N : Int) (h : |q| < (N : ℚ)) : -N < truncQ q ∧ truncQ q < N := by
  have ha := abs_lt.1 h
  unfold truncQ
  split_ifs with h0
  · constructor
    · have : (0 : Int) ≤ ⌊q⌋ := Int.floor_nonneg.2 h0
      have hN : (0 : ℚ) < N := lt_of_le_of_lt (abs_nonneg q) h
      have : (0 : Int) < N := by exact_mod_cast hN
      omega
    · have : (⌊q⌋ : ℚ) ≤ q := Int.floor_le q
      have : (⌊q⌋ : ℚ) < N := lt_of_le_of_lt this ha.2
      exact_mod_cast this
  · push_neg at h0
    constructor
    · have : q ≤ (⌈q⌉ : ℚ) := Int.le_ceil q
      have : ((-N : Int) : ℚ) < (⌈q⌉ : ℚ) := by
        push_cast
        exact lt_of_lt_of_le ha.1 this
      exact_mod_cast this
    · have : ⌈q⌉ ≤ 0 := Int.ceil_le.2 (by exact_mod_cast h0.le)
      have hN : (0 : ℚ) < N := lt_of_le_of_lt (abs_nonneg q) h
      have : (0 : Int) < N := by exact_mod_cast hN
      omega

theorem truncQ_error (q : ℚ) : |(truncQ q : ℚ) - q| < 1 := by
  unfold truncQ
  split_ifs with h0
  · have h1 := Int.floor_le q
    have h2 := Int.lt_floor_add_one q
    rw [abs_lt]; constructor <;> linarith
  · have h1 := Int.le_ceil q
    have h2 := Int.ceil_lt_add_one q
    rw [abs_lt]; constructor <;> linarith

theorem F32.exponent_bound (s : Bool) (m : Nat) (e : Int) (k : Nat) (hm : m ≠ 0)
    (h : |(F32.fin s m e).toRat| < (2 : ℚ) ^ k) : e + (bitLen m : Int) ≤ k := by
  by_contra hc
  push_neg at hc
  have h1 := two_pow_bitLen_le m hm
  have hbp := bitLen_pos m hm
  have h2 : ((2 : ℚ) ^ (bitLen m - 1) : ℚ) ≤ (m : ℚ) := by exact_mod_cast h1
  have habs : |(F32.fin s m e).toRat| = (m : ℚ) * (2 : ℚ) ^ e := by
    rw [F32.toRat_fin]
    have hp : (0 : ℚ) < (2 : ℚ) ^ e := by positivity
    cases s
    · simp only [Bool.false_eq_true, if_false, one_mul]
      exact abs_of_nonneg (by positivity)
    · simp only [if_true]
      rw [show (-1 : ℚ) * (m : ℚ) * (2 : ℚ) ^ e = -((m : ℚ) * (2 : ℚ) ^ e) by ring, abs_neg]
      exact abs_of_nonneg (by positivity)
  rw [habs] at h
  have h3 : (2 : ℚ) ^ (bitLen m - 1) * (2 : ℚ) ^ e ≤ (m : ℚ) * (2 : ℚ) ^ e :=
    mul_le_mul_of_nonneg_right h2 (by positivity)
  have h4 : (2 : ℚ) ^ (bitLen m - 1) * (2 : ℚ) ^ e = (2 : ℚ) ^ (((bitLen m - 1 : ℕ) : Int) + e) := by
    rw [zpow_add₀ (by norm_num : (2 : ℚ) ≠ 0), zpow_natCast]
  have h5 : (2 : ℚ) ^ ((k : ℕ) : Int) ≤ (2 : ℚ) ^ (((bitLen m - 1 : ℕ) : Int) + e) := by
    apply zpow_le_zpow_right₀ (by norm_num)
    omega
  rw [zpow_natCast] at h5
  linarith

/-- The conversion `(uint16_t)(x * kfCoef)` the encoder computes for a finite sample of
magnitude below `2^16`: the truncation of `x * 2^15` toward zero, modulo `2^16`. -/
theorem encode_value (x : F32) (hw : F32.WF x) (hf : x.isFinite = true)
    (hb : |x.toRat| < 2 ^ 16) :
    F32.toUInt16 (x * kfCoefEncode)
      = some (truncQ (x.toRat * 2 ^ 15) % 65536).toNat := by
  cases x with
  | nan => simp [F32.isFinite] at hf
  | inf s => simp [F32.isFinite] at hf
  | fin s m e =>
    rw [kfCoefEncode_eq]
    have hcond : m ≠ 0 → F32.eMin ≤ e + (-8) + 23
        ∧ e + (-8) + 23 + (bitLen m : Int) ≤ F32.eMax + 24 := by
      intro hm
      have hb2 : |(F32.fin s m e).toRat| < (2 : ℚ) ^ (16 : ℕ) := by exact_mod_cast hb
      have := F32.exponent_bound s m e 16 hm hb2
      have he := hw.2.1
      simp only [F32.eMin, F32.eMax] at he ⊢
      omega
    obtain ⟨hfin, hval⟩ := F32.mul_pow2 s m e (-8) hw hcond
    have hval2 : (F32.fin s m e * F32.fin false (2 ^ 23) (-8)).toRat
        = (F32.fin s m e).toRat * 2 ^ 15 := by
      rw [hval]; norm_num
    generalize hy : F32.fin s m e * F32.fin false (2 ^ 23) (-8) = y at hfin hval2
    cases y with
    | nan => simp [F32.isFinite] at hfin
    | inf s => simp [F32.isFinite] at hfin
    | fin s2 m2 e2 =>
      have hq : |(F32.fin s m e).toRat * 2 ^ 15| < (((2 : Int) ^ 31 : Int) : ℚ) := by
        rw [abs_mul, abs_of_pos (by positivity : (0 : ℚ) < 2 ^ 15)]
        have : |(F32.fin s m e).toRat| * 2 ^ 15 < 2 ^ 16 * 2 ^ 15 :=
          mul_lt_mul_of_pos_right hb (by positivity)
        push_cast
        calc |(F32.fin s m e).toRat| * 2 ^ 15 < 2 ^ 16 * 2 ^ 15 := this
          _ = 2 ^ 31 := by norm_num
      have hb3 := truncQ_bounds _ _ hq
      simp only [F32.toUInt16, F32.truncInt_fin, hval2]
      rw [if_pos ⟨by omega, by omega⟩]

theorem getElem?_written_lt {α : Type} (g : Nat → α) (k : Nat) (out : List α) (j : Nat)
    (hj : j < k) (hl : j < out.length) : (written g k out)[j]? = some (g j) := by
  rw [getElem?_written, List.getElem?_eq_getElem hl]
  simp [hj]

theorem getD_written_lt {α : Type} (g : Nat → α) (k : Nat) (out : List α) (j : Nat) (d : α)
    (hj : j < k) (hl : j < out.length) : (written g k out).getD j d = g j := by
  rw [List.getD_eq_getElem?_getD, getElem?_written_lt g k out j hj hl]
  rfl

theorem getElem?_written_ge {α : Type} (g : Nat → α) (k : Nat) (out : List α) (j : Nat)
    (hj : k ≤ j) : (written g k out)[j]? = out[j]? := by
  rw [getElem?_written]
  cases out[j]? with
  | none => rfl
  | some o => simp [show ¬ j < k by omega]

theorem getD_of_getElem? {α : Type} (l : List α) (i : Nat) (d x : α) (h : l[i]? = some x) :
    l.getD i d = x := by
  rw [List.getD_eq_getElem?_getD, h]; rfl

theorem getElem?_getD_of_lt {α : Type} (l : List α) (i : Nat) (d : α) (h : i < l.length) :
    l[i]? = some (l.getD i d) := by
  rw [List.getD_eq_getElem?_getD, List.getElem?_eq_getElem h]; rfl

/-- C16. On a buffer of at least `2 * n` bytes, `decode_16bit_pcm_to_float` writes for each
`i < n` the value `s_i / 2^15`, where `s_i` is the signed little-endian 16-bit integer
formed by bytes `2i` and `2i + 1` (the integer of `[-2^15, 2^15)` congruent to
`b0 + 256 * b1` modulo `2^16`); each decoded value is finite and lies in `[-1, 1]`; and
`decode_16bit_pcm_to_16bit` writes `s_i` itself. The output buffers hold at least `n`
elements and keep their length. -/
theorem C16_decode_scales_signed_samples (inBuffer : List Nat) (outF : List F32)
    (out16 : List Int) (n : Nat)
    (hin : 2 * n ≤ inBuffer.length) (hbytes : ∀ b ∈ inBuffer, b < 256)
    (hF : n ≤ outF.length) (h16 : n ≤ out16.length) :
    ∃ decF dec16,
      decode_16bit_pcm_to_float inBuffer outF n = some decF ∧
      decode_16bit_pcm_to_16bit inBuffer out16 n = some dec16 ∧
      decF.length = outF.length ∧ dec16.length = out16.length ∧
      ∀ i, i < n → ∃ b0 b1 s y,
        inBuffer[2 * i]? = some b0 ∧ inBuffer[2 * i + 1]? = some b1 ∧
        -32768 ≤ s ∧ s < 32768 ∧ s % 65536 = ((b0 + 256 * b1 : Nat) : Int) ∧
        decF[i]? = some y ∧ y.isFinite = true ∧ y.toRat = (s : ℚ) / 2 ^ 15 ∧
        (-1 : ℚ) ≤ y.toRat ∧ y.toRat ≤ 1 ∧
        dec16[i]? = some s := by
  refine ⟨_, _, decode_16bit_pcm_to_float_eq inBuffer outF n hin hF,
    decode_16bit_pcm_to_16bit_eq inBuffer out16 n hin h16, length_written _ _ _,
    length_written _ _ _, ?_⟩
  intro i hi
  have e0 := getElem?_getD_of_lt inBuffer (2 * i) 0 (by omega)
  have e1 := getElem?_getD_of_lt inBuffer (2 * i + 1) 0 (by omega)
  have hb0 : inBuffer.getD (2 * i) 0 < 256 :=
    hbytes _ (List.getElem?_mem e0)
  have hb1 : inBuffer.getD (2 * i + 1) 0 < 256 :=
    hbytes _ (List.getElem?_mem e1)
  obtain ⟨s1, s2, s3⟩ := int16_of_bytes_spec _ _ hb0 hb1
  obtain ⟨d1, d2, _⟩ := decode_value _ s1 (le_of_lt s2)
  refine ⟨_, _, _, _, e0, e1, s1, s2, s3,
    getElem?_written_lt _ n outF i hi (by omega), d1, d2, ?_, ?_,
    getElem?_written_lt _ n out16 i hi (by omega)⟩
  · rw [d2, le_div_iff₀ (by positivity)]
    have : ((-32768 : Int) : ℚ) ≤ _ := Int.cast_le.2 s1
    push_cast at this
    linarith
  · rw [d2, div_le_iff₀ (by positivity)]
    have : (_ : ℚ) < ((32768 : Int) : ℚ) := Int.cast_lt.2 s2
    push_cast at this
    linarith

theorem C16_decode_scales_signed_samples_witness :
    2 * 2 ≤ [0, 128, 255, 127].length ∧ (∀ b ∈ [0, 128, 255, 127], b < 256) ∧
    2 ≤ [F32.nan, F32.nan].length ∧ 2 ≤ [(7 : Int), 7].length ∧
    ∃ decF dec16,
      decode_16bit_pcm_to_float [0, 128, 255, 127] [F32.nan, F32.nan] 2 = some decF ∧
      decode_16bit_pcm_to_16bit [0, 128, 255, 127] [7, 7] 2 = some dec16 ∧
      decF.length = [F32.nan, F32.nan].length ∧ dec16.length = [(7 : Int), 7].length ∧
      ∀ i, i < 2 → ∃ b0 b1 s y,
        [0, 128, 255, 127][2 * i]? = some b0 ∧ [0, 128, 255, 127][2 * i + 1]? = some b1 ∧
        -32768 ≤ s ∧ s < 32768 ∧ s % 65536 = ((b0 + 256 * b1 : Nat) : Int) ∧
        decF[i]? = some y ∧ y.isFinite = true ∧ y.toRat = (s : ℚ) / 2 ^ 15 ∧
        (-1 : ℚ) ≤ y.toRat ∧ y.toRat ≤ 1 ∧
        dec16[i]? = some s :=
  ⟨by decide, by decide, by decide, by decide,
    C16_decode_scales_signed_samples [0, 128, 255, 127] [F32.nan, F32.nan] [7, 7] 2
      (by decide) (by decide) (by decide) (by decide)⟩

theorem truncQ_range (q : ℚ) (h1 : -32768 ≤ q) (h2 : q < 32768) :
    -32768 ≤ truncQ q ∧ truncQ q < 32768 := by
  unfold truncQ
  split_ifs with h0
  · constructor
    · have : (0 : Int) ≤ ⌊q⌋ := Int.floor_nonneg.2 h0
      omega
    · have h3 : (⌊q⌋ : ℚ) ≤ q := Int.floor_le q
      have : (⌊q⌋ : ℚ) < ((32768 : Int) : ℚ) := by push_cast; linarith
      exact_mod_cast this
  · push_neg at h0
    constructor
    · have h3 : q ≤ (⌈q⌉ : ℚ) := Int.le_ceil q
      have : ((-32768 : Int) : ℚ) ≤ (⌈q⌉ : ℚ) := by push_cast; linarith
      exact_mod_cast this
    · have : ⌈q⌉ ≤ 0 := Int.ceil_le.2 (by exact_mod_cast h0.le)
      omega

/-- What the encoder stores for the samples of a buffer. -/
theorem encode_float_to_16bit_spec (inBuffer : List F32) (outBuffer : List Nat) (n : Nat)
    (hin : n ≤ inBuffer.length) (hout : 2 * n ≤ outBuffer.length)
    (hx : ∀ i x, i < n → inBuffer[i]? = some x →
      F32.WF x ∧ x.isFinite = true ∧ |x.toRat| < 2 ^ 16) :
    encode_float_to_16bit inBuffer outBuffer n
      = some (written (wordByte fun i =>
          (truncQ ((inBuffer.getD i F32.zero).toRat * 2 ^ 15) % 65536).toNat) (2 * n)
          outBuffer) := by
  apply encode_float_to_16bit_eq inBuffer outBuffer n _ hin hout
  intro i hi
  obtain ⟨h1, h2, h3⟩ := hx i _ hi (getElem?_getD_of_lt inBuffer i F32.zero (by omega))
  exact encode_value _ h1 h2 h3

theorem wordByte_even (u : Nat → Nat) (i : Nat) : wordByte u (2 * i) = u i % 256 := by
  simp [wordByte]

theorem wordByte_odd (u : Nat → Nat) (i : Nat) : wordByte u (2 * i + 1) = u i / 256 % 256 := by
  have h1 : (2 * i + 1) % 2 = 1 := by omega
  have h2 : (2 * i + 1) / 2 = i := by omega
  simp [wordByte, h1, h2]

/-- C15 (as the claim states it, refuted). The sample `1.0f` lies in `[-1, 1]`, its scaled
truncation is `32768`, and the encoder stores the bytes `00 80`, the signed value `-32768`. -/
theorem C15_full_scale_sample_wraps :
    encode_float_to_16bit [F32.ofInt 1] [0, 0] 1 = some [0, 128] ∧
    int16_of_bytes 0 128 = -32768 ∧
    (F32.ofInt 1).toRat = 1 ∧
    truncQ ((F32.ofInt 1).toRat * 2 ^ 15) = 32768 := by
  have h1 : F32.ofInt 1 = F32.fin false (2 ^ 23) (-23) := by decide
  have h2 : (F32.ofInt 1).toRat = 1 := by
    rw [h1, F32.toRat_fin]; norm_num
  refine ⟨by decide, by decide, h2, ?_⟩
  rw [h2]
  have : ((1 : ℚ) * 2 ^ 15) = ((32768 : Int) : ℚ) := by norm_num
  rw [this, truncQ_intCast]

/-- C15 (amended). For every finite sample `x` of magnitude below `2^16` the encoder stores,
as two little-endian bytes, the truncation toward zero of `x * 2^15` reduced modulo `2^16`,
with no clipping; the stored signed value is that truncation itself when `-1 ≤ x < 1`.
The rest of the output buffer is unchanged. -/
theorem C15_encode_truncates_and_wraps (inBuffer : List F32) (outBuffer : List Nat) (n : Nat)
    (hin : n ≤ inBuffer.length) (hout : 2 * n ≤ outBuffer.length)
    (hx : ∀ i x, i < n → inBuffer[i]? = some x →
      F32.WF x ∧ x.isFinite = true ∧ |x.toRat| < 2 ^ 16) :
    ∃ bytes, encode_float_to_16bit inBuffer outBuffer n = some bytes ∧
      bytes.length = outBuffer.length ∧
      (∀ j, 2 * n ≤ j → bytes[j]? = outBuffer[j]?) ∧
      ∀ i, i < n → ∃ x b0 b1, inBuffer[i]? = some x ∧
        bytes[2 * i]? = some b0 ∧ bytes[2 * i + 1]? = some b1 ∧ b0 < 256 ∧ b1 < 256 ∧
        ((b0 + 256 * b1 : Nat) : Int) = truncQ (x.toRat * 2 ^ 15) % 65536 ∧
        int16_of_bytes b0 b1 % 65536 = truncQ (x.toRat * 2 ^ 15) % 65536 ∧
        ((-1 : ℚ) ≤ x.toRat ∧ x.toRat < 1 →
          int16_of_bytes b0 b1 = truncQ (x.toRat * 2 ^ 15)) := by
  refine ⟨_, encode_float_to_16bit_spec inBuffer outBuffer n hin hout hx, length_written _ _ _,
    fun j hj => getElem?_written_ge _ _ _ j hj, ?_⟩
  intro i hi
  have ex := getElem?_getD_of_lt inBuffer i F32.zero (by omega)
  generalize inBuffer.getD i F32.zero = x at ex
  have hget : inBuffer.getD i F32.zero = x := getD_of_getElem? _ _ _ _ ex
  refine ⟨x, _, _, ex, getElem?_written_lt _ (2 * n) outBuffer (2 * i) (by omega) (by omega),
    getElem?_written_lt _ (2 * n) outBuffer (2 * i + 1) (by omega) (by omega), ?_, ?_, ?_, ?_, ?_⟩
  · rw [wordByte_even]; omega
  · rw [wordByte_odd]; omega
  · rw [wordByte_even, wordByte_odd, hget]
    generalize truncQ (x.toRat * 2 ^ 15) = t
    omega
  · rw [wordByte_even, wordByte_odd, hget]
    generalize truncQ (x.toRat * 2 ^ 15) = t
    unfold int16_of_bytes
    split_ifs <;> omega
  · rintro ⟨ha, hb⟩
    rw [wordByte_even, wordByte_odd, hget]
    have hr := truncQ_range (x.toRat * 2 ^ 15) (by linarith) (by linarith)
    exact int16_of_wordBytes _ hr.1 hr.2

theorem C15_encode_truncates_and_wraps_witness :
    1 ≤ [F32.fin true (3 * 2 ^ 22) (-23)].length ∧ 2 * 1 ≤ [0, 0, 7].length ∧
    (∀ i x, i < 1 → [F32.fin true (3 * 2 ^ 22) (-23)][i]? = some x →
      F32.WF x ∧ x.isFinite = true ∧ |x.toRat| < 2 ^ 16) ∧
    ∃ bytes, encode_float_to_16bit [F32.fin true (3 * 2 ^ 22) (-23)] [0, 0, 7] 1 = some bytes ∧
      bytes.length = [0, 0, 7].length ∧
      (∀ j, 2 * 1 ≤ j → bytes[j]? = [0, 0, 7][j]?) ∧
      ∀ i, i < 1 → ∃ x b0 b1, [F32.fin true (3 * 2 ^ 22) (-23)][i]? = some x ∧
        bytes[2 * i]? = some b0 ∧ bytes[2 * i + 1]? = some b1 ∧ b0 < 256 ∧ b1 < 256 ∧
        ((b0 + 256 * b1 : Nat) : Int) = truncQ (x.toRat * 2 ^ 15) % 65536 ∧
        int16_of_bytes b0 b1 % 65536 = truncQ (x.toRat * 2 ^ 15) % 65536 ∧
        ((-1 : ℚ) ≤ x.toRat ∧ x.toRat < 1 →
          int16_of_bytes b0 b1 = truncQ (x.toRat * 2 ^ 15)) :=
  have hx : ∀ i x, i < 1 → [F32.fin true (3 * 2 ^ 22) (-23)][i]? = some x →
      F32.WF x ∧ x.isFinite = true ∧ |x.toRat| < 2 ^ 16 := by
    intro i x hi h
    have h0 : i = 0 := by omega
    subst h0
    simp only [List.getElem?_cons_zero, Option.some.injEq] at h
    subst h
    refine ⟨by decide, rfl, ?_⟩
    rw [F32.toRat_fin]
    norm_num [abs_lt]
  ⟨by decide, by decide, hx,
    C15_encode_truncates_and_wraps [F32.fin true (3 * 2 ^ 22) (-23)] [0, 0, 7] 1
      (by decide) (by decide) hx⟩

/-- C7 (as the claim states it, refuted). The sample `1.0f` encodes to the bytes `00 80`,
which decode to `-1.0f`: the round trip is off by `2`. -/
theorem C7_full_scale_round_trip_flips_sign :
    encode_float_to_16bit [F32.ofInt 1] [0, 0] 1 = some [0, 128] ∧
    decode_16bit_pcm_to_float [0, 128] [F32.zero] 1 = some [F32.ofInt (-1)] ∧
    ¬ |(F32.ofInt (-1)).toRat - (F32.ofInt 1).toRat| ≤ 1 / 2 ^ 15 := by
  have h1 : F32.ofInt 1 = F32.fin false (2 ^ 23) (-23) := by decide
  have h2 : F32.ofInt (-1) = F32.fin true (2 ^ 23) (-23) := by decide
  refine ⟨by decide, by decide, ?_⟩
  rw [h1, h2, F32.toRat_fin, F32.toRat_fin]
  norm_num [abs_le]

/-- C7 (amended). For every block of finite samples `x` with `-1 ≤ x < 1`, encoding with
`encode_float_to_16bit` and decoding the bytes with `decode_16bit_pcm_to_float` yields for
each sample a finite value `y` with `|y - x| ≤ 1 / 2^15`. -/
theorem C7_round_trip_within_one_step (inBuffer : List F32) (scratch : List Nat)
    (outBuffer : List F32) (n : Nat)
    (hin : n ≤ inBuffer.length) (hs : 2 * n ≤ scratch.length) (hout : n ≤ outBuffer.length)
    (hx : ∀ i x, i < n → inBuffer[i]? = some x →
      F32.WF x ∧ x.isFinite = true ∧ -1 ≤ x.toRat ∧ x.toRat < 1) :
    ∃ bytes decoded, encode_float_to_16bit inBuffer scratch n = some bytes ∧
      decode_16bit_pcm_to_float bytes outBuffer n = some decoded ∧
      decoded.length = outBuffer.length ∧
      ∀ i, i < n → ∃ x y, inBuffer[i]? = some x ∧ decoded[i]? = some y ∧
        y.isFinite = true ∧ |y.toRat - x.toRat| ≤ 1 / 2 ^ 15 := by
  have henc := encode_float_to_16bit_spec inBuffer scratch n hin hs (by
    intro i x hi h
    obtain ⟨a, b, c, d⟩ := hx i x hi h
    refine ⟨a, b, ?_⟩
    rw [abs_lt]; constructor <;> linarith)
  refine ⟨_, _, henc,
    decode_16bit_pcm_to_float_eq _ outBuffer n (by rw [length_written]; exact hs) hout,
    length_written _ _ _, ?_⟩
  intro i hi
  have ex := getElem?_getD_of_lt inBuffer i F32.zero (by omega)
  obtain ⟨_, _, ha, hb⟩ := hx i _ hi ex
  generalize hxe : inBuffer.getD i F32.zero = x at ex ha hb
  have hr := truncQ_range (x.toRat * 2 ^ 15) (by linarith) (by linarith)
  refine ⟨x, _, ex, getElem?_written_lt _ n outBuffer i hi (by omega), ?_, ?_⟩
  · rw [getD_written_lt _ (2 * n) scratch (2 * i) 0 (by omega) (by omega),
      getD_written_lt _ (2 * n) scratch (2 * i + 1) 0 (by omega) (by omega),
      wordByte_even, wordByte_odd, hxe, int16_of_wordBytes _ hr.1 hr.2]
    exact (decode_value _ hr.1 (le_of_lt hr.2)).1
  · rw [getD_written_lt _ (2 * n) scratch (2 * i) 0 (by omega) (by omega),
      getD_written_lt _ (2 * n) scratch (2 * i + 1) 0 (by omega) (by omega),
      wordByte_even, wordByte_odd, hxe, int16_of_wordBytes _ hr.1 hr.2,
      (decode_value _ hr.1 (le_of_lt hr.2)).2.1]
    have herr := truncQ_error (x.toRat * 2 ^ 15)
    have hdiv : (truncQ (x.toRat * 2 ^ 15) : ℚ) / 2 ^ 15 - x.toRat
        = ((truncQ (x.toRat * 2 ^ 15) : ℚ) - x.toRat * 2 ^ 15) / 2 ^ 15 := by
      field_simp
      ring
    rw [hdiv, abs_div, abs_of_pos (by positivity : (0 : ℚ) < 2 ^ 15)]
    apply div_le_div_of_nonneg_right (le_of_lt herr) (by positivity)

theorem C7_round_trip_within_one_step_witness :
    1 ≤ [F32.fin true (3 * 2 ^ 22) (-24)].length ∧ 2 * 1 ≤ [0, 0].length ∧
    1 ≤ [F32.nan].length ∧
    (∀ i x, i < 1 → [F32.fin true (3 * 2 ^ 22) (-24)][i]? = some x →
      F32.WF x ∧ x.isFinite = true ∧ -1 ≤ x.toRat ∧ x.toRat < 1) ∧
    ∃ bytes decoded,
      encode_float_to_16bit [F32.fin true (3 * 2 ^ 22) (-24)] [0, 0] 1 = some bytes ∧
      decode_16bit_pcm_to_float bytes [F32.nan] 1 = some decoded ∧
      decoded.length = [F32.nan].length ∧
      ∀ i, i < 1 → ∃ x y, [F32.fin true (3 * 2 ^ 22) (-24)][i]? = some x ∧
        decoded[i]? = some y ∧ y.isFinite = true ∧ |y.toRat - x.toRat| ≤ 1 / 2 ^ 15 :=
  have hx : ∀ i x, i < 1 → [F32.fin true (3 * 2 ^ 22) (-24)][i]? = some x →
      F32.WF x ∧ x.isFinite = true ∧ -1 ≤ x.toRat ∧ x.toRat < 1 := by
    intro i x hi h
    have h0 : i = 0 := by omega
    subst h0
    simp only [List.getElem?_cons_zero, Option.some.injEq] at h
    subst h
    refine ⟨by decide, rfl, ?_, ?_⟩
    · rw [F32.toRat_fin]; norm_num
    · rw [F32.toRat_fin]; norm_num
  ⟨by decide, by decide, by decide, hx,
    C7_round_trip_within_one_step [F32.fin true (3 * 2 ^ 22) (-24)] [0, 0] [F32.nan] 1
      (by decide) (by decide) (by decide) hx⟩

/-! ## Writer -/

theorem leBytes_four_mod (n : Nat) : leBytes 4 (n % 2 ^ 32) = leBytes 4 n := by
  simp only [leBytes]
  have h1 : n % 2 ^ 32 % 256 = n % 256 := by omega
  have h2 : n % 2 ^ 32 / 256 % 256 = n / 256 % 256 := by omega
  have h3 : n % 2 ^ 32 / 256 / 256 % 256 = n / 256 / 256 % 256 := by omega
  have h4 : n % 2 ^ 32 / 256 / 256 / 256 % 256 = n / 256 / 256 / 256 % 256 := by omega
  rw [h1, h2, h3, h4]

theorem length_headerBytes (format : FmtChunk) (dataSize : Nat) :
    (headerBytes format dataSize).length = 68 := by
  simp [headerBytes, length_leBytes, FmtChunk.length_toBytes_fmtChunk]

/-- A write inside or at the end of the file replaces the bytes at the put position. -/
theorem OfStream.write_eq (s : OfStream) (src : List Nat) (hf : s.failed = false)
    (hp : s.pos ≤ s.content.length) :
    s.write src src.length
      = { content := s.content.take s.pos ++ src ++ s.content.drop (s.pos + src.length),
          pos := s.pos + src.length, failed := false } := by
  obtain ⟨content, pos, failed⟩ := s
  simp only at hf hp
  subst hf
  simp only [OfStream.write, Bool.false_eq_true, if_false, List.take_length,
    Nat.sub_eq_zero_of_le hp, List.replicate_zero, List.append_nil]

/-- Two consecutive writes are one write of the concatenated bytes. -/
theorem OfStream.write_write (s : OfStream) (a b : List Nat) (hf : s.failed = false)
    (hp : s.pos ≤ s.content.length) :
    (s.write a a.length).write b b.length = s.write (a ++ b) (a ++ b).length := by
  rw [OfStream.write_eq s a hf hp, OfStream.write_eq s (a ++ b) hf hp]
  have hl : (s.content.take s.pos).length = s.pos := by
    rw [List.length_take]; omega
  rw [OfStream.write_eq _ b rfl (by simp only [List.length_append, hl]; omega)]
  simp only [List.length_append, OfStream.mk.injEq, and_true]
  refine ⟨?_, by omega⟩
  have h1 : (s.content.take s.pos ++ a ++ s.content.drop (s.pos + a.length)).take
      (s.pos + a.length) = s.content.take s.pos ++ a := by
    apply List.take_left'
    simp only [List.length_append, hl]
  have h2 : (s.content.take s.pos ++ a ++ s.content.drop (s.pos + a.length)).drop
      (s.pos + a.length + b.length) = s.content.drop (s.pos + (a.length + b.length)) := by
    have : s.pos + a.length + b.length = (s.content.take s.pos ++ a).length + b.length := by
      simp only [List.length_append, hl]
    rw [this, List.drop_append, List.drop_drop]
    congr 1
    omega
  rw [h1, h2]
  simp only [List.append_assoc]

theorem OfStream.write_write_len (s : OfStream) (a b : List Nat) (na nb : Nat)
    (ha : a.length = na) (hb : b.length = nb) (hf : s.failed = false)
    (hp : s.pos ≤ s.content.length) :
    (s.write a na).write b nb = s.write (a ++ b) (na + nb) := by
  subst ha hb
  rw [OfStream.write_write s a b hf hp, List.length_append]

/-- The five writes of `write_header` are one write of the 68 header bytes. -/
theorem write_header_eq (self : WavAudioFileOutput) (hf : self.m_audioFile.failed = false)
    (hp : self.m_audioFile.pos ≤ self.m_audioFile.content.length) :
    self.write_header
      = { self with
          m_audioFile :=
            self.m_audioFile.write (headerBytes self.m_formatChunk self.m_audioDataSize) 68 } := by
  obtain ⟨sm, fc, ns, f, ds⟩ := self
  simp only at hf hp
  simp only [WavAudioFileOutput.write_header, sizeofWaveChunk, sizeofChunkInfo, sizeofFmtChunk]
  congr 1
  rw [OfStream.write_write_len f _ _ 8 4 (ChunkInfo.length_toBytes_chunkInfo _)
      (by simp [WaveChunk.toBytes, length_leBytes]) hf hp,
    OfStream.write_write_len f _ _ (8 + 4) 8
      (by simp [WaveChunk.toBytes, ChunkInfo.toBytes, length_leBytes])
      (ChunkInfo.length_toBytes_chunkInfo _) hf hp,
    OfStream.write_write_len f _ _ (8 + 4 + 8) 40
      (by simp [WaveChunk.toBytes, ChunkInfo.toBytes, length_leBytes])
      (FmtChunk.length_toBytes_fmtChunk _) hf hp,
    OfStream.write_write_len f _ _ (8 + 4 + 8 + 40) 8
      (by simp [WaveChunk.toBytes, ChunkInfo.toBytes, length_leBytes, FmtChunk.length_toBytes_fmtChunk])
      (ChunkInfo.length_toBytes_chunkInfo _) hf hp]
  congr 1
  simp only [ChunkInfo.toBytes, WaveChunk.toBytes, headerBytes, leBytes_four_mod,
    List.append_assoc]

theorem open_eq (self : WavAudioFileOutput) (format : FmtChunk) :
    self.open format true
      = { self with
          m_formatChunk := format
          m_audioFile := { content := headerBytes format 0, pos := 68, failed := false }
          m_audioDataSize := 0 } := by
  simp only [WavAudioFileOutput.open, OfStream.openFile, OfStream.good, Bool.not_true,
    Bool.not_false, if_true]
  rw [write_header_eq _ rfl (Nat.le_refl _)]
  simp only
  have h := OfStream.write_eq { content := [], pos := 0, failed := false }
    (headerBytes format 0) rfl (Nat.le_refl _)
  rw [length_headerBytes] at h
  rw [h]
  simp [length_headerBytes]

theorem open_streaming (self : WavAudioFileOutput) (format : FmtChunk) :
    Streaming (self.open format true) format [] := by
  rw [open_eq]
  exact ⟨rfl, by simp, rfl⟩

theorem open_failed (self : WavAudioFileOutput) (format : FmtChunk) :
    self.open format false
      = { self with
          m_formatChunk := format
          m_audioFile := { content := [], pos := 0, failed := true } } := rfl

theorem forLoop_preserves {σ : Type} (P : σ → Prop) (bound step : Nat)
    (body : Nat → σ → Option σ)
    (hbody : ∀ i s s', P s → body i s = some s' → P s') :
    ∀ fuel i s r, P s → forLoop bound step body fuel i s = some r → P r := by
  intro fuel
  induction fuel with
  | zero =>
      intro i s r hs h
      simp only [forLoop] at h
      split_ifs at h
      cases h
      exact hs
  | succ fuel ih =>
      intro i s r hs h
      simp only [forLoop] at h
      split_ifs at h
      · cases hb : body i s with
        | none => rw [hb] at h; cases h
        | some s' =>
            rw [hb] at h
            exact ih _ s' r (hbody i s s' hs hb) h
      · cases h
        exact hs

theorem length_store {α : Type} (buf : List α) (k : Nat) (v : α) (r : List α)
    (h : store buf k v = some r) : r.length = buf.length := by
  unfold store at h
  split_ifs at h
  cases h
  simp

theorem length_store16 (buf : List Nat) (i u : Nat) (r : List Nat)
    (h : store16 buf i u = some r) : r.length = buf.length := by
  unfold store16 at h
  cases h1 : store buf (2 * i) (u % 256) with
  | none => rw [h1] at h; cases h
  | some b =>
      rw [h1] at h
      simp only [Option.some_bind] at h
      rw [length_store _ _ _ _ h, length_store _ _ _ _ h1]

theorem length_encode_float_to_16bit (inBuffer : List F32) (outBuffer : List Nat) (n : Nat)
    (r : List Nat) (h : encode_float_to_16bit inBuffer outBuffer n = some r) :
    r.length = outBuffer.length := by
  refine forLoop_preserves (fun s => s.length = outBuffer.length) _ _ _ ?_ _ _ _ r rfl h
  intro i s s' hs hb
  cases hx : inBuffer[i]? with
  | none => simp [hx] at hb
  | some x =>
      cases hu : F32.toUInt16 (x * kfCoefEncode) with
      | none => simp [hx, hu] at hb
      | some u =>
          simp only [hx, hu, Option.some_bind] at hb
          rw [length_store16 _ _ _ _ hb, hs]

theorem length_encode_16bit_to_16bit (inBuffer : List Int) (outBuffer : List Nat) (n : Nat)
    (r : List Nat) (h : encode_16bit_to_16bit inBuffer outBuffer n = some r) :
    r.length = outBuffer.length := by
  refine forLoop_preserves (fun s => s.length = outBuffer.length) _ _ _ ?_ _ _ _ r rfl h
  intro i s s' hs hb
  cases hx : inBuffer[i]? with
  | none => simp [hx] at hb
  | some x =>
      simp only [hx, Option.some_bind] at hb
      rw [length_store16 _ _ _ _ hb, hs]

theorem length_allocate_scratch_memory (m : List Nat) (size : Nat) :
    (allocate_scratch_memory m size).length = max m.length size := by
  unfold allocate_scratch_memory
  split_ifs with h
  · simp only [List.length_append, List.length_replicate]; omega
  · omega

theorem OfStream.write_end (s : OfStream) (src : List Nat) (n : Nat) (hf : s.failed = false)
    (hp : s.pos = s.content.length) :
    s.write src n = { content := s.content ++ src.take n, pos := s.pos + n, failed := false } := by
  obtain ⟨content, pos, failed⟩ := s
  simp only at hf hp
  subst hf hp
  simp [OfStream.write]

/-- What a write does to the stream of a streaming writer, given the encoded scratch. -/
theorem streaming_step (w : WavAudioFileOutput) (format : FmtChunk) (audio scratch : List Nat)
    (bytes n : Nat) (h : Streaming w format audio) (hs : bytes ≤ scratch.length) :
    Streaming
      { m_scratchMemory := scratch, m_formatChunk := w.m_formatChunk,
        m_samples := (w.m_samples + n) % 2 ^ 32,
        m_audioFile := w.m_audioFile.write scratch bytes,
        m_audioDataSize := (w.m_audioDataSize + bytes) % 2 ^ 32 }
      format (audio ++ scratch.take bytes) ∧ (scratch.take bytes).length = bytes := by
  obtain ⟨h1, h2, h3⟩ := h
  have hl : (scratch.take bytes).length = bytes := by
    rw [List.length_take]; omega
  refine ⟨⟨h1, ?_, ?_⟩, hl⟩
  · simp only
    rw [h2, OfStream.write_end _ _ _ rfl (by simp [length_headerBytes])]
    simp only [List.append_assoc, List.length_append, hl, OfStream.mk.injEq, true_and, and_true]
    omega
  · simp only [h3, List.length_append, hl]
    omega

/-- A defined `write` on a streaming writer appends `numSamples * bitsPerSample / 8` bytes
(the product taken modulo `2^32`) and keeps the writer streaming. -/
theorem write_streaming (w w' : WavAudioFileOutput) (format : FmtChunk) (audio : List Nat)
    (buffer : List F32) (n : Nat) (h : Streaming w format audio)
    (hw : w.write buffer n = some w') :
    ∃ chunk, chunk.length = n * format.m_bitsPerSample % 2 ^ 32 / 8 ∧
      Streaming w' format (audio ++ chunk) ∧ w'.m_samples = (w.m_samples + n) % 2 ^ 32 := by
  simp only [WavAudioFileOutput.write, -Nat.reducePow] at hw
  cases hsm : scratch_memory (allocate_scratch_memory w.m_scratchMemory
      (n * w.m_formatChunk.m_bitsPerSample % 2 ^ 32 / 8)) with
  | none => simp [hsm, -Nat.reducePow] at hw
  | some sc =>
      have hsc : sc = allocate_scratch_memory w.m_scratchMemory
          (n * w.m_formatChunk.m_bitsPerSample % 2 ^ 32 / 8) := by
        unfold scratch_memory at hsm
        split_ifs at hsm
        cases hsm; rfl
      cases henc : encode_float_to_16bit buffer sc n with
      | none => simp [hsm, henc, -Nat.reducePow] at hw
      | some sc' =>
          simp only [hsm, henc, Option.some_bind, Option.map_some', Option.some.injEq, -Nat.reducePow] at hw
          have hlen : n * w.m_formatChunk.m_bitsPerSample % 2 ^ 32 / 8 ≤ sc'.length := by
            rw [length_encode_float_to_16bit _ _ _ _ henc, hsc,
              length_allocate_scratch_memory]
            omega
          have := streaming_step w format audio sc' _ n h hlen
          rw [hw] at this
          refine ⟨_, ?_, this.1, by rw [← hw]⟩
          rw [this.2, h.1]

/-- A defined `write16` on a streaming writer appends `numSamples * bitsPerSample / 8`
bytes and keeps the writer streaming. -/
theorem write16_streaming (w w' : WavAudioFileOutput) (format : FmtChunk) (audio : List Nat)
    (buffer : List Int) (n : Nat) (h : Streaming w format audio)
    (hw : w.write16 buffer n = some w') :
    ∃ chunk, chunk.length = n * format.m_bitsPerSample % 2 ^ 32 / 8 ∧
      Streaming w' format (audio ++ chunk) ∧ w'.m_samples = (w.m_samples + n) % 2 ^ 32 := by
  simp only [WavAudioFileOutput.write16, -Nat.reducePow] at hw
  cases hsm : scratch_memory (allocate_scratch_memory w.m_scratchMemory
      (n * w.m_formatChunk.m_bitsPerSample % 2 ^ 32 / 8)) with
  | none => simp [hsm, -Nat.reducePow] at hw
  | some sc =>
      have hsc : sc = allocate_scratch_memory w.m_scratchMemory
          (n * w.m_formatChunk.m_bitsPerSample % 2 ^ 32 / 8) := by
        unfold scratch_memory at hsm
        split_ifs at hsm
        cases hsm; rfl
      cases henc : encode_16bit_to_16bit buffer sc n with
      | none => simp [hsm, henc, -Nat.reducePow] at hw
      | some sc' =>
          simp only [hsm, henc, Option.some_bind, Option.map_some', Option.some.injEq, -Nat.reducePow] at hw
          have hlen : n * w.m_formatChunk.m_bitsPerSample % 2 ^ 32 / 8 ≤ sc'.length := by
            rw [length_encode_16bit_to_16bit _ _ _ _ henc, hsc,
              length_allocate_scratch_memory]
            omega
          have := streaming_step w format audio sc' _ n h hlen
          rw [hw] at this
          refine ⟨_, ?_, this.1, by rw [← hw]⟩
          rw [this.2, h.1]

theorem call_streaming (w w' : WavAudioFileOutput) (format : FmtChunk) (audio : List Nat)
    (c : WriteCall) (h : Streaming w format audio) (hw : w.call c = some w') :
    ∃ chunk, chunk.length = c.numSamples * format.m_bitsPerSample % 2 ^ 32 / 8 ∧
      Streaming w' format (audio ++ chunk) ∧
      w'.m_samples = (w.m_samples + c.numSamples) % 2 ^ 32 := by
  cases c with
  | write buffer n => exact write_streaming w w' format audio buffer n h hw
  | write16 buffer n => exact write16_streaming w w' format audio buffer n h hw

/-- A valid call on a writer whose format has at least 16 bits per sample is defined. -/
theorem call_defined (w : WavAudioFileOutput) (c : WriteCall)
    (h16 : 16 ≤ w.m_formatChunk.m_bitsPerSample) (hv : c.valid w.m_formatChunk.m_bitsPerSample) :
    ∃ w', w.call c = some w' := by
  cases c with
  | write buffer n =>
      obtain ⟨h0, hb, hB, hx⟩ := hv
      have hbytes : n * w.m_formatChunk.m_bitsPerSample % 2 ^ 32 / 8
          = n * w.m_formatChunk.m_bitsPerSample / 8 := by rw [Nat.mod_eq_of_lt hB]
      have h2n : 2 * n ≤ n * w.m_formatChunk.m_bitsPerSample / 8 := by
        have : n * 16 ≤ n * w.m_formatChunk.m_bitsPerSample := Nat.mul_le_mul_left n h16
        omega
      have hlen := length_allocate_scratch_memory w.m_scratchMemory
        (n * w.m_formatChunk.m_bitsPerSample / 8)
      have hsm : scratch_memory (allocate_scratch_memory w.m_scratchMemory
          (n * w.m_formatChunk.m_bitsPerSample / 8))
          = some (allocate_scratch_memory w.m_scratchMemory
            (n * w.m_formatChunk.m_bitsPerSample / 8)) := by
        unfold scratch_memory
        rw [if_neg (by omega)]
      have henc := encode_float_to_16bit_spec buffer (allocate_scratch_memory w.m_scratchMemory
        (n * w.m_formatChunk.m_bitsPerSample / 8)) n hb (by omega) hx
      simp only [WavAudioFileOutput.call, WavAudioFileOutput.write, hbytes, hsm, henc,
        Option.some_bind, Option.map_some']
      exact ⟨_, rfl⟩
  | write16 buffer n =>
      obtain ⟨h0, hb, hB⟩ := hv
      have hbytes : n * w.m_formatChunk.m_bitsPerSample % 2 ^ 32 / 8
          = n * w.m_formatChunk.m_bitsPerSample / 8 := by rw [Nat.mod_eq_of_lt hB]
      have h2n : 2 * n ≤ n * w.m_formatChunk.m_bitsPerSample / 8 := by
        have : n * 16 ≤ n * w.m_formatChunk.m_bitsPerSample := Nat.mul_le_mul_left n h16
        omega
      have hlen := length_allocate_scratch_memory w.m_scratchMemory
        (n * w.m_formatChunk.m_bitsPerSample / 8)
      have hsm : scratch_memory (allocate_scratch_memory w.m_scratchMemory
          (n * w.m_formatChunk.m_bitsPerSample / 8))
          = some (allocate_scratch_memory w.m_scratchMemory
            (n * w.m_formatChunk.m_bitsPerSample / 8)) := by
        unfold scratch_memory
        rw [if_neg (by omega)]
      have henc := encode_16bit_to_16bit_eq buffer (allocate_scratch_memory w.m_scratchMemory
        (n * w.m_formatChunk.m_bitsPerSample / 8)) n hb (by omega)
      simp only [WavAudioFileOutput.call, WavAudioFileOutput.write16, hbytes, hsm, henc,
        Option.some_bind, Option.map_some']
      exact ⟨_, rfl⟩

/-- A sequence of valid calls on a streaming writer whose format has at least 16 bits per
sample is carried out in full: the writer stays streaming, the file grows by the total of
the byte counts `numSamples * bitsPerSample / 8`, and the sample counter by the total of
the sample counts (modulo `2^32`). -/
theorem calls_spec (format : FmtChunk) (h16 : 16 ≤ format.m_bitsPerSample) :
    ∀ (cs : List WriteCall) (w : WavAudioFileOutput) (audio : List Nat),
      Streaming w format audio → (∀ c ∈ cs, c.valid format.m_bitsPerSample) →
      ∃ w' audio', w.calls cs = some w' ∧
        audio'.length = totalBytes format.m_bitsPerSample cs ∧
        Streaming w' format (audio ++ audio') ∧
        w'.m_samples % 2 ^ 32 = (w.m_samples + totalSamples cs) % 2 ^ 32 := by
  intro cs
  induction cs with
  | nil =>
      intro w audio h _
      refine ⟨w, [], rfl, rfl, by simpa using h, ?_⟩
      simp only [totalSamples, List.map_nil, List.sum_nil, Nat.add_zero]
  | cons c cs ih =>
      intro w audio h hv
      have hvc := hv c (List.mem_cons_self _ _)
      obtain ⟨w1, hw1⟩ := call_defined w c (by rw [h.1]; exact h16) (by rw [h.1]; exact hvc)
      obtain ⟨chunk, hc1, hc2, hc3⟩ := call_streaming w w1 format audio c h hw1
      obtain ⟨w', audio', e1, e2, e3, e4⟩ := ih w1 (audio ++ chunk) hc2
        (fun c' hc' => hv c' (List.mem_cons_of_mem _ hc'))
      have hlt : c.numSamples * format.m_bitsPerSample < 2 ^ 32 := by
        cases c with
        | write buffer n => exact hvc.2.2.1
        | write16 buffer n => exact hvc.2.2
      refine ⟨w', chunk ++ audio', ?_, ?_, ?_, ?_⟩
      · simp only [WavAudioFileOutput.calls, hw1, Option.some_bind, e1]
      · simp only [List.length_append, hc1, e2, totalBytes, List.map_cons, List.sum_cons,
          Nat.mod_eq_of_lt hlt]
      · rw [← List.append_assoc]; exact e3
      · rw [e4, hc3]
        simp only [totalSamples, List.map_cons, List.sum_cons]
        omega

theorem OfStream.write_header_bytes (c : List Nat) (p : Nat) (fc : FmtChunk) (ds : Nat)
    (hp : p ≤ c.length) :
    OfStream.write ⟨c, p, false⟩ (headerBytes fc ds) 68
      = ⟨c.take p ++ headerBytes fc ds ++ c.drop (p + 68), p + 68, false⟩ := by
  have hw := OfStream.write_eq ⟨c, p, false⟩ (headerBytes fc ds) rfl hp
  rw [length_headerBytes] at hw
  exact hw

theorem write_header_mk (sm : List Nat) (fc : FmtChunk) (ns ds : Nat) (c : List Nat) (p : Nat)
    (hp : p ≤ c.length) :
    WavAudioFileOutput.write_header ⟨sm, fc, ns, ⟨c, p, false⟩, ds⟩
      = ⟨sm, fc, ns, ⟨c.take p ++ headerBytes fc ds ++ c.drop (p + 68), p + 68, false⟩, ds⟩ := by
  rw [write_header_eq _ rfl hp]
  show WavAudioFileOutput.mk sm fc ns (OfStream.write ⟨c, p, false⟩ (headerBytes fc ds) 68) ds = _
  rw [OfStream.write_header_bytes c p fc ds hp]

theorem close_mk (sm : List Nat) (fc : FmtChunk) (ns ds : Nat) (c : List Nat) (p : Nat) :
    WavAudioFileOutput.close ⟨sm, fc, ns, ⟨c, p, false⟩, ds⟩
      = WavAudioFileOutput.write_header ⟨sm, fc, ns, ⟨c, 0, false⟩, ds⟩ := rfl

/-- On a streaming writer `close` replaces the 68 header bytes by the header for the
running data size and changes nothing else of the file. -/
theorem close_streaming (w : WavAudioFileOutput) (format : FmtChunk) (audio : List Nat)
    (h : Streaming w format audio) :
    w.close = { w with
      m_audioFile :=
        { content := headerBytes format w.m_audioDataSize ++ audio, pos := 68, failed := false } } := by
  obtain ⟨sm, fc, ns, f, ds⟩ := w
  obtain ⟨h1, h2, h3⟩ := h
  simp only at h1 h2 h3
  subst h1 h2
  rw [close_mk, write_header_mk sm fc ns ds _ 0 (Nat.zero_le _)]
  rw [List.take_zero, List.nil_append, Nat.zero_add, List.drop_left' (length_headerBytes fc 0)]

theorem headerBytes_dataSize (format : FmtChunk) (dataSize : Nat) (rest : List Nat) :
    ((headerBytes format dataSize ++ rest).drop 64).take 4 = leBytes 4 dataSize := by
  have h : headerBytes format dataSize
      = (leBytes 4 kRiff ++ leBytes 4 (4 + 8 + 40 + 8 + dataSize) ++ leBytes 4 kWave
        ++ leBytes 4 kFmt ++ leBytes 4 40 ++ format.toBytes ++ leBytes 4 kData)
        ++ leBytes 4 dataSize := rfl
  rw [h, List.append_assoc,
    List.drop_left' (by simp [length_leBytes, FmtChunk.length_toBytes_fmtChunk]),
    List.take_left' (length_leBytes 4 dataSize)]

theorem headerBytes_riffSize (format : FmtChunk) (dataSize : Nat) (rest : List Nat) :
    ((headerBytes format dataSize ++ rest).drop 4).take 4
      = leBytes 4 (4 + 8 + 40 + 8 + dataSize) := by
  have h : headerBytes format dataSize ++ rest
      = leBytes 4 kRiff ++ (leBytes 4 (4 + 8 + 40 + 8 + dataSize) ++ (leBytes 4 kWave
        ++ leBytes 4 kFmt ++ leBytes 4 40 ++ format.toBytes ++ leBytes 4 kData
        ++ leBytes 4 dataSize ++ rest)) := by
    simp only [headerBytes, List.append_assoc]
  rw [h, List.drop_left' (length_leBytes 4 kRiff),
    List.take_left' (length_leBytes 4 _)]

/-- C12 (as the claim states it, refuted). When the stream cannot be opened, `open` stores
the format and returns normally behind its `good()` guard: the running data-size counter
keeps the value it had (here 7, the member is not initialised by the constructor) and no
header is written. -/
theorem C12_open_on_unopenable_stream_writes_no_header :
    ((WavAudioFileOutput.constructed 7).open (make_format 2 48000) false).m_audioDataSize = 7 ∧
    ((WavAudioFileOutput.constructed 7).open (make_format 2 48000) false).m_audioFile.content
      = [] ∧
    ((WavAudioFileOutput.constructed 7).open (make_format 2 48000) false).m_audioFile.failed
      = true ∧
    ((WavAudioFileOutput.constructed 7).open (make_format 2 48000) false).m_formatChunk
      = make_format 2 48000 := by
  decide

/-- C12 (amended). For every format, immediately after `WavAudioFileOutput::open` on a
stream that opens, the running data-size counter is 0, the format is stored, and the file consists of
exactly one header of 68 bytes: `RIFF`, the size `4 + 8 + sizeof(FmtChunk) + 8 + 0`,
`WAVE`, `fmt `, the size `sizeof(FmtChunk)`, the 40 bytes of the format, `data` and the
size 0, the sizes as 4 little-endian bytes, with no padding. -/
theorem C12_open_writes_one_full_header (self : WavAudioFileOutput) (format : FmtChunk) :
    (self.open format true).m_audioDataSize = 0 ∧
    (self.open format true).m_formatChunk = format ∧
    (self.open format true).m_audioFile.content
      = [0x52, 0x49, 0x46, 0x46] ++ leBytes 4 (4 + 8 + sizeofFmtChunk + 8 + 0)
        ++ [0x57, 0x41, 0x56, 0x45]
        ++ [0x66, 0x6D, 0x74, 0x20] ++ leBytes 4 sizeofFmtChunk ++ format.toBytes
        ++ [0x64, 0x61, 0x74, 0x61] ++ leBytes 4 0 ∧
    format.toBytes.length = sizeofFmtChunk ∧
    (self.open format true).m_audioFile.content.length = 68 ∧
    (self.open format true).m_audioFile.pos = 68 ∧
    (self.open format true).m_audioFile.failed = false := by
  rw [open_eq]
  refine ⟨rfl, rfl, ?_, FmtChunk.length_toBytes_fmtChunk format, length_headerBytes format 0, rfl, rfl⟩
  have h1 : leBytes 4 kRiff = [0x52, 0x49, 0x46, 0x46] := by decide
  have h2 : leBytes 4 kWave = [0x57, 0x41, 0x56, 0x45] := by decide
  have h3 : leBytes 4 kFmt = [0x66, 0x6D, 0x74, 0x20] := by decide
  have h4 : leBytes 4 kData = [0x64, 0x61, 0x74, 0x61] := by decide
  show headerBytes format 0 = _
  rw [headerBytes, h1, h2, h3, h4]
  rfl

theorem totalBytes_eq (bits : Nat) (h8 : 8 ∣ bits) (cs : List WriteCall) :
    totalBytes bits cs = totalSamples cs * bits / 8 := by
  obtain ⟨k, rfl⟩ := h8
  have e : ∀ n : Nat, n * (8 * k) / 8 = n * k := by
    intro n
    rw [Nat.mul_left_comm, Nat.mul_div_cancel_left _ (by omega : 0 < 8)]
  rw [e]
  induction cs with
  | nil => simp [totalBytes, totalSamples]
  | cons c cs ih =>
      simp only [totalBytes, totalSamples, List.map_cons, List.sum_cons] at ih ⊢
      rw [ih, e, Nat.add_mul]

/-- C6 (as the claim states it, refuted). For the stereo 16-bit format, one `write16` of
3 samples followed by `close` leaves a header that declares a data size of `3 * 16 / 8 = 6`
and a RIFF size of `4 + 8 + 40 + 8 + 6 = 66`, not `3 * 2 * 16 / 8 = 12` and `72`. -/
theorem C6_data_size_not_scaled_by_channels :
    (make_format 2 48000).m_channels = 2 ∧ (make_format 2 48000).m_bitsPerSample = 16 ∧
    (((WavAudioFileOutput.constructed 0).open (make_format 2 48000) true).calls
        [WriteCall.write16 [1, -2, 3] 3]).map
      (fun w => (leValue ((w.close.m_audioFile.content.drop 4).take 4),
        leValue ((w.close.m_audioFile.content.drop 64).take 4)))
      = some (4 + 8 + 40 + 8 + 3 * 16 / 8, 3 * 16 / 8) ∧
    3 * 16 / 8 ≠ 3 * 2 * 16 / 8 := by
  decide

/-- C6 (amended). For every output format whose `B` bits per sample are a multiple of 8
and at least 16, on a stream that opens, and every sequence of `write`/`write16` calls
after `open` that are valid (`WriteCall.valid`: at least one sample, a buffer that holds
the samples, `sampleCount * B < 2^32` for each call, finite floats below `2^16` in
magnitude) and whose `sampleCount` arguments total `K` (with
`4 + 8 + 40 + 8 + K*B/8 < 2^32`), the calls are carried out and the header that `close`
writes declares a RIFF chunk size of `4 + 8 + fmtSize + 8 + K*B/8` and a data chunk size
of `K*B/8`, where `fmtSize = 40` is the size of the serialized `FmtChunk`. `K` counts
interleaved samples: when the calls carry `F` frames of `C` channels, `K = F*C` and the
data chunk size is `F*C*B/8`. -/
theorem C6_header_declares_written_sizes (self : WavAudioFileOutput) (format : FmtChunk)
    (cs : List WriteCall)
    (h16 : 16 ≤ format.m_bitsPerSample) (h8 : 8 ∣ format.m_bitsPerSample)
    (hv : ∀ c ∈ cs, c.valid format.m_bitsPerSample)
    (hK : 4 + 8 + 40 + 8 + totalSamples cs * format.m_bitsPerSample / 8 < 2 ^ 32) :
    ∃ w, (self.open format true).calls cs = some w ∧
      format.toBytes.length = sizeofFmtChunk ∧
      leValue ((w.close.m_audioFile.content.drop 4).take 4)
        = 4 + 8 + sizeofFmtChunk + 8 + totalSamples cs * format.m_bitsPerSample / 8 ∧
      leValue ((w.close.m_audioFile.content.drop 64).take 4)
        = totalSamples cs * format.m_bitsPerSample / 8 ∧
      w.close.m_audioFile.content.length
        = 68 + totalSamples cs * format.m_bitsPerSample / 8 ∧
      ∀ F, totalSamples cs = F * format.m_channels →
        leValue ((w.close.m_audioFile.content.drop 4).take 4)
          = 4 + 8 + sizeofFmtChunk + 8 + F * format.m_channels * format.m_bitsPerSample / 8 ∧
        leValue ((w.close.m_audioFile.content.drop 64).take 4)
          = F * format.m_channels * format.m_bitsPerSample / 8 := by
  obtain ⟨w, audio, e1, e2, e3, _⟩ :=
    calls_spec format h16 cs _ [] (open_streaming self format) hv
  rw [List.nil_append] at e3
  rw [totalBytes_eq _ h8] at e2
  have key : leValue ((w.close.m_audioFile.content.drop 4).take 4)
        = 4 + 8 + sizeofFmtChunk + 8 + totalSamples cs * format.m_bitsPerSample / 8 ∧
      leValue ((w.close.m_audioFile.content.drop 64).take 4)
        = totalSamples cs * format.m_bitsPerSample / 8 ∧
      w.close.m_audioFile.content.length
        = 68 + totalSamples cs * format.m_bitsPerSample / 8 := by
    refine ⟨?_, ?_, ?_⟩
    · rw [close_streaming w format audio e3]
      show leValue (((headerBytes format w.m_audioDataSize ++ audio).drop 4).take 4) = _
      rw [headerBytes_riffSize, leValue_leBytes, e3.2.2, e2, sizeofFmtChunk]
      have h1 : totalSamples cs * format.m_bitsPerSample / 8 % 2 ^ 32
          = totalSamples cs * format.m_bitsPerSample / 8 := Nat.mod_eq_of_lt (by omega)
      rw [h1]
      exact Nat.mod_eq_of_lt (by norm_num at hK ⊢; omega)
    · rw [close_streaming w format audio e3]
      show leValue (((headerBytes format w.m_audioDataSize ++ audio).drop 64).take 4) = _
      rw [headerBytes_dataSize, leValue_leBytes, e3.2.2, e2]
      have h1 : totalSamples cs * format.m_bitsPerSample / 8 % 2 ^ 32
          = totalSamples cs * format.m_bitsPerSample / 8 := Nat.mod_eq_of_lt (by omega)
      rw [h1]
      exact Nat.mod_eq_of_lt (by norm_num at hK ⊢; omega)
    · rw [close_streaming w format audio e3]
      show (headerBytes format w.m_audioDataSize ++ audio).length = _
      rw [List.length_append, length_headerBytes, e2]
  exact ⟨w, e1, FmtChunk.length_toBytes_fmtChunk format, key.1, key.2.1, key.2.2,
    fun F hF => by rw [← hF]; exact ⟨key.1, key.2.1⟩⟩

theorem C6_header_declares_written_sizes_witness :
    16 ≤ (make_format 2 48000).m_bitsPerSample ∧ 8 ∣ (make_format 2 48000).m_bitsPerSample ∧
    (∀ c ∈ [WriteCall.write16 [1, -2, 3] 3, WriteCall.write16 [4] 1],
      c.valid (make_format 2 48000).m_bitsPerSample) ∧
    4 + 8 + 40 + 8 + totalSamples [WriteCall.write16 [1, -2, 3] 3, WriteCall.write16 [4] 1]
      * (make_format 2 48000).m_bitsPerSample / 8 < 2 ^ 32 ∧
    ∃ w, ((WavAudioFileOutput.constructed 0).open (make_format 2 48000) true).calls
        [WriteCall.write16 [1, -2, 3] 3, WriteCall.write16 [4] 1] = some w ∧
      (make_format 2 48000).toBytes.length = sizeofFmtChunk ∧
      leValue ((w.close.m_audioFile.content.drop 4).take 4)
        = 4 + 8 + sizeofFmtChunk + 8
          + totalSamples [WriteCall.write16 [1, -2, 3] 3, WriteCall.write16 [4] 1]
            * (make_format 2 48000).m_bitsPerSample / 8 ∧
      leValue ((w.close.m_audioFile.content.drop 64).take 4)
        = totalSamples [WriteCall.write16 [1, -2, 3] 3, WriteCall.write16 [4] 1]
          * (make_format 2 48000).m_bitsPerSample / 8 ∧
      w.close.m_audioFile.content.length
        = 68 + totalSamples [WriteCall.write16 [1, -2, 3] 3, WriteCall.write16 [4] 1]
          * (make_format 2 48000).m_bitsPerSample / 8 ∧
      ∀ F, totalSamples [WriteCall.write16 [1, -2, 3] 3, WriteCall.write16 [4] 1]
          = F * (make_format 2 48000).m_channels →
        leValue ((w.close.m_audioFile.content.drop 4).take 4)
          = 4 + 8 + sizeofFmtChunk + 8
            + F * (make_format 2 48000).m_channels * (make_format 2 48000).m_bitsPerSample / 8 ∧
        leValue ((w.close.m_audioFile.content.drop 64).take 4)
          = F * (make_format 2 48000).m_channels * (make_format 2 48000).m_bitsPerSample / 8 :=
  have hv : ∀ c ∈ [WriteCall.write16 [1, -2, 3] 3, WriteCall.write16 [4] 1],
      c.valid (make_format 2 48000).m_bitsPerSample := by
    intro c hc
    simp only [List.mem_cons, List.mem_singleton, List.not_mem_nil, or_false] at hc
    rcases hc with rfl | rfl
    · exact ⟨by decide, by decide, by decide⟩
    · exact ⟨by decide, by decide, by decide⟩
  ⟨by decide, by decide, hv, by decide,
    C6_header_declares_written_sizes (WavAudioFileOutput.constructed 0) (make_format 2 48000)
      [WriteCall.write16 [1, -2, 3] 3, WriteCall.write16 [4] 1] (by decide) (by decide) hv
      (by decide)⟩

/-- C18 (as the claim states it, refuted). When the stream cannot be opened, `open`
returns without a header, and a `write16` of 2 samples then raises the byte counter by 4
and the sample counter by 2 while nothing is appended to the file; and for a format of
8 bits per sample a `write` of one sample is no defined state at all, the encoder storing
2 bytes into a scratch memory of 1 byte. -/
theorem C18_counters_grow_without_bytes_written :
    (((WavAudioFileOutput.constructed 0).open (make_format 2 48000) false).write16 [1, -2] 2).map
      (fun w => (w.m_audioFile.content, w.m_audioDataSize, w.m_samples))
      = some ([], 4, 2) ∧
    ((WavAudioFileOutput.constructed 0).open
        { make_format 1 48000 with m_bitsPerSample := 8 } true).write [F32.zero] 1 = none := by
  decide

/-- C18 (amended). For a format of at least 16 bits per sample on a stream that opened,
every sequence of valid calls (at least one sample each, a buffer holding the samples,
`sampleCount * bitsPerSample < 2^32`, finite floats below `2^16` in magnitude) is carried
out, and in the state reached the put position is the end of the file and
`m_audioDataSize` equals the number of audio bytes after the 68-byte header modulo `2^32`;
a further valid call appends exactly `sampleCount * bitsPerSample / 8` bytes at the end of
the file, keeps that equality, and raises the sample counter by `sampleCount`
modulo `2^32`. -/
theorem C18_counters_track_written_audio (self : WavAudioFileOutput) (format : FmtChunk)
    (cs : List WriteCall) (c : WriteCall)
    (h16 : 16 ≤ format.m_bitsPerSample)
    (hv : ∀ c' ∈ cs, c'.valid format.m_bitsPerSample) (hc : c.valid format.m_bitsPerSample) :
    ∃ w w', (self.open format true).calls cs = some w ∧ w.call c = some w' ∧
      68 ≤ w.m_audioFile.content.length ∧
      w.m_audioFile.content.length - 68 = totalBytes format.m_bitsPerSample cs ∧
      w.m_audioDataSize = (w.m_audioFile.content.length - 68) % 2 ^ 32 ∧
      w.m_audioFile.pos = w.m_audioFile.content.length ∧
      (∃ chunk, chunk.length = c.numSamples * format.m_bitsPerSample / 8 ∧
        w'.m_audioFile.content = w.m_audioFile.content ++ chunk) ∧
      w'.m_audioDataSize = (w'.m_audioFile.content.length - 68) % 2 ^ 32 ∧
      w'.m_samples = (w.m_samples + c.numSamples) % 2 ^ 32 := by
  obtain ⟨w, audio, e1, e2, e3, _⟩ :=
    calls_spec format h16 cs _ [] (open_streaming self format) hv
  rw [List.nil_append] at e3
  obtain ⟨w', hw'⟩ := call_defined w c (by rw [e3.1]; exact h16) (by rw [e3.1]; exact hc)
  obtain ⟨chunk, c1, c2, c3⟩ := call_streaming w w' format audio c e3 hw'
  have hlt : c.numSamples * format.m_bitsPerSample < 2 ^ 32 := by
    cases c with
    | write buffer n => exact hc.2.2.1
    | write16 buffer n => exact hc.2.2
  rw [Nat.mod_eq_of_lt hlt] at c1
  obtain ⟨_, a2, a3⟩ := e3
  obtain ⟨_, b2, b3⟩ := c2
  refine ⟨w, w', e1, hw', ?_, ?_, ?_, ?_, ⟨chunk, c1, ?_⟩, ?_, c3⟩
  · rw [a2]; simp [length_headerBytes]
  · rw [a2]; simp [length_headerBytes, e2]
  · rw [a3, a2]; simp [length_headerBytes]
  · rw [a2]; simp [length_headerBytes]
  · rw [a2, b2]; simp
  · rw [b3, b2]; simp [length_headerBytes]

theorem C18_counters_track_written_audio_witness :
    16 ≤ (make_format 2 48000).m_bitsPerSample ∧
    (∀ c' ∈ [WriteCall.write16 [1, -2, 3] 3],
      c'.valid (make_format 2 48000).m_bitsPerSample) ∧
    (WriteCall.write16 [4, 5] 2).valid (make_format 2 48000).m_bitsPerSample ∧
    ∃ w w', ((WavAudioFileOutput.constructed 0).open (make_format 2 48000) true).calls
        [WriteCall.write16 [1, -2, 3] 3] = some w ∧
      w.call (WriteCall.write16 [4, 5] 2) = some w' ∧
      68 ≤ w.m_audioFile.content.length ∧
      w.m_audioFile.content.length - 68
        = totalBytes (make_format 2 48000).m_bitsPerSample [WriteCall.write16 [1, -2, 3] 3] ∧
      w.m_audioDataSize = (w.m_audioFile.content.length - 68) % 2 ^ 32 ∧
      w.m_audioFile.pos = w.m_audioFile.content.length ∧
      (∃ chunk, chunk.length
          = (WriteCall.write16 [4, 5] 2).numSamples * (make_format 2 48000).m_bitsPerSample / 8 ∧
        w'.m_audioFile.content = w.m_audioFile.content ++ chunk) ∧
      w'.m_audioDataSize = (w'.m_audioFile.content.length - 68) % 2 ^ 32 ∧
      w'.m_samples = (w.m_samples + (WriteCall.write16 [4, 5] 2).numSamples) % 2 ^ 32 :=
  have hv : ∀ c' ∈ [WriteCall.write16 [1, -2, 3] 3],
      c'.valid (make_format 2 48000).m_bitsPerSample := by
    intro c hc
    simp only [List.mem_singleton] at hc
    subst hc
    exact ⟨by decide, by decide, by decide⟩
  have hc : (WriteCall.write16 [4, 5] 2).valid (make_format 2 48000).m_bitsPerSample :=
    ⟨by decide, by decide, by decide⟩
  ⟨by decide, hv, hc,
    C18_counters_track_written_audio (WavAudioFileOutput.constructed 0) (make_format 2 48000)
      [WriteCall.write16 [1, -2, 3] 3] (WriteCall.write16 [4, 5] 2) (by decide) hv hc⟩

/-! ## Reader -/

theorem written_congr {α : Type} (g g' : Nat → α) (k : Nat) (out : List α)
    (h : ∀ i, i < k → g i = g' i) : written g k out = written g' k out := by
  apply List.ext_getElem?
  intro j
  rw [getElem?_written, getElem?_written]
  cases out[j]? with
  | none => rfl
  | some o =>
      simp only [Option.map_some']
      by_cases hj : j < k
      · rw [if_pos hj, if_pos hj, h j hj]
      · rw [if_neg hj, if_neg hj]

theorem getD_append_left (a b : List Nat) (i : Nat) (h : i < a.length) :
    (a ++ b).getD i 0 = a.getD i 0 := by
  rw [List.getD_eq_getElem?_getD, List.getD_eq_getElem?_getD, List.getElem?_append_left h]

/-- The float decoder reads only the first `2 * n` bytes of its input. -/
theorem decode_16bit_pcm_to_float_reads_first (a rest : List Nat) (out : List F32) (n : Nat)
    (ha : a.length = 2 * n) (hout : n ≤ out.length) :
    decode_16bit_pcm_to_float (a ++ rest) out n = decode_16bit_pcm_to_float a out n := by
  rw [decode_16bit_pcm_to_float_eq (a ++ rest) out n (by simp; omega) hout,
    decode_16bit_pcm_to_float_eq a out n (by omega) hout]
  congr 1
  apply written_congr
  intro i hi
  rw [getD_append_left a rest (2 * i) (by omega), getD_append_left a rest (2 * i + 1) (by omega)]

/-- The 16-bit decoder reads only the first `2 * n` bytes of its input. -/
theorem decode_16bit_pcm_to_16bit_reads_first (a rest : List Nat) (out : List Int) (n : Nat)
    (ha : a.length = 2 * n) (hout : n ≤ out.length) :
    decode_16bit_pcm_to_16bit (a ++ rest) out n = decode_16bit_pcm_to_16bit a out n := by
  rw [decode_16bit_pcm_to_16bit_eq (a ++ rest) out n (by simp; omega) hout,
    decode_16bit_pcm_to_16bit_eq a out n (by omega) hout]
  congr 1
  apply written_congr
  intro i hi
  rw [getD_append_left a rest (2 * i) (by omega), getD_append_left a rest (2 * i + 1) (by omega)]

theorem scratch_memory_allocate (m : List Nat) (size : Nat) (h : 0 < size) :
    scratch_memory (allocate_scratch_memory m size) = some (allocate_scratch_memory m size) := by
  unfold scratch_memory
  rw [if_neg]
  rw [length_allocate_scratch_memory]
  omega

theorem length_slice (content : List Nat) (pos k : Nat) (hk : 0 < k) :
    ((content.drop pos).take k).length = k ↔ pos + k ≤ content.length := by
  rw [List.length_take, List.length_drop]
  omega

/-- The `read` of a 16-bit reader in the good state when the bytes are available. -/
theorem read_available (r : WavAudioFileInput) (buffer : List F32) (n : Nat)
    (hb : r.m_formatChunk.m_bitsPerSample = 16) (hf : r.m_audioFile.failed = false)
    (h0 : 0 < n) (hn : n * 16 < 2 ^ 32) (hbuf : n ≤ buffer.length)
    (hav : r.m_audioFile.pos + 2 * n ≤ r.m_audioFile.content.length) :
    ∃ r' buffer', r.read buffer n = some (r', buffer') ∧
      decode_16bit_pcm_to_float ((r.m_audioFile.content.drop r.m_audioFile.pos).take (2 * n))
        buffer n = some buffer' ∧
      r'.m_readPosition = (r.m_readPosition + n) % 2 ^ 32 ∧
      r'.m_audioFile = { r.m_audioFile with pos := r.m_audioFile.pos + 2 * n } ∧
      r'.m_samples = r.m_samples ∧ r'.m_formatChunk = r.m_formatChunk := by
  have hbytes : n * r.m_formatChunk.m_bitsPerSample % 2 ^ 32 / 8 = 2 * n := by
    rw [hb, Nat.mod_eq_of_lt hn]; omega
  have hsl := (length_slice r.m_audioFile.content r.m_audioFile.pos (2 * n) (by omega)).2 hav
  have hrd := IfStream.read_full r.m_audioFile
    (allocate_scratch_memory r.m_scratchMemory (2 * n)) _ (2 * n) hf rfl hsl
  have hdec := decode_16bit_pcm_to_float_eq
    ((r.m_audioFile.content.drop r.m_audioFile.pos).take (2 * n)) buffer n (by omega) hbuf
  have hpre := decode_16bit_pcm_to_float_reads_first
    ((r.m_audioFile.content.drop r.m_audioFile.pos).take (2 * n))
    ((allocate_scratch_memory r.m_scratchMemory (2 * n)).drop (2 * n)) buffer n hsl hbuf
  simp only [WavAudioFileInput.read, hbytes, scratch_memory_allocate _ _ (show 0 < 2 * n by omega),
    Option.some_bind, hrd, hf, Bool.false_eq_true, if_false, hpre, hdec, Option.map_some',
    -Nat.reducePow]
  exact ⟨_, _, rfl, rfl, rfl, rfl, rfl, rfl⟩

/-- The `read16` of a 16-bit reader in the good state when the bytes are available. -/
theorem read16_available (r : WavAudioFileInput) (buffer : List Int) (n : Nat)
    (hb : r.m_formatChunk.m_bitsPerSample = 16) (hf : r.m_audioFile.failed = false)
    (h0 : 0 < n) (hn : n * 16 < 2 ^ 32) (hbuf : n ≤ buffer.length)
    (hav : r.m_audioFile.pos + 2 * n ≤ r.m_audioFile.content.length) :
    ∃ r' buffer', r.read16 buffer n = some (r', buffer') ∧
      decode_16bit_pcm_to_16bit ((r.m_audioFile.content.drop r.m_audioFile.pos).take (2 * n))
        buffer n = some buffer' ∧
      r'.m_readPosition = (r.m_readPosition + n) % 2 ^ 32 ∧
      r'.m_audioFile = { r.m_audioFile with pos := r.m_audioFile.pos + 2 * n } ∧
      r'.m_samples = r.m_samples ∧ r'.m_formatChunk = r.m_formatChunk := by
  have hbytes : n * r.m_formatChunk.m_bitsPerSample % 2 ^ 32 / 8 = 2 * n := by
    rw [hb, Nat.mod_eq_of_lt hn]; omega
  have hsl := (length_slice r.m_audioFile.content r.m_audioFile.pos (2 * n) (by omega)).2 hav
  have hrd := IfStream.read_full r.m_audioFile
    (allocate_scratch_memory r.m_scratchMemory (2 * n)) _ (2 * n) hf rfl hsl
  have hdec := decode_16bit_pcm_to_16bit_eq
    ((r.m_audioFile.content.drop r.m_audioFile.pos).take (2 * n)) buffer n (by omega) hbuf
  have hpre := decode_16bit_pcm_to_16bit_reads_first
    ((r.m_audioFile.content.drop r.m_audioFile.pos).take (2 * n))
    ((allocate_scratch_memory r.m_scratchMemory (2 * n)).drop (2 * n)) buffer n hsl hbuf
  simp only [WavAudioFileInput.read16, hbytes,
    scratch_memory_allocate _ _ (show 0 < 2 * n by omega),
    Option.some_bind, hrd, hf, Bool.false_eq_true, if_false, hpre, hdec, Option.map_some',
    -Nat.reducePow]
  exact ⟨_, _, rfl, rfl, rfl, rfl, rfl, rfl⟩

/-- The `read` of a 16-bit reader in the good state when too few bytes are left. -/
theorem read_unavailable (r : WavAudioFileInput) (buffer : List F32) (n : Nat)
    (hb : r.m_formatChunk.m_bitsPerSample = 16) (hf : r.m_audioFile.failed = false)
    (h0 : 0 < n) (hn : n * 16 < 2 ^ 32)
    (hav : r.m_audioFile.content.length < r.m_audioFile.pos + 2 * n) :
    ∃ r', r.read buffer n = some (r', buffer) ∧
      r'.m_readPosition = r.m_readPosition ∧ r'.m_audioFile.failed = true ∧
      r'.m_samples = r.m_samples ∧ r'.m_formatChunk = r.m_formatChunk := by
  have hbytes : n * r.m_formatChunk.m_bitsPerSample % 2 ^ 32 / 8 = 2 * n := by
    rw [hb, Nat.mod_eq_of_lt hn]; omega
  have hsl : ((r.m_audioFile.content.drop r.m_audioFile.pos).take (2 * n)).length ≠ 2 * n := by
    intro h
    have := (length_slice r.m_audioFile.content r.m_audioFile.pos (2 * n) (by omega)).1 h
    omega
  have hrd := (IfStream.read_short r.m_audioFile
    (allocate_scratch_memory r.m_scratchMemory (2 * n)) (2 * n) hf hsl).1
  simp only [WavAudioFileInput.read, hbytes, scratch_memory_allocate _ _ (show 0 < 2 * n by omega),
    Option.some_bind, hrd, if_true, -Nat.reducePow]
  exact ⟨_, rfl, rfl, hrd, rfl, rfl⟩

/-- The `read16` of a 16-bit reader in the good state when too few bytes are left. -/
theorem read16_unavailable (r : WavAudioFileInput) (buffer : List Int) (n : Nat)
    (hb : r.m_formatChunk.m_bitsPerSample = 16) (hf : r.m_audioFile.failed = false)
    (h0 : 0 < n) (hn : n * 16 < 2 ^ 32)
    (hav : r.m_audioFile.content.length < r.m_audioFile.pos + 2 * n) :
    ∃ r', r.read16 buffer n = some (r', buffer) ∧
      r'.m_readPosition = r.m_readPosition ∧ r'.m_audioFile.failed = true ∧
      r'.m_samples = r.m_samples ∧ r'.m_formatChunk = r.m_formatChunk := by
  have hbytes : n * r.m_formatChunk.m_bitsPerSample % 2 ^ 32 / 8 = 2 * n := by
    rw [hb, Nat.mod_eq_of_lt hn]; omega
  have hsl : ((r.m_audioFile.content.drop r.m_audioFile.pos).take (2 * n)).length ≠ 2 * n := by
    intro h
    have := (length_slice r.m_audioFile.content r.m_audioFile.pos (2 * n) (by omega)).1 h
    omega
  have hrd := (IfStream.read_short r.m_audioFile
    (allocate_scratch_memory r.m_scratchMemory (2 * n)) (2 * n) hf hsl).1
  simp only [WavAudioFileInput.read16, hbytes,
    scratch_memory_allocate _ _ (show 0 < 2 * n by omega),
    Option.some_bind, hrd, if_true, -Nat.reducePow]
  exact ⟨_, rfl, rfl, hrd, rfl, rfl⟩

theorem samples_remaining_advance (r r' : WavAudioFileInput) (n : Nat)
    (h1 : r'.m_readPosition = (r.m_readPosition + n) % 2 ^ 32) (h2 : r'.m_samples = r.m_samples)
    (hn : n ≤ r.samples_remaining) : r'.samples_remaining = r.samples_remaining - n := by
  unfold WavAudioFileInput.samples_remaining at hn ⊢
  rw [h1, h2]
  omega

/-- C11 (as the claim states it, refuted). A reader whose format has 8 bits per sample
requests `1 * 8 / 8 = 1` byte for one sample, but the decoder takes two bytes per sample
from the scratch memory: with a scratch memory of 4 stale bytes `09` the caller receives
`0x0901 = 2305`, decoded from the byte read and a byte that was not; with an empty
scratch memory the decoder reads past the one byte allocated. -/
theorem C11_eight_bit_read_decodes_bytes_not_read :
    ((readerAt 8 [9, 9, 9, 9]).read16 [0] 1).map
      (fun p => (p.2, p.1.m_audioFile.pos, p.1.m_readPosition)) = some ([2305], 1, 1) ∧
    (readerAt 8 []).read16 [0] 1 = none ∧
    (readerAt 8 []).read [F32.zero] 1 = none := by
  decide

/-- C11 (amended). For a reader whose format has 16 bits per sample and whose stream is in
the good state, at least one sample, `sampleCount * 16 < 2^32` and caller's buffers that
hold `sampleCount` elements: `read` and `read16` request `sampleCount * bitsPerSample / 8`
bytes; if that many bytes are available from the current file position, the caller's
buffer receives the decoding of exactly those bytes, the stream advances past them and the
read cursor advances by `sampleCount` modulo `2^32` (so `samples_remaining()` drops by
`sampleCount` when that many remain); if fewer bytes are available, the caller's buffer
and the read cursor are left as they were and the stream is in the error state. -/
theorem C11_read_advances_cursor_only_on_full_read (r : WavAudioFileInput)
    (bufF : List F32) (buf16 : List Int) (n : Nat)
    (hb : r.m_formatChunk.m_bitsPerSample = 16) (hf : r.m_audioFile.failed = false)
    (h0 : 0 < n) (hn : n * 16 < 2 ^ 32) (hF : n ≤ bufF.length) (h16 : n ≤ buf16.length) :
    (r.m_audioFile.pos + n * r.m_formatChunk.m_bitsPerSample / 8 ≤ r.m_audioFile.content.length →
      ∃ rF outF rI outI,
        r.read bufF n = some (rF, outF) ∧ r.read16 buf16 n = some (rI, outI) ∧
        decode_16bit_pcm_to_float
          ((r.m_audioFile.content.drop r.m_audioFile.pos).take
            (n * r.m_formatChunk.m_bitsPerSample / 8)) bufF n = some outF ∧
        decode_16bit_pcm_to_16bit
          ((r.m_audioFile.content.drop r.m_audioFile.pos).take
            (n * r.m_formatChunk.m_bitsPerSample / 8)) buf16 n = some outI ∧
        rF.m_audioFile.pos = r.m_audioFile.pos + n * r.m_formatChunk.m_bitsPerSample / 8 ∧
        rI.m_audioFile.pos = r.m_audioFile.pos + n * r.m_formatChunk.m_bitsPerSample / 8 ∧
        rF.m_audioFile.failed = false ∧ rI.m_audioFile.failed = false ∧
        rF.m_readPosition = (r.m_readPosition + n) % 2 ^ 32 ∧
        rI.m_readPosition = (r.m_readPosition + n) % 2 ^ 32 ∧
        (n ≤ r.samples_remaining →
          rF.samples_remaining = r.samples_remaining - n ∧
          rI.samples_remaining = r.samples_remaining - n)) ∧
    (r.m_audioFile.content.length < r.m_audioFile.pos + n * r.m_formatChunk.m_bitsPerSample / 8 →
      ∃ rF rI,
        r.read bufF n = some (rF, bufF) ∧ r.read16 buf16 n = some (rI, buf16) ∧
        rF.m_readPosition = r.m_readPosition ∧ rI.m_readPosition = r.m_readPosition ∧
        rF.m_samples = r.m_samples ∧ rI.m_samples = r.m_samples ∧
        rF.m_audioFile.failed = true ∧ rI.m_audioFile.failed = true) := by
  have hbytes : n * r.m_formatChunk.m_bitsPerSample / 8 = 2 * n := by rw [hb]; omega
  rw [hbytes]
  constructor
  · intro hav
    obtain ⟨rF, outF, a1, a2, a3, a4, a5, _⟩ := read_available r bufF n hb hf h0 hn hF hav
    obtain ⟨rI, outI, b1, b2, b3, b4, b5, _⟩ := read16_available r buf16 n hb hf h0 hn h16 hav
    refine ⟨rF, outF, rI, outI, a1, b1, a2, b2, by rw [a4], by rw [b4], by rw [a4]; exact hf,
      by rw [b4]; exact hf, a3, b3, fun hle => ⟨?_, ?_⟩⟩
    · exact samples_remaining_advance r rF n a3 a5 hle
    · exact samples_remaining_advance r rI n b3 b5 hle
  · intro hav
    obtain ⟨rF, a1, a2, a3, a4, _⟩ := read_unavailable r bufF n hb hf h0 hn hav
    obtain ⟨rI, b1, b2, b3, b4, _⟩ := read16_unavailable r buf16 n hb hf h0 hn hav
    exact ⟨rF, rI, a1, b1, a2, b2, a4, b4, a3, b3⟩

theorem C11_read_advances_cursor_only_on_full_read_witness :
    (readerAt 16 []).m_formatChunk.m_bitsPerSample = 16 ∧
    (readerAt 16 []).m_audioFile.failed = false ∧ 0 < 1 ∧ 1 * 16 < 2 ^ 32 ∧
    1 ≤ [F32.nan].length ∧ 1 ≤ [(0 : Int)].length ∧
    (readerAt 16 []).read16 [0] 1 = some
      ({ readerAt 16 [1, 2] with
          m_audioFile := { content := [1, 2, 3, 4], pos := 2, failed := false }
          m_readPosition := 1 }, [513]) ∧
    ∃ rF outF rI outI,
      (readerAt 16 []).read [F32.nan] 1 = some (rF, outF) ∧
      (readerAt 16 []).read16 [0] 1 = some (rI, outI) ∧
      rF.m_readPosition = 1 ∧ rI.m_readPosition = 1 ∧
      rF.samples_remaining = 1 ∧ rI.samples_remaining = 1 :=
  ⟨by decide, by decide, by decide, by decide, by decide, by decide, by decide,
    match (C11_read_advances_cursor_only_on_full_read (readerAt 16 []) [F32.nan] [0] 1
        (by decide) (by decide) (by decide) (by decide) (by decide) (by decide)).1 (by decide) with
    | ⟨rF, outF, rI, outI, a1, b1, _, _, _, _, _, _, a3, b3, hs⟩ =>
        ⟨rF, outF, rI, outI, a1, b1, a3, b3, hs (by decide)⟩⟩

/-! ## Format descriptor, identifiers, termination -/

/-- C14 (as the claim states it, refuted). With 32768 channels the 16-bit `blockAlign`
wraps to 0 instead of `16 / 8 * 32768`, and at a sample rate of `2^28` the 32-bit product
`samplerate * 16` wraps, so `avgBytesPerSec` is 0 instead of `sampleRate * blockAlign`. -/
theorem C14_block_align_and_byte_rate_wrap :
    (make_format 32768 48000).m_blockAlign = 0 ∧
    (make_format 32768 48000).m_bitsPerSample / 8 * (make_format 32768 48000).m_channels = 65536 ∧
    (make_format 1 (2 ^ 28)).m_blockAlign = 2 ∧
    (make_format 1 (2 ^ 28)).m_avgBytesPerSec = 0 ∧
    (make_format 1 (2 ^ 28)).m_samplesPerSec * (make_format 1 (2 ^ 28)).m_blockAlign = 2 ^ 29 := by
  decide

/-- C14 (amended). For every channel count below `2^15` and every sample rate with
`sampleRate * 16 < 2^32` and `sampleRate * 2 * channels < 2^32`, the descriptor returned
by `make_format` for 16-bit PCM has `blockAlign = bitsPerSample / 8 * channels` and
`avgBytesPerSec = sampleRate * blockAlign`, with format tag PCM, 16 bits per sample and
the given channel count and sample rate. -/
theorem C14_make_format_invariant (channels samplerate : Nat)
    (hc : channels < 2 ^ 15) (hs : samplerate * 16 < 2 ^ 32)
    (hr : samplerate * 2 * channels < 2 ^ 32) :
    (make_format channels samplerate).m_blockAlign
      = (make_format channels samplerate).m_bitsPerSample / 8
        * (make_format channels samplerate).m_channels ∧
    (make_format channels samplerate).m_avgBytesPerSec
      = (make_format channels samplerate).m_samplesPerSec
        * (make_format channels samplerate).m_blockAlign ∧
    (make_format channels samplerate).m_formatTag = kFormatCode_PCM ∧
    (make_format channels samplerate).m_bitsPerSample = 16 ∧
    (make_format channels samplerate).m_channels = channels ∧
    (make_format channels samplerate).m_samplesPerSec = samplerate := by
  have h1 : (make_format channels samplerate).m_blockAlign = 16 / 8 * channels % 2 ^ 16 := rfl
  have h2 : (make_format channels samplerate).m_avgBytesPerSec
      = samplerate * 16 % 2 ^ 32 / 8 * channels % 2 ^ 32 := rfl
  have h3 : (make_format channels samplerate).m_bitsPerSample = 16 := rfl
  have h4 : (make_format channels samplerate).m_channels = channels := rfl
  have h5 : (make_format channels samplerate).m_samplesPerSec = samplerate := rfl
  refine ⟨?_, ?_, rfl, rfl, rfl, rfl⟩
  · rw [h1, h3, h4]
    exact Nat.mod_eq_of_lt (by omega)
  · rw [h2, h5, h1]
    have e1 : (16 / 8 * channels) % 2 ^ 16 = 2 * channels := Nat.mod_eq_of_lt (by omega)
    have e2 : samplerate * 16 % 2 ^ 32 / 8 = samplerate * 2 := by
      rw [Nat.mod_eq_of_lt hs]; omega
    rw [e1, e2, Nat.mod_eq_of_lt hr, Nat.mul_assoc]

theorem C14_make_format_invariant_witness :
    2 < 2 ^ 15 ∧ 48000 * 16 < 2 ^ 32 ∧ 48000 * 2 * 2 < 2 ^ 32 ∧
    (make_format 2 48000).m_blockAlign = 4 ∧ (make_format 2 48000).m_avgBytesPerSec = 192000 :=
  ⟨by decide, by decide, by decide,
    (C14_make_format_invariant 2 48000 (by decide) (by decide) (by decide)).1.trans (by decide),
    (C14_make_format_invariant 2 48000 (by decide) (by decide) (by decide)).2.1.trans
      (by decide)⟩

theorem walk_chunks_fixed (st : ChunkWalk) (hf : st.self.m_audioFile.failed = false)
    (hs : walk_step st = st) : ∀ fuel, walk_chunks fuel st = none := by
  intro fuel
  induction fuel with
  | zero => simp [walk_chunks, hf]
  | succ fuel ih => simp [walk_chunks, hf, hs, ih]

/-- C17: on the 20-byte file whose only chunk header declares `2^32 - 8` bytes, the
32-bit sum `offset + size` is `20 + (2^32 - 8) = 12` modulo `2^32`: every iteration seeks
back to the same header, reads it in full and never reaches the end of the stream. The
chunk loop of `open` is still running after any number of iterations. -/
theorem C17_chunk_walk_loops_on_wrapping_size (fuel : Nat) :
    wrappingFile.length = 20 ∧
    WavAudioFileInput.open fuel (WavAudioFileInput.constructed 0 0 0) (some wrappingFile)
      zeroLocals = Outcome.diverged := by
  refine ⟨by decide, ?_⟩
  have hw : walk_chunks fuel
      { self := { WavAudioFileInput.constructed 0 0 0 with
          m_audioFile := { content := wrappingFile, pos := 20, failed := false } },
        chunkInfo := { m_id := make_riff_fourcc "junk", m_size := 2 ^ 32 - 8 },
        offset := 20 } = none :=
    walk_chunks_fixed _ rfl (by decide) fuel
  have h1 : WavAudioFileInput.open fuel (WavAudioFileInput.constructed 0 0 0)
      (some wrappingFile) zeroLocals
      = match walk_chunks fuel
          { self := { WavAudioFileInput.constructed 0 0 0 with
              m_audioFile := { content := wrappingFile, pos := 20, failed := false } },
            chunkInfo := { m_id := make_riff_fourcc "junk", m_size := 2 ^ 32 - 8 },
            offset := 20 } with
        | none => Outcome.diverged
        | some st =>
            if (st.self.m_formatChunk.m_bitsPerSample / 8) = 0 then Outcome.undefined
            else Outcome.ok
              { st.self with
                m_audioFile := (st.self.m_audioFile.clear).seekg st.self.m_dataStart
                m_samples := st.self.m_dataSize / (st.self.m_formatChunk.m_bitsPerSample / 8)
                m_readPosition := 0 } := by
    rfl
  rw [h1, hw]

theorem fourcc_value (a b c d : Nat) (ha : a < 256) (hb : b < 256) (hc : c < 256) :
    (d <<< 24) ||| (c <<< 16) ||| (b <<< 8) ||| (a <<< 0)
      = a + 256 * b + 65536 * c + 16777216 * d := by
  have h1 : 2 ^ 8 * b + a = 2 ^ 8 * b ||| a := Nat.mul_add_lt_is_or (by omega) b
  have h2 : 2 ^ 16 * c + (2 ^ 8 * b + a) = 2 ^ 16 * c ||| (2 ^ 8 * b + a) :=
    Nat.mul_add_lt_is_or (by omega) c
  have h3 : 2 ^ 24 * d + (2 ^ 16 * c + (2 ^ 8 * b + a))
      = 2 ^ 24 * d ||| (2 ^ 16 * c + (2 ^ 8 * b + a)) :=
    Nat.mul_add_lt_is_or (by omega) d
  rw [Nat.shiftLeft_eq, Nat.shiftLeft_eq, Nat.shiftLeft_eq, Nat.shiftLeft_eq,
    Nat.lor_assoc, Nat.lor_assoc, Nat.mul_comm d, Nat.mul_comm c, Nat.mul_comm b,
    Nat.pow_zero, Nat.mul_one, ← h1, ← h2, ← h3]
  omega

/-- The identifier of a four character tag of byte-sized characters. -/
theorem make_riff_fourcc_eq (c0 c1 c2 c3 : Char) (h0 : c0.toNat < 256) (h1 : c1.toNat < 256)
    (h2 : c2.toNat < 256) (h3 : c3.toNat < 256) :
    make_riff_fourcc (String.mk [c0, c1, c2, c3])
      = c0.toNat + 256 * c1.toNat + 65536 * c2.toNat + 16777216 * c3.toNat := by
  have e : (String.mk [c0, c1, c2, c3]).toList = [c0, c1, c2, c3] := rfl
  simp only [make_riff_fourcc, e, List.map_cons, List.map_nil, List.getD_cons_succ,
    List.getD_cons_zero, -Nat.reducePow]
  rw [fourcc_value _ _ _ _ h0 h1 h2]
  exact Nat.mod_eq_of_lt (by omega)

theorem leBytes_four (n : Nat) :
    leBytes 4 n = [n % 256, n / 256 % 256, n / 256 / 256 % 256, n / 256 / 256 / 256 % 256] := rfl

theorem leValue_four (b0 b1 b2 b3 : Nat) :
    leValue [b0, b1, b2, b3] = b0 + 256 * b1 + 65536 * b2 + 16777216 * b3 := by
  simp only [leValue]; omega

/-- C20. For every four character ASCII tag, `make_riff_fourcc` returns the 32-bit value
whose little-endian byte serialization is exactly the four bytes of the tag in order, so
an identifier read from four file bytes equals the identifier of the tag if and only if
the bytes are the bytes of the tag; the identifiers of `RIFF`, `WAVE`, `fmt ` and `data`
are pairwise distinct. -/
theorem C20_fourcc_is_the_tag_little_endian (c0 c1 c2 c3 : Char)
    (h0 : c0.toNat < 128) (h1 : c1.toNat < 128) (h2 : c2.toNat < 128) (h3 : c3.toNat < 128) :
    make_riff_fourcc (String.mk [c0, c1, c2, c3]) < 2 ^ 32 ∧
    leBytes 4 (make_riff_fourcc (String.mk [c0, c1, c2, c3]))
      = [c0.toNat, c1.toNat, c2.toNat, c3.toNat] ∧
    (∀ b0 b1 b2 b3 : Nat, b0 < 256 → b1 < 256 → b2 < 256 → b3 < 256 →
      (leValue [b0, b1, b2, b3] = make_riff_fourcc (String.mk [c0, c1, c2, c3])
        ↔ [b0, b1, b2, b3] = [c0.toNat, c1.toNat, c2.toNat, c3.toNat])) ∧
    kRiff ≠ kWave ∧ kRiff ≠ kFmt ∧ kRiff ≠ kData ∧ kWave ≠ kFmt ∧ kWave ≠ kData ∧
    kFmt ≠ kData := by
  have e := make_riff_fourcc_eq c0 c1 c2 c3 (by omega) (by omega) (by omega) (by omega)
  refine ⟨by rw [e]; omega, ?_, ?_, by decide, by decide, by decide, by decide, by decide,
    by decide⟩
  · rw [leBytes_four, e]
    congr 1
    · omega
    · congr 1
      · omega
      · congr 1
        · omega
        · congr 1
          omega
  · intro b0 b1 b2 b3 hb0 hb1 hb2 hb3
    rw [leValue_four, e]
    constructor
    · intro h
      have a0 : b0 = c0.toNat := by omega
      have a1 : b1 = c1.toNat := by omega
      have a2 : b2 = c2.toNat := by omega
      have a3 : b3 = c3.toNat := by omega
      rw [a0, a1, a2, a3]
    · intro h
      simp only [List.cons.injEq, and_true] at h
      obtain ⟨a0, a1, a2, a3⟩ := h
      rw [a0, a1, a2, a3]

theorem C20_fourcc_is_the_tag_little_endian_witness :
    ('d').toNat < 128 ∧ ('a').toNat < 128 ∧ ('t').toNat < 128 ∧
    leBytes 4 (make_riff_fourcc (String.mk ['d', 'a', 't', 'a'])) = [0x64, 0x61, 0x74, 0x61] :=
  ⟨by decide, by decide, by decide,
    (C20_fourcc_is_the_tag_little_endian 'd' 'a' 't' 'a' (by decide) (by decide) (by decide)
      (by decide)).2.1.trans (by decide)⟩

/-! ## Block mixing -/

theorem getElem?_mixedOutput (strategy : Strategy) (g : List F32) (inputs : List (List F32))
    (blockSize t : Nat) (output : List F32) (j : Nat) :
    (mixedOutput strategy g inputs blockSize t output)[j]?
      = (output[j]?).map fun o =>
          if j < span strategy blockSize then mixSum strategy g inputs j t
          else if j < blockSize then F32.zero else o := by
  simp [mixedOutput, List.getElem?_mapIdx]

theorem length_mixedOutput (strategy : Strategy) (g : List F32) (inputs : List (List F32))
    (blockSize t : Nat) (output : List F32) :
    (mixedOutput strategy g inputs blockSize t output).length = output.length := by
  simp [mixedOutput]

theorem mixedOutput_zero (strategy : Strategy) (g : List F32) (inputs : List (List F32))
    (blockSize : Nat) (output : List F32) (hspan : span strategy blockSize ≤ blockSize) :
    mixedOutput strategy g inputs blockSize 0 output = cleared blockSize output := by
  apply List.ext_getElem?
  intro j
  rw [getElem?_mixedOutput, getElem?_cleared]
  cases output[j]? with
  | none => rfl
  | some o =>
      simp only [Option.map_some', mixSum]
      by_cases h1 : j < span strategy blockSize
      · rw [if_pos h1, if_pos (by omega)]
      · rw [if_neg h1]

theorem mixedOutput_succ (strategy : Strategy) (g : List F32) (inputs : List (List F32))
    (blockSize t : Nat) (output inp : List F32) (gl gr : F32)
    (hinp : inputs[t]? = some inp) (hgl : g[t * 2]? = some gl) (hgr : g[t * 2 + 1]? = some gr) :
    accumulated (fun j => contribution strategy (inp.getD j F32.zero) (laneGain gl gr j))
        (span strategy blockSize) (mixedOutput strategy g inputs blockSize t output)
      = mixedOutput strategy g inputs blockSize (t + 1) output := by
  apply List.ext_getElem?
  intro j
  rw [getElem?_accumulated, getElem?_mixedOutput, getElem?_mixedOutput]
  cases output[j]? with
  | none => rfl
  | some o =>
      simp only [Option.map_some']
      by_cases h1 : j < span strategy blockSize
      · rw [if_pos h1, if_pos h1, if_pos h1]
        simp only [mixSum]
        have e1 : inputs.getD t [] = inp := getD_of_getElem? _ _ _ _ hinp
        have e2 : g.getD (t * 2 + j % 2) F32.zero = laneGain gl gr j := by
          unfold laneGain
          by_cases h2 : j % 2 = 0
          · rw [if_pos h2, h2, Nat.add_zero]
            exact getD_of_getElem? _ _ _ _ hgl
          · rw [if_neg h2, show j % 2 = 1 by omega]
            exact getD_of_getElem? _ _ _ _ hgr
        rw [e1, e2]
      · rw [if_neg h1, if_neg h1, if_neg h1]

/-- Closed form of `mix_audio_block` when the loop of the strategy stays inside the block. -/
theorem mix_audio_block_eq (strategy : Strategy) (N : Nat) (g : List F32)
    (inputs : List (List F32)) (output : List F32) (blockSize : Nat)
    (hN : N ≤ inputs.length) (hg : 2 * N ≤ g.length)
    (hin : ∀ inp ∈ inputs, blockSize ≤ inp.length) (hout : blockSize ≤ output.length)
    (hspan : span strategy blockSize ≤ blockSize) :
    mix_audio_block strategy N g inputs output blockSize
      = some (mixedOutput strategy g inputs blockSize N output) := by
  unfold mix_audio_block
  rw [clear_buffer_eq output blockSize hout]
  simp only [Option.some_bind]
  rw [← mixedOutput_zero strategy g inputs blockSize output hspan]
  have key := forLoop_steps N 1
    (fun i output =>
      (inputs[i]?).bind fun inp =>
      (g[i * 2]?).bind fun gl =>
      (g[i * 2 + 1]?).bind fun gr =>
      mix_buffer strategy inp output gl gr blockSize)
    (fun t => mixedOutput strategy g inputs blockSize t output) (by omega)
    (by
      intro t ht
      simp only [Nat.mul_one] at ht ⊢
      have hinp := getElem?_getD_of_lt inputs t [] (by omega)
      have hgl := getElem?_getD_of_lt g (t * 2) F32.zero (by omega)
      have hgr := getElem?_getD_of_lt g (t * 2 + 1) F32.zero (by omega)
      have hlen : blockSize ≤ (inputs.getD t []).length := hin _ (List.getElem?_mem hinp)
      simp only [hinp, hgl, hgr, Option.some_bind]
      rw [mix_buffer_eq strategy _ _ _ _ blockSize (by omega)
        (by rw [length_mixedOutput]; omega)]
      rw [mixedOutput_succ strategy g inputs blockSize t output _ _ _ hinp hgl hgr])
    N 0 (by omega)
  simp only [Nat.zero_mul] at key
  rw [key]
  congr 2
  have : (N + 1 - 1) / 1 = N := by simp
  rw [this]
  omega

/-- C19 (as the claim states it, refuted). With a block size of 2 and buffers of 2 floats,
the SIMD builds of `mix_buffer` (the 256-bit one is the configured build) load and store
past the end of the buffers on the first stream: `mix_audio_block` produces no output
buffer, while the scalar build produces the sums. -/
theorem C19_simd_block_mix_overruns_small_block :
    mix_audio_block .simd256 2 [F32.ofRatio 5 10, F32.ofRatio 5 10, F32.ofRatio 3 10,
        F32.ofRatio 5 10] [[F32.ofInt 1, F32.ofInt 1], [F32.ofRatio 5 10, F32.ofRatio 5 10]]
        [F32.nan, F32.nan] 2 = none ∧
    mix_audio_block .simd128 2 [F32.ofRatio 5 10, F32.ofRatio 5 10, F32.ofRatio 3 10,
        F32.ofRatio 5 10] [[F32.ofInt 1, F32.ofInt 1], [F32.ofRatio 5 10, F32.ofRatio 5 10]]
        [F32.nan, F32.nan] 2 = none ∧
    mix_audio_block .simd512 2 [F32.ofRatio 5 10, F32.ofRatio 5 10, F32.ofRatio 3 10,
        F32.ofRatio 5 10] [[F32.ofInt 1, F32.ofInt 1], [F32.ofRatio 5 10, F32.ofRatio 5 10]]
        [F32.nan, F32.nan] 2 = none ∧
    mix_audio_block .scalar 2 [F32.ofRatio 5 10, F32.ofRatio 5 10, F32.ofRatio 3 10,
        F32.ofRatio 5 10] [[F32.ofInt 1, F32.ofInt 1], [F32.ofRatio 5 10, F32.ofRatio 5 10]]
        [F32.nan, F32.nan] 2 = some [F32.ofRatio 65 100, F32.ofRatio 75 100] := by
  refine ⟨?_, ?_, ?_, ?_⟩ <;> decide

/-- C19 (amended). For every strategy and block size whose loop stays inside the block
(every block size for the scalar build; those with `blockSize / 2` a multiple of 2, 4 and
8 pairs for the 128, 256 and 512-bit builds), every list of at least `N` input blocks of `blockSize` floats and
every gain table of `2N` entries, `mix_audio_block` produces an output buffer with, for
every pair index `k < blockSize / 2`, `out[2k]` the binary32 sum, in stream order from
`+0`, of the contributions `in_i[2k] * g[2i]`, and `out[2k+1]` that of
`in_i[2k+1] * g[2i+1]`; every element below `blockSize` is independent of the content of
the buffer before the clear, and the elements from `blockSize` on are left alone. -/
theorem C19_mix_audio_block_sums_streams (strategy : Strategy) (N : Nat) (g : List F32)
    (inputs : List (List F32)) (output : List F32) (blockSize : Nat)
    (hN : N ≤ inputs.length) (hg : 2 * N ≤ g.length)
    (hin : ∀ inp ∈ inputs, blockSize ≤ inp.length) (hout : blockSize ≤ output.length)
    (hspan : span strategy blockSize ≤ blockSize) :
    ∃ out, mix_audio_block strategy N g inputs output blockSize = some out ∧
      out.length = output.length ∧
      (∀ k, k < blockSize / 2 →
        out[2 * k]? = some (mixSum strategy g inputs (2 * k) N) ∧
        out[2 * k + 1]? = some (mixSum strategy g inputs (2 * k + 1) N)) ∧
      (∀ j, j < blockSize →
        out[j]? = some (if j < span strategy blockSize then mixSum strategy g inputs j N
          else F32.zero)) ∧
      (∀ j, blockSize ≤ j → out[j]? = output[j]?) := by
  refine ⟨_, mix_audio_block_eq strategy N g inputs output blockSize hN hg hin hout hspan,
    length_mixedOutput _ _ _ _ _ _, ?_, ?_, ?_⟩
  · intro k hk
    have hs := le_span strategy blockSize
    rw [getElem?_mixedOutput, getElem?_mixedOutput,
      List.getElem?_eq_getElem (show 2 * k < output.length by omega),
      List.getElem?_eq_getElem (show 2 * k + 1 < output.length by omega)]
    simp only [Option.map_some']
    rw [if_pos (by omega), if_pos (by omega)]
    exact ⟨rfl, rfl⟩
  · intro j hj
    rw [getElem?_mixedOutput, List.getElem?_eq_getElem (show j < output.length by omega)]
    simp only [Option.map_some', if_pos hj]
  · intro j hj
    rw [getElem?_mixedOutput]
    cases output[j]? with
    | none => rfl
    | some o =>
        simp only [Option.map_some']
        rw [if_neg (by omega), if_neg (by omega)]

theorem C19_mix_audio_block_sums_streams_witness :
    2 ≤ [[F32.ofInt 1, F32.ofInt 1], [F32.ofRatio 5 10, F32.ofRatio 5 10]].length ∧
    2 * 2 ≤ [F32.ofRatio 5 10, F32.ofRatio 5 10, F32.ofRatio 3 10, F32.ofRatio 5 10].length ∧
    (∀ inp ∈ [[F32.ofInt 1, F32.ofInt 1], [F32.ofRatio 5 10, F32.ofRatio 5 10]],
      2 ≤ inp.length) ∧
    2 ≤ [F32.nan, F32.nan].length ∧ span .scalar 2 ≤ 2 ∧
    ∃ out, mix_audio_block .scalar 2
        [F32.ofRatio 5 10, F32.ofRatio 5 10, F32.ofRatio 3 10, F32.ofRatio 5 10]
        [[F32.ofInt 1, F32.ofInt 1], [F32.ofRatio 5 10, F32.ofRatio 5 10]]
        [F32.nan, F32.nan] 2 = some out ∧
      out.length = [F32.nan, F32.nan].length ∧
      (∀ k, k < 2 / 2 →
        out[2 * k]? = some (mixSum .scalar
          [F32.ofRatio 5 10, F32.ofRatio 5 10, F32.ofRatio 3 10, F32.ofRatio 5 10]
          [[F32.ofInt 1, F32.ofInt 1], [F32.ofRatio 5 10, F32.ofRatio 5 10]] (2 * k) 2) ∧
        out[2 * k + 1]? = some (mixSum .scalar
          [F32.ofRatio 5 10, F32.ofRatio 5 10, F32.ofRatio 3 10, F32.ofRatio 5 10]
          [[F32.ofInt 1, F32.ofInt 1], [F32.ofRatio 5 10, F32.ofRatio 5 10]] (2 * k + 1) 2)) ∧
      (∀ j, j < 2 →
        out[j]? = some (if j < span .scalar 2 then mixSum .scalar
          [F32.ofRatio 5 10, F32.ofRatio 5 10, F32.ofRatio 3 10, F32.ofRatio 5 10]
          [[F32.ofInt 1, F32.ofInt 1], [F32.ofRatio 5 10, F32.ofRatio 5 10]] j 2
          else F32.zero)) ∧
      (∀ j, 2 ≤ j → out[j]? = [F32.nan, F32.nan][j]?) :=
  ⟨by decide, by decide, by decide, by decide, by decide,
    C19_mix_audio_block_sums_streams .scalar 2
      [F32.ofRatio 5 10, F32.ofRatio 5 10, F32.ofRatio 3 10, F32.ofRatio 5 10]
      [[F32.ofInt 1, F32.ofInt 1], [F32.ofRatio 5 10, F32.ofRatio 5 10]]
      [F32.nan, F32.nan] 2 (by decide) (by decide) (by decide) (by decide) (by decide)⟩

/-! ## Scratch memory -/

theorem allocate_scratch_memory_keeps_bytes (m : List Nat) (size : Nat) :
    m <+: allocate_scratch_memory m size := by
  unfold allocate_scratch_memory
  split_ifs
  · exact List.prefix_append _ _
  · exact List.prefix_refl _

theorem foldl_allocate_spec (sizes : List Nat) :
    ∀ m : List Nat, m <+: sizes.foldl allocate_scratch_memory m ∧
      (sizes.foldl allocate_scratch_memory m).length = sizes.foldl max m.length := by
  induction sizes with
  | nil => intro m; exact ⟨List.prefix_refl _, rfl⟩
  | cons s sizes ih =>
      intro m
      obtain ⟨h1, h2⟩ := ih (allocate_scratch_memory m s)
      simp only [List.foldl_cons]
      refine ⟨(allocate_scratch_memory_keeps_bytes m s).trans h1, ?_⟩
      rw [h2, length_allocate_scratch_memory]

theorem le_foldl_max (sizes : List Nat) : ∀ a : Nat, a ≤ sizes.foldl max a ∧
    ∀ s ∈ sizes, s ≤ sizes.foldl max a := by
  induction sizes with
  | nil => intro a; exact ⟨Nat.le_refl _, fun s hs => by cases hs⟩
  | cons x sizes ih =>
      intro a
      obtain ⟨h1, h2⟩ := ih (max a x)
      simp only [List.foldl_cons]
      refine ⟨by omega, ?_⟩
      intro s hs
      rcases List.mem_cons.1 hs with rfl | hs
      · omega
      · exact h2 s hs

/-- C21. For every scratch buffer state and every requested size, `allocate_scratch_memory`
leaves the scratch buffer with size `max(old size, requested size)` and with the existing
bytes in place (the buffer it had is a prefix of the buffer it has); over any sequence of
calls the existing bytes are kept, the size does not decrease and is at least every size
requested, being the maximum of the initial size and the requested sizes. -/
theorem C21_scratch_memory_grows_only (m : List Nat) (size : Nat) (sizes : List Nat) :
    (allocate_scratch_memory m size).length = max m.length size ∧
    m <+: allocate_scratch_memory m size ∧
    (allocate_scratch_memory m size).take m.length = m ∧
    m <+: sizes.foldl allocate_scratch_memory m ∧
    m.length ≤ (sizes.foldl allocate_scratch_memory m).length ∧
    (∀ s ∈ sizes, s ≤ (sizes.foldl allocate_scratch_memory m).length) ∧
    (sizes.foldl allocate_scratch_memory m).length = sizes.foldl max m.length := by
  obtain ⟨h1, h2⟩ := foldl_allocate_spec sizes m
  obtain ⟨h3, h4⟩ := le_foldl_max sizes m.length
  refine ⟨length_allocate_scratch_memory m size, allocate_scratch_memory_keeps_bytes m size, ?_, h1,
    by rw [h2]; exact h3, fun s hs => by rw [h2]; exact h4 s hs, h2⟩
  obtain ⟨t, ht⟩ := allocate_scratch_memory_keeps_bytes m size
  rw [← ht, List.take_left]

/-! ## Safety of the sample count -/

/-- C24: on the 12-byte file that holds only `RIFF`, a size and `WAVE`, both identifier
checks pass, the first chunk header read hits the end of the file, the loop body never
runs, and with `m_formatChunk` still zeroed `open` divides `m_dataSize` (never set) by
`bitsPerSample / 8 = 0`, whatever the fuel, the reader's indeterminate members and the
locals' indeterminate bytes. A file with an `fmt ` chunk of 4 bits per sample divides by
zero as well, and on a file with a 16-bit `fmt ` chunk and no `data` chunk the sample
count and the seek position come from the indeterminate `m_dataSize` and `m_dataStart`
(here 123 and 77). -/
theorem C24_open_divides_by_zero_without_fmt_chunk (fuel dataStart dataSize readPosition : Nat)
    (locals : Locals) :
    noChunkFile.length = 12 ∧
    WavAudioFileInput.open fuel
        (WavAudioFileInput.constructed dataStart dataSize readPosition) (some noChunkFile) locals
      = Outcome.undefined ∧
    WavAudioFileInput.open 4 (WavAudioFileInput.constructed 0 0 0)
        (some (fmtOnlyFile { make_format 1 8000 with m_bitsPerSample := 4 })) zeroLocals
      = Outcome.undefined ∧
    WavAudioFileInput.open 4 (WavAudioFileInput.constructed 77 123 0)
        (some (fmtOnlyFile (make_format 1 8000))) zeroLocals
      = Outcome.ok
          { m_scratchMemory := [], m_formatChunk := make_format 1 8000, m_samples := 61,
            m_audioFile := { content := fmtOnlyFile (make_format 1 8000), pos := 77,
                             failed := false },
            m_dataStart := 77, m_dataSize := 123, m_readPosition := 0 } := by
  refine ⟨by decide, ?_, by decide, by decide⟩
  have h := open_wavFile 4 [] [] (WavAudioFileInput.constructed dataStart dataSize readPosition)
    locals fuel (by decide) (fun c hc => by cases hc) trivial (by decide)
  have e1 : wavFile 4 [] [] = noChunkFile := by decide
  rw [e1, List.length_nil, Nat.zero_add] at h
  rw [h]
  exact if_pos (by simp [walkSpec, WavAudioFileInput.constructed, FmtChunk.zeroed])

/-! ## Decode then encode -/

/-- What the encoder computes from a decoded 16-bit sample: the sample modulo `2^16`. -/
theorem encode_decoded_value (s : Int) (h1 : -32768 ≤ s) (h2 : s < 32768) :
    F32.toUInt16 (F32.ofInt s * kfCoefDecode * kfCoefEncode) = some (s % 65536).toNat := by
  obtain ⟨d1, d2, d3⟩ := decode_value s h1 (le_of_lt h2)
  have hs1 : ((-32768 : Int) : ℚ) ≤ (s : ℚ) := Int.cast_le.2 h1
  have hs2 : (s : ℚ) < ((32768 : Int) : ℚ) := Int.cast_lt.2 h2
  push_cast at hs1 hs2
  have hb : |(F32.ofInt s * kfCoefDecode).toRat| < 2 ^ 16 := by
    rw [d2, abs_lt]
    constructor
    · rw [lt_div_iff₀ (by positivity)]; linarith
    · rw [div_lt_iff₀ (by positivity)]; linarith
  rw [encode_value _ d3 d1 hb, d2]
  have : (s : ℚ) / 2 ^ 15 * 2 ^ 15 = (s : ℚ) := by field_simp
  rw [this, truncQ_intCast]

/-- C23. For every buffer of signed 16-bit samples (including `-32768` and all negative
values), decoding `n` samples with `decode_16bit_pcm_to_float` and encoding the floats
with `encode_float_to_16bit` succeeds and returns exactly the samples, byte for byte: the
conversion to `uint16_t` keeps the value modulo `2^16`, and the bytes of the output
buffer beyond the `2 * n` written are left alone. -/
theorem C23_encode_inverts_decode (inBuffer : List Nat) (floats : List F32)
    (outBuffer : List Nat) (n : Nat)
    (hin : 2 * n ≤ inBuffer.length) (hbytes : ∀ b ∈ inBuffer, b < 256)
    (hfl : n ≤ floats.length) (hout : 2 * n ≤ outBuffer.length) :
    ∃ decoded encoded,
      decode_16bit_pcm_to_float inBuffer floats n = some decoded ∧
      encode_float_to_16bit decoded outBuffer n = some encoded ∧
      encoded.length = outBuffer.length ∧
      (∀ j, j < 2 * n → encoded[j]? = inBuffer[j]?) ∧
      (∀ i, i < n → load16 encoded i = load16 inBuffer i) ∧
      (∀ j, 2 * n ≤ j → encoded[j]? = outBuffer[j]?) := by
  have hdec := decode_16bit_pcm_to_float_eq inBuffer floats n hin hfl
  have hsample : ∀ i, i < n →
      -32768 ≤ int16_of_bytes (inBuffer.getD (2 * i) 0) (inBuffer.getD (2 * i + 1) 0) ∧
      int16_of_bytes (inBuffer.getD (2 * i) 0) (inBuffer.getD (2 * i + 1) 0) < 32768 ∧
      int16_of_bytes (inBuffer.getD (2 * i) 0) (inBuffer.getD (2 * i + 1) 0) % 65536
        = ((inBuffer.getD (2 * i) 0 + 256 * inBuffer.getD (2 * i + 1) 0 : Nat) : Int) ∧
      inBuffer.getD (2 * i) 0 < 256 ∧ inBuffer.getD (2 * i + 1) 0 < 256 := by
    intro i hi
    have e0 := getElem?_getD_of_lt inBuffer (2 * i) 0 (by omega)
    have e1 := getElem?_getD_of_lt inBuffer (2 * i + 1) 0 (by omega)
    have hb0 := hbytes _ (List.getElem?_mem e0)
    have hb1 := hbytes _ (List.getElem?_mem e1)
    obtain ⟨s1, s2, s3⟩ := int16_of_bytes_spec _ _ hb0 hb1
    exact ⟨s1, s2, s3, hb0, hb1⟩
  have henc := encode_float_to_16bit_eq
    (written (fun i => F32.ofInt (int16_of_bytes (inBuffer.getD (2 * i) 0)
      (inBuffer.getD (2 * i + 1) 0)) * kfCoefDecode) n floats) outBuffer n
    (fun i => (int16_of_bytes (inBuffer.getD (2 * i) 0)
      (inBuffer.getD (2 * i + 1) 0) % 65536).toNat)
    (by rw [length_written]; exact hfl) hout
    (by
      intro i hi
      rw [getD_written_lt _ n floats i F32.zero hi (by omega)]
      obtain ⟨s1, s2, _⟩ := hsample i hi
      exact encode_decoded_value _ s1 s2)
  have hbyte : ∀ j, j < 2 * n →
      wordByte (fun i => (int16_of_bytes (inBuffer.getD (2 * i) 0)
        (inBuffer.getD (2 * i + 1) 0) % 65536).toNat) j = inBuffer.getD j 0 := by
    intro j hj
    obtain ⟨_, _, s3, hb0, hb1⟩ := hsample (j / 2) (by omega)
    unfold wordByte
    simp only []
    rw [s3]
    by_cases hpar : j % 2 = 0
    · rw [if_pos hpar]
      have : 2 * (j / 2) = j := by omega
      rw [this] at hb0 ⊢
      simp only [Int.toNat_ofNat]
      omega
    · rw [if_neg hpar]
      have : 2 * (j / 2) + 1 = j := by omega
      rw [this] at hb1 ⊢
      simp only [Int.toNat_ofNat]
      omega
  have hget : ∀ j, j < 2 * n →
      (written (wordByte fun i => (int16_of_bytes (inBuffer.getD (2 * i) 0)
        (inBuffer.getD (2 * i + 1) 0) % 65536).toNat) (2 * n) outBuffer)[j]? = inBuffer[j]? := by
    intro j hj
    rw [getElem?_written_lt _ (2 * n) outBuffer j hj (by omega), hbyte j hj]
    exact (getElem?_getD_of_lt inBuffer j 0 (by omega)).symm
  refine ⟨_, _, hdec, henc, length_written _ _ _, hget, ?_,
    fun j hj => getElem?_written_ge _ _ _ j hj⟩
  intro i hi
  unfold load16
  rw [hget (2 * i) (by omega), hget (2 * i + 1) (by omega)]

theorem C23_encode_inverts_decode_witness :
    2 * 3 ≤ [0, 128, 255, 255, 255, 127].length ∧ (∀ b ∈ [0, 128, 255, 255, 255, 127], b < 256) ∧
    3 ≤ [F32.nan, F32.nan, F32.nan].length ∧ 2 * 3 ≤ [9, 9, 9, 9, 9, 9, 9].length ∧
    ∃ decoded encoded,
      decode_16bit_pcm_to_float [0, 128, 255, 255, 255, 127] [F32.nan, F32.nan, F32.nan] 3
        = some decoded ∧
      encode_float_to_16bit decoded [9, 9, 9, 9, 9, 9, 9] 3 = some encoded ∧
      encoded.length = [9, 9, 9, 9, 9, 9, 9].length ∧
      (∀ j, j < 2 * 3 → encoded[j]? = [0, 128, 255, 255, 255, 127][j]?) ∧
      (∀ i, i < 3 → load16 encoded i = load16 [0, 128, 255, 255, 255, 127] i) ∧
      (∀ j, 2 * 3 ≤ j → encoded[j]? = [9, 9, 9, 9, 9, 9, 9][j]?) :=
  ⟨by decide, by decide, by decide, by decide,
    C23_encode_inverts_decode [0, 128, 255, 255, 255, 127] [F32.nan, F32.nan, F32.nan]
      [9, 9, 9, 9, 9, 9, 9] 3 (by decide) (by decide) (by decide) (by decide)⟩

/-! ## Writing a file and reading it back -/

theorem leValue_two (x : Nat) (h : x < 2 ^ 16) : leValue [x % 256, x / 256 % 256] = x := by
  simp only [leValue]; omega

theorem leValue_four_bytes (x : Nat) (h : x < 2 ^ 32) :
    leValue [x % 256, x / 256 % 256, x / 256 / 256 % 256, x / 256 / 256 / 256 % 256] = x := by
  simp only [leValue]; omega

theorem map_mod_of_lt (l : List Nat) (h : ∀ b ∈ l, b < 256) : l.map (fun b => b % 256) = l := by
  induction l with
  | nil => rfl
  | cons a l ih =>
      simp only [List.map_cons]
      rw [Nat.mod_eq_of_lt (h a (List.mem_cons_self _ _)),
        ih (fun b hb => h b (List.mem_cons_of_mem _ hb))]

/-- Reading back the object representation of a format gives the format. -/
theorem FmtChunk.ofBytes_toBytes (f : FmtChunk) (h : f.representable) :
    FmtChunk.ofBytes f.toBytes = f := by
  obtain ⟨h1, h2, h3, h4, h5, h6, h7, h8, h9, h10, h11⟩ := h
  obtain ⟨tag, ch, sps, avg, ba, bits, cb, vb, mask, guid⟩ := f
  simp only at h1 h2 h3 h4 h5 h6 h7 h8 h9 h10 h11
  have hg : ((guid ++ List.replicate 16 0).take 16).map (fun b => b % 256) = guid := by
    rw [List.take_left' h10, map_mod_of_lt guid h11]
  have e : FmtChunk.toBytes ⟨tag, ch, sps, avg, ba, bits, cb, vb, mask, guid⟩
      = [tag % 256, tag / 256 % 256, ch % 256, ch / 256 % 256,
         sps % 256, sps / 256 % 256, sps / 256 / 256 % 256, sps / 256 / 256 / 256 % 256,
         avg % 256, avg / 256 % 256, avg / 256 / 256 % 256, avg / 256 / 256 / 256 % 256,
         ba % 256, ba / 256 % 256, bits % 256, bits / 256 % 256,
         cb % 256, cb / 256 % 256, vb % 256, vb / 256 % 256,
         mask % 256, mask / 256 % 256, mask / 256 / 256 % 256, mask / 256 / 256 / 256 % 256]
        ++ guid := by
    simp only [FmtChunk.toBytes, hg]
    rfl
  rw [e]
  simp only [FmtChunk.ofBytes, List.drop_zero, List.cons_append, List.nil_append,
    List.drop_succ_cons, List.take_succ_cons, List.take_zero, FmtChunk.mk.injEq]
  refine ⟨leValue_two _ h1, leValue_two _ h2, leValue_four_bytes _ h3, leValue_four_bytes _ h4,
    leValue_two _ h5, leValue_two _ h6, leValue_two _ h7, leValue_two _ h8,
    leValue_four_bytes _ h9, ?_⟩
  rw [← h10, List.take_length]

theorem headerBytes_eq_wavFile (format : FmtChunk) (audio : List Nat) :
    headerBytes format audio.length ++ audio
      = wavFile (4 + 8 + 40 + 8 + audio.length)
          [Chunk.mk kFmt format.toBytes, Chunk.mk kData audio] [] := by
  simp only [headerBytes, wavFile, encodeChunks, Chunk.encode, FmtChunk.length_toBytes_fmtChunk,
    List.append_assoc, List.append_nil]

theorem kData_ne_kFmt : kData ≠ kFmt := by decide

/-- The reader's `open` on the file a writer leaves: header for the format and the audio
length, then the audio. -/
theorem open_written_file (format : FmtChunk) (audio : List Nat) (self : WavAudioFileInput)
    (locals : Locals) (k : Nat) (hrep : format.representable)
    (hbits : 8 ≤ format.m_bitsPerSample) (hlen : 68 + audio.length < 2 ^ 32) :
    WavAudioFileInput.open (2 + k) self (some (headerBytes format audio.length ++ audio)) locals
      = Outcome.ok
          { m_scratchMemory := self.m_scratchMemory
            m_formatChunk := format
            m_samples := audio.length / (format.m_bitsPerSample / 8)
            m_audioFile :=
              { content := headerBytes format audio.length ++ audio, pos := 68, failed := false }
            m_dataStart := 68
            m_dataSize := audio.length
            m_readPosition := 0 } := by
  have hfile := headerBytes_eq_wavFile format audio
  have hl : (headerBytes format audio.length ++ audio).length = 68 + audio.length := by
    rw [List.length_append, length_headerBytes]
  have hw := open_wavFile (4 + 8 + 40 + 8 + audio.length)
    [Chunk.mk kFmt format.toBytes, Chunk.mk kData audio] [] self locals k (by decide)
    (by
      intro c hc
      rcases List.mem_cons.1 hc with rfl | hc
      · exact kFmt_lt
      · rcases List.mem_cons.1 hc with rfl | hc
        · exact kData_lt
        · cases hc)
    ⟨fun _ => by
        show 40 ≤ format.toBytes.length + _ + _
        rw [FmtChunk.length_toBytes_fmtChunk]; omega,
      fun h => absurd h kData_ne_kFmt, trivial⟩
    (by rw [← hfile, hl]; exact hlen)
  rw [← hfile] at hw
  have hws : walkSpec (headerBytes format audio.length ++ audio)
      [Chunk.mk kFmt format.toBytes, Chunk.mk kData audio] 12
      (self.m_formatChunk, self.m_dataStart, self.m_dataSize)
      = (format, 68, audio.length) := by
    rw [walkSpec_cons, if_pos rfl, walkSpec_cons]
    show walkSpec _ [] _ (if kData = kFmt then _ else if kData = kData then _ else _) = _
    rw [if_neg kData_ne_kFmt, if_pos rfl]
    show (FmtChunk.ofBytes (((headerBytes format audio.length ++ audio).drop (12 + 8)).take 40),
      12 + 8 + format.toBytes.length + 8, audio.length) = _
    have hwin : ((headerBytes format audio.length ++ audio).drop (12 + 8)).take 40
        = format.toBytes := by
      have e : headerBytes format audio.length ++ audio
          = (leBytes 4 kRiff ++ leBytes 4 (4 + 8 + 40 + 8 + audio.length) ++ leBytes 4 kWave
              ++ leBytes 4 kFmt ++ leBytes 4 40)
            ++ (format.toBytes ++ (leBytes 4 kData ++ leBytes 4 audio.length ++ audio)) := by
        simp only [headerBytes, List.append_assoc]
      rw [e, List.drop_left' (by simp [length_leBytes]),
        List.take_left' (FmtChunk.length_toBytes_fmtChunk format)]
    rw [hwin, FmtChunk.ofBytes_toBytes format hrep, FmtChunk.length_toBytes_fmtChunk]
  rw [List.length_cons, List.length_cons, List.length_nil] at hw
  rw [show 0 + 1 + 1 + k = 2 + k by omega] at hw
  rw [hw, hws]
  have hne : ¬ format.m_bitsPerSample / 8 = 0 := by omega
  exact if_neg hne

theorem length_pcm16Bytes (b : List Int) : (pcm16Bytes b).length = 2 * b.length := by
  induction b with
  | nil => rfl
  | cons s b ih => simp only [pcm16Bytes, List.length_cons, ih]; omega

theorem getElem?_pcm16Bytes (b : List Int) :
    ∀ j, j < 2 * b.length →
      (pcm16Bytes b)[j]? = some (wordByte (fun i => (b.getD i 0 % 65536).toNat) j) := by
  induction b with
  | nil => intro j hj; simp at hj
  | cons s b ih =>
      intro j hj
      match j with
      | 0 => simp [pcm16Bytes, wordByte]
      | 1 => simp [pcm16Bytes, wordByte]
      | j + 2 =>
          simp only [List.length_cons] at hj
          simp only [pcm16Bytes, List.getElem?_cons_succ]
          rw [ih j (by omega)]
          have h1 : (j + 2) % 2 = j % 2 := by omega
          have h2 : (j + 2) / 2 = j / 2 + 1 := by omega
          simp only [wordByte, h1, h2, List.getD_cons_succ]

/-- The first `2 * n` bytes of a scratch memory after the 16-bit encoder has run over a
block of `n` samples are the PCM bytes of the block. -/
theorem take_written_wordByte (b : List Int) (scratch : List Nat)
    (h : 2 * b.length ≤ scratch.length) :
    (written (wordByte fun i => (b.getD i 0 % 65536).toNat) (2 * b.length) scratch).take
      (2 * b.length) = pcm16Bytes b := by
  apply List.ext_getElem?
  intro j
  rw [List.getElem?_take]
  by_cases hj : j < 2 * b.length
  · rw [if_pos hj, getElem?_written_lt _ _ scratch j hj (by omega), getElem?_pcm16Bytes b j hj]
  · rw [if_neg hj, List.getElem?_eq_none (by rw [length_pcm16Bytes]; omega)]

/-- A `write16` of a whole non-empty block on a streaming 16-bit writer is carried out
and appends the PCM bytes of the block. -/
theorem write16_block (w : WavAudioFileOutput) (format : FmtChunk) (audio : List Nat)
    (b : List Int) (h : Streaming w format audio) (hbits : format.m_bitsPerSample = 16)
    (hne : b ≠ []) (hlt : b.length * 16 < 2 ^ 32) :
    ∃ w', w.write16 b b.length = some w' ∧ Streaming w' format (audio ++ pcm16Bytes b) ∧
      w'.m_samples = (w.m_samples + b.length) % 2 ^ 32 := by
  have hpos : 0 < b.length := List.length_pos.2 hne
  have hwb : w.m_formatChunk.m_bitsPerSample = 16 := by rw [h.1]; exact hbits
  have hbytes : b.length * w.m_formatChunk.m_bitsPerSample % 2 ^ 32 / 8 = 2 * b.length := by
    rw [hwb, Nat.mod_eq_of_lt hlt]; omega
  have hal := length_allocate_scratch_memory w.m_scratchMemory (2 * b.length)
  have henc := encode_16bit_to_16bit_eq b
    (allocate_scratch_memory w.m_scratchMemory (2 * b.length)) b.length (Nat.le_refl _)
    (by omega)
  have hstep := streaming_step w format audio
    (written (wordByte fun i => (b.getD i 0 % 65536).toNat) (2 * b.length)
      (allocate_scratch_memory w.m_scratchMemory (2 * b.length)))
    (2 * b.length) b.length h (by rw [length_written]; omega)
  rw [take_written_wordByte b _ (by omega)] at hstep
  refine ⟨_, ?_, hstep.1, rfl⟩
  simp only [WavAudioFileOutput.write16, hbytes,
    scratch_memory_allocate _ _ (show 0 < 2 * b.length by omega), Option.some_bind, henc,
    Option.map_some', -Nat.reducePow]

theorem length_pcm16Stream (blocks : List (List Int)) :
    (pcm16Stream blocks).length = 2 * (blocks.map List.length).sum := by
  induction blocks with
  | nil => rfl
  | cons b bs ih =>
      simp only [pcm16Stream, List.length_append, length_pcm16Bytes, ih, List.map_cons,
        List.sum_cons]
      omega

/-- One `write16` per block on a streaming 16-bit writer appends the PCM bytes of the
blocks in order. -/
theorem write16Calls_spec (format : FmtChunk) (hbits : format.m_bitsPerSample = 16) :
    ∀ (blocks : List (List Int)) (w : WavAudioFileOutput) (audio : List Nat),
      Streaming w format audio → (∀ b ∈ blocks, b ≠ []) →
      (∀ b ∈ blocks, b.length * 16 < 2 ^ 32) →
      ∃ w', w.calls (write16Calls blocks) = some w' ∧
        Streaming w' format (audio ++ pcm16Stream blocks) ∧
        w'.m_samples % 2 ^ 32 = (w.m_samples + (blocks.map List.length).sum) % 2 ^ 32 := by
  intro blocks
  induction blocks with
  | nil =>
      intro w audio h _ _
      exact ⟨w, rfl, by simpa [pcm16Stream] using h, by simp⟩
  | cons b bs ih =>
      intro w audio h hne hlt
      obtain ⟨w1, e1, s1, m1⟩ := write16_block w format audio b h hbits
        (hne b (List.mem_cons_self _ _)) (hlt b (List.mem_cons_self _ _))
      obtain ⟨w', e2, s2, m2⟩ := ih w1 (audio ++ pcm16Bytes b) s1
        (fun c hc => hne c (List.mem_cons_of_mem _ hc))
        (fun c hc => hlt c (List.mem_cons_of_mem _ hc))
      refine ⟨w', ?_, ?_, ?_⟩
      · simp only [write16Calls, List.map_cons, WavAudioFileOutput.calls,
          WavAudioFileOutput.call, e1, Option.some_bind]
        exact e2
      · rw [pcm16Stream, ← List.append_assoc]; exact s2
      · rw [m2, m1]
        simp only [List.map_cons, List.sum_cons]
        omega

/-- The 16-bit decoder turns the PCM bytes of a block of `int16_t` samples back into the
block. -/
theorem decode_pcm16Bytes (b buf : List Int) (hbuf : buf.length = b.length)
    (hr : ∀ s ∈ b, -32768 ≤ s ∧ s < 32768) :
    decode_16bit_pcm_to_16bit (pcm16Bytes b) buf b.length = some b := by
  rw [decode_16bit_pcm_to_16bit_eq (pcm16Bytes b) buf b.length
    (by rw [length_pcm16Bytes]) (by omega)]
  congr 1
  apply List.ext_getElem?
  intro j
  by_cases hj : j < b.length
  · rw [getElem?_written_lt _ _ buf j hj (by omega)]
    rw [getD_of_getElem? _ _ 0 _ (getElem?_pcm16Bytes b (2 * j) (by omega)),
      getD_of_getElem? _ _ 0 _ (getElem?_pcm16Bytes b (2 * j + 1) (by omega)),
      wordByte_even, wordByte_odd]
    have hb := getElem?_getD_of_lt b j 0 hj
    obtain ⟨r1, r2⟩ := hr _ (List.getElem?_mem hb)
    rw [int16_of_wordBytes _ r1 r2, hb]
  · rw [List.getElem?_eq_none (by rw [length_written]; omega),
      List.getElem?_eq_none (by omega)]

/-- A `read16` into a buffer of the size of the next block returns the block. -/
theorem read16_block (r : WavAudioFileInput) (pre rest : List Nat) (b buf : List Int)
    (hb : r.m_formatChunk.m_bitsPerSample = 16)
    (hs : r.m_audioFile = ⟨pre ++ (pcm16Bytes b ++ rest), pre.length, false⟩)
    (hbuf : buf.length = b.length) (hne : b ≠ []) (hlt : b.length * 16 < 2 ^ 32)
    (hr : ∀ s ∈ b, -32768 ≤ s ∧ s < 32768) :
    ∃ r', r.read16 buf buf.length = some (r', b) ∧
      r'.m_audioFile
        = ⟨pre ++ (pcm16Bytes b ++ rest), (pre ++ pcm16Bytes b).length, false⟩ ∧
      r'.m_readPosition = (r.m_readPosition + b.length) % 2 ^ 32 ∧
      r'.m_samples = r.m_samples ∧ r'.m_formatChunk = r.m_formatChunk := by
  have hpos : 0 < b.length := List.length_pos.2 hne
  have hf : r.m_audioFile.failed = false := by rw [hs]
  have hp : r.m_audioFile.pos = pre.length := by rw [hs]
  have hc : r.m_audioFile.content = pre ++ (pcm16Bytes b ++ rest) := by rw [hs]
  obtain ⟨r', out, e1, e2, e3, e4, e5, e6⟩ := read16_available r buf b.length hb hf hpos hlt
    (by omega) (by
      rw [hp, hc]
      simp only [List.length_append, length_pcm16Bytes]
      omega)
  have hslice : (r.m_audioFile.content.drop r.m_audioFile.pos).take (2 * b.length)
      = pcm16Bytes b := by
    rw [hp, hc, List.drop_left, List.take_left' (length_pcm16Bytes b)]
  rw [hslice, decode_pcm16Bytes b buf hbuf hr] at e2
  cases e2
  refine ⟨r', by rw [hbuf]; exact e1, ?_, e3, e5, e6⟩
  rw [e4, hs]
  simp only [List.length_append, length_pcm16Bytes]

/-- One `read16` per block, into buffers of the sizes of the blocks, returns the blocks. -/
theorem reads16_blocks :
    ∀ (blocks bufs : List (List Int)) (r : WavAudioFileInput) (pre rest : List Nat),
      r.m_formatChunk.m_bitsPerSample = 16 →
      r.m_audioFile = ⟨pre ++ (pcm16Stream blocks ++ rest), pre.length, false⟩ →
      bufs.map List.length = blocks.map List.length →
      (∀ b ∈ blocks, b ≠ []) → (∀ b ∈ blocks, b.length * 16 < 2 ^ 32) →
      (∀ b ∈ blocks, ∀ s ∈ b, -32768 ≤ s ∧ s < 32768) →
      ∃ r', r.reads16 bufs = some (r', blocks) ∧
        r'.m_audioFile
          = ⟨pre ++ (pcm16Stream blocks ++ rest), (pre ++ pcm16Stream blocks).length, false⟩ ∧
        r'.m_readPosition % 2 ^ 32
          = (r.m_readPosition + (blocks.map List.length).sum) % 2 ^ 32 ∧
        r'.m_samples = r.m_samples := by
  intro blocks
  induction blocks with
  | nil =>
      intro bufs r pre rest _ hs hl _ _ _
      have : bufs = [] := by
        cases bufs with
        | nil => rfl
        | cons a l => simp at hl
      subst this
      refine ⟨r, rfl, ?_, by simp, rfl⟩
      rw [hs]
      simp [pcm16Stream]
  | cons b bs ih =>
      intro bufs r pre rest hb hs hl hne hlt hr
      cases bufs with
      | nil => simp at hl
      | cons buf bufs =>
          simp only [List.map_cons, List.cons.injEq] at hl
          have hs1 : r.m_audioFile
              = ⟨pre ++ (pcm16Bytes b ++ (pcm16Stream bs ++ rest)), pre.length, false⟩ := by
            rw [hs, pcm16Stream, List.append_assoc]
          obtain ⟨r1, e1, a1, p1, m1, f1⟩ := read16_block r pre (pcm16Stream bs ++ rest) b buf hb
            hs1 hl.1 (hne b (List.mem_cons_self _ _)) (hlt b (List.mem_cons_self _ _))
            (hr b (List.mem_cons_self _ _))
          have hs2 : r1.m_audioFile
              = ⟨(pre ++ pcm16Bytes b) ++ (pcm16Stream bs ++ rest), (pre ++ pcm16Bytes b).length,
                  false⟩ := by
            rw [a1, List.append_assoc]
          obtain ⟨r', e2, a2, p2, m2⟩ := ih bufs r1 (pre ++ pcm16Bytes b) rest
            (by rw [f1]; exact hb) hs2 hl.2
            (fun c hc => hne c (List.mem_cons_of_mem _ hc))
            (fun c hc => hlt c (List.mem_cons_of_mem _ hc))
            (fun c hc => hr c (List.mem_cons_of_mem _ hc))
          refine ⟨r', ?_, ?_, ?_, by rw [m2, m1]⟩
          · simp only [WavAudioFileInput.reads16, e1, Option.some_bind, e2, Option.map_some']
          · rw [a2]
            simp only [pcm16Stream, List.append_assoc]
          · rw [p2, p1]
            simp only [List.map_cons, List.sum_cons]
            omega

/-- C22. For every 16-bit format (its fields within their widths) and every sequence of
`write16` calls carrying non-empty blocks `b_1..b_m` of `int16_t` samples, each block of
fewer than `2^28` samples and the file shorter than `2^32` bytes: the writer's `open`, the
writes and `close` are carried out and leave a file of 68 header bytes and 2 bytes per
sample; the reader's `open` accepts it (within two loop iterations) and recovers the same
FormatDescriptor, a data start equal to the header length 68, a data size equal to the
bytes written, a total sample count equal to the number of samples written and a zero
read cursor; and reading with one `read16` per block, into buffers of the sizes of the
blocks, returns `b_1..b_m` and leaves no sample remaining. -/
theorem C22_written_file_reads_back (writer : WavAudioFileOutput) (reader : WavAudioFileInput)
    (locals : Locals) (format : FmtChunk) (blocks bufs : List (List Int)) (k : Nat)
    (hrep : format.representable) (hbits : format.m_bitsPerSample = 16)
    (hne : ∀ b ∈ blocks, b ≠ []) (hblk : ∀ b ∈ blocks, b.length * 16 < 2 ^ 32)
    (hrange : ∀ b ∈ blocks, ∀ s ∈ b, -32768 ≤ s ∧ s < 32768)
    (hsize : 68 + 2 * (blocks.map List.length).sum < 2 ^ 32)
    (hbufs : bufs.map List.length = blocks.map List.length) :
    ∃ w r r',
      (writer.open format true).calls (write16Calls blocks) = some w ∧
      w.m_audioDataSize = 2 * (blocks.map List.length).sum ∧
      w.close.m_audioFile.content.length = 68 + 2 * (blocks.map List.length).sum ∧
      WavAudioFileInput.open (2 + k) reader (some w.close.m_audioFile.content) locals
        = Outcome.ok r ∧
      r.m_formatChunk = format ∧ r.m_dataStart = 68 ∧
      r.m_dataSize = 2 * (blocks.map List.length).sum ∧
      r.m_samples = (blocks.map List.length).sum ∧ r.m_readPosition = 0 ∧
      r.samples_remaining = (blocks.map List.length).sum ∧
      r.reads16 bufs = some (r', blocks) ∧ r'.samples_remaining = 0 := by
  obtain ⟨w, e1, s1, _⟩ := write16Calls_spec format hbits blocks _ []
    (open_streaming writer format) hne hblk
  rw [List.nil_append] at s1
  have hlen := length_pcm16Stream blocks
  have hds : w.m_audioDataSize = (pcm16Stream blocks).length := by
    rw [s1.2.2, hlen]
    exact Nat.mod_eq_of_lt (by omega)
  have hclose := close_streaming w format _ s1
  have hcontent : w.close.m_audioFile.content
      = headerBytes format (pcm16Stream blocks).length ++ pcm16Stream blocks := by
    rw [hclose, hds]
  have hopen := open_written_file format (pcm16Stream blocks) reader locals k hrep
    (by omega) (by omega)
  obtain ⟨r', e2, _, p2, m2⟩ := reads16_blocks blocks bufs
    { m_scratchMemory := reader.m_scratchMemory
      m_formatChunk := format
      m_samples := (pcm16Stream blocks).length / (format.m_bitsPerSample / 8)
      m_audioFile := ⟨headerBytes format (pcm16Stream blocks).length ++ pcm16Stream blocks, 68,
        false⟩
      m_dataStart := 68
      m_dataSize := (pcm16Stream blocks).length
      m_readPosition := 0 }
    (headerBytes format (pcm16Stream blocks).length) [] hbits
    (by rw [List.append_nil, length_headerBytes]) hbufs hne hblk hrange
  have hsamples : (pcm16Stream blocks).length / (format.m_bitsPerSample / 8)
      = (blocks.map List.length).sum := by
    rw [hbits, hlen]; omega
  refine ⟨w, _, r', e1, by rw [hds, hlen], ?_, by rw [hcontent]; exact hopen, rfl, rfl, hlen,
    hsamples, rfl, ?_, e2, ?_⟩
  · rw [hcontent, List.length_append, length_headerBytes, hlen]
  · show ((pcm16Stream blocks).length / (format.m_bitsPerSample / 8) + 2 ^ 32 - 0 % 2 ^ 32)
      % 2 ^ 32 = _
    rw [hsamples]
    omega
  · unfold WavAudioFileInput.samples_remaining
    rw [m2, p2]
    show ((pcm16Stream blocks).length / (format.m_bitsPerSample / 8) + 2 ^ 32
      - (0 + (blocks.map List.length).sum) % 2 ^ 32) % 2 ^ 32 = 0
    rw [hsamples]
    omega

theorem C22_written_file_reads_back_witness :
    (make_format 2 48000).representable ∧ (make_format 2 48000).m_bitsPerSample = 16 ∧
    (∀ b ∈ [[1, -2], [(3 : Int)]], b ≠ []) ∧
    (∀ b ∈ [[1, -2], [(3 : Int)]], b.length * 16 < 2 ^ 32) ∧
    (∀ b ∈ [[1, -2], [(3 : Int)]], ∀ s ∈ b, -32768 ≤ s ∧ s < 32768) ∧
    68 + 2 * ([[1, -2], [(3 : Int)]].map List.length).sum < 2 ^ 32 ∧
    [[0, 0], [(0 : Int)]].map List.length = [[1, -2], [(3 : Int)]].map List.length ∧
    ∃ w r r',
      ((WavAudioFileOutput.constructed 0).open (make_format 2 48000) true).calls
        (write16Calls [[1, -2], [3]]) = some w ∧
      w.m_audioDataSize = 2 * ([[1, -2], [(3 : Int)]].map List.length).sum ∧
      w.close.m_audioFile.content.length
        = 68 + 2 * ([[1, -2], [(3 : Int)]].map List.length).sum ∧
      WavAudioFileInput.open (2 + 0) (WavAudioFileInput.constructed 0 0 0)
        (some w.close.m_audioFile.content) zeroLocals = Outcome.ok r ∧
      r.m_formatChunk = make_format 2 48000 ∧ r.m_dataStart = 68 ∧
      r.m_dataSize = 2 * ([[1, -2], [(3 : Int)]].map List.length).sum ∧
      r.m_samples = ([[1, -2], [(3 : Int)]].map List.length).sum ∧ r.m_readPosition = 0 ∧
      r.samples_remaining = ([[1, -2], [(3 : Int)]].map List.length).sum ∧
      r.reads16 [[0, 0], [0]] = some (r', [[1, -2], [3]]) ∧ r'.samples_remaining = 0 :=
  ⟨by decide, by decide, by decide, by decide, by decide, by decide, by decide,
    C22_written_file_reads_back (WavAudioFileOutput.constructed 0)
      (WavAudioFileInput.constructed 0 0 0) zeroLocals (make_format 2 48000)
      [[1, -2], [3]] [[0, 0], [0]] 0
      (by decide) (by decide) (by decide) (by decide) (by decide) (by decide) (by decide)⟩

end AudioMix
